import Mathlib

/-!
# MemoryPal: graph store, capture producer and task queue

A shallow embedding of the storage layer (`lib/idb.js`), the pipeline
persistence step (`lib/pipeline.js`) and the capture producer with its
durable queue (`background.js`).

Conventions of the embedding.

* A JavaScript string is the list of its UTF-16 code units, so that `<`
  on strings is the code-unit lexicographic order the language defines.
* A JavaScript number is a rational; arithmetic is exact and `NaN` and the
  infinities have no counterpart.
* An optional property of an object literal is an `Option`; `none` stands
  for a key that is absent (reading it gives `undefined`).
* `new Date().toISOString()` is the parameter `now` of the operation that
  reads the clock.
* An IndexedDB object store with in-line key `id` is the list of its
  records; `put` drops the record that has the key and adds the new one.
  Requests are modelled on their success path.
-/

namespace MemoryPal

/-! ## Strings -/

/-- A JavaScript string, as its UTF-16 code units. -/
abbrev JSString := List Nat

/-- The UTF-16 code units of one Unicode scalar value. -/
def utf16 (c : Char) : List Nat :=
  if c.toNat < 65536 then [c.toNat]
  else [55296 + (c.toNat - 65536) / 1024, 56320 + (c.toNat - 65536) % 1024]

/-- The JavaScript string written as the literal `s`. -/
def js (s : String) : JSString := s.toList.flatMap utf16

/-- The relational operator `a < b` on two strings: code-unit lexicographic order. -/
def strLt : JSString → JSString → Bool
  | [], [] => false
  | [], _ :: _ => true
  | _ :: _, [] => false
  | a :: as, b :: bs => if a < b then true else if b < a then false else strLt as bs

/-- The order `a <= b` on strings, that is, not `b < a`. -/
def strLe (a b : JSString) : Bool := !strLt b a

/-- Truthiness of a string value: every string but the empty one. -/
def truthy (s : JSString) : Bool := !s.isEmpty

/-- The expression `v || d` for an optional string `v` and a string `d`. -/
def orStr (v : Option JSString) (d : JSString) : JSString :=
  match v with
  | some s => if truthy s then s else d
  | none => d

/-- The expression `v || null` for an optional string `v`. -/
def orNull (v : Option JSString) : Option JSString :=
  match v with
  | some s => if truthy s then some s else none
  | none => none

/-! ## Metadata objects -/

/-- A value held in a metadata object. -/
inductive MetaValue where
  | str (s : JSString)
  | num (q : ℚ)
  deriving DecidableEq

/-- An open map from property names to values, as an association list. -/
abbrev Metadata := List (JSString × MetaValue)

/-- Reading property `k` of a metadata object. -/
def Metadata.get (m : Metadata) (k : JSString) : Option MetaValue :=
  (m.find? (fun kv => kv.1 == k)).map Prod.snd

/-- The object spread `{ ...a, ...b }`: the properties of `b`, then those of `a`
that `b` does not define. -/
def Metadata.spread (a b : Metadata) : Metadata :=
  b ++ a.filter (fun kv => (Metadata.get b kv.1).isNone)

/-! ## Relations (`lib/idb.js`) -/

/-- The argument of `normalizeRelation`. -/
structure Relation where
  id : Option JSString
  sourceType : JSString
  sourceId : JSString
  targetType : JSString
  targetId : JSString
  relType : Option JSString
  weight : Option ℚ
  created_at : Option JSString
  metadata : Option Metadata
  deriving DecidableEq

/-- A record of the `relations` object store. -/
structure RelationRecord where
  id : JSString
  sourceType : JSString
  sourceId : JSString
  sourceKey : JSString
  targetType : JSString
  targetId : JSString
  targetKey : JSString
  relType : JSString
  weight : ℚ
  created_at : JSString
  updated_at : JSString
  metadata : Metadata
  deriving DecidableEq

/-- The template `${type}:${id}` of a node key. -/
def nodeKey (type id : JSString) : JSString := type ++ js ":" ++ id

/-- Source `buildRelId`. -/
def buildRelId (sourceType sourceId relType targetType targetId : JSString) : JSString :=
  sourceType ++ js ":" ++ sourceId ++ js "|" ++ relType ++ js "|" ++ targetType ++ js ":" ++ targetId

/-- Source `isUndirectedRelationType`. -/
def isUndirectedRelationType (relType : JSString) : Bool :=
  relType == js "CO_MENTION" || relType == js "PAGE_SIMILAR" || relType == js "SIMILAR"

/-- Source `normalizeRelation`. -/
def normalizeRelation (rel : Relation) (now : JSString) : RelationRecord :=
  let relType := orStr rel.relType (js "RELATED_TO")
  let swap := isUndirectedRelationType relType && rel.sourceType == rel.targetType &&
    strLt (nodeKey rel.targetType rel.targetId) (nodeKey rel.sourceType rel.sourceId)
  let sourceType := if swap then rel.targetType else rel.sourceType
  let targetType := if swap then rel.sourceType else rel.targetType
  let sourceId := if swap then rel.targetId else rel.sourceId
  let targetId := if swap then rel.sourceId else rel.targetId
  { id := orStr rel.id (buildRelId sourceType sourceId relType targetType targetId)
    sourceType := sourceType
    sourceId := sourceId
    sourceKey := nodeKey sourceType sourceId
    targetType := targetType
    targetId := targetId
    targetKey := nodeKey targetType targetId
    relType := relType
    weight := match rel.weight with
      | some w => w
      | none => 1
    created_at := orStr rel.created_at now
    updated_at := now
    metadata := rel.metadata.getD [] }

/-- The request `store.put(r)` on an object store whose key path is `id`. -/
def storePut {α : Type} (key : α → JSString) (store : List α) (r : α) : List α :=
  store.filter (fun x => key x != key r) ++ [r]

/-- Source `upsertRelation`, as its effect on the `relations` store. -/
def upsertRelation (store : List RelationRecord) (rel : Relation) (now : JSString) :
    List RelationRecord :=
  storePut RelationRecord.id store (normalizeRelation rel now)

/-- Source `bulkUpsertRelations`, as its effect on the `relations` store. -/
def bulkUpsertRelations (store : List RelationRecord) (relations : List Relation)
    (now : JSString) : List RelationRecord :=
  if relations.length = 0 then store
  else (relations.map (fun rel => normalizeRelation rel now)).foldl (storePut RelationRecord.id) store

/-- Source `getRelationsBySource`: the cursor over `by_source` at one key. -/
def getRelationsBySource (store : List RelationRecord) (sourceType sourceId : JSString) :
    List RelationRecord :=
  store.filter (fun r => r.sourceKey == nodeKey sourceType sourceId)

/-- Source `deleteRelationsBySource`; `relType = none` is the call without a third argument. -/
def deleteRelationsBySource (store : List RelationRecord) (sourceType sourceId : JSString)
    (relType : Option JSString) : List RelationRecord :=
  store.filter (fun r =>
    !(r.sourceKey == nodeKey sourceType sourceId &&
      (match relType with
        | none => true
        | some t => !truthy t || r.relType == t)))

/-- A relation record with its two timestamps blanked. -/
def RelationRecord.dropTimes (r : RelationRecord) : RelationRecord :=
  { r with created_at := [], updated_at := [] }

/-! ## Hashing and string helpers -/

/-- The conversion `ToInt32` on an integral number. -/
def toInt32 (x : Int) : Int :=
  if x % 4294967296 ≥ 2147483648 then x % 4294967296 - 4294967296 else x % 4294967296

/-- The conversion `ToUint32` on an integral number, as in `x >>> 0`. -/
def toUint32 (x : Int) : Nat := (x % 4294967296).toNat

/-- The operator `a ^ b` on two integral numbers. -/
def jsXor (a b : Int) : Int := toInt32 (Int.ofNat (Nat.xor (toUint32 a) (toUint32 b)))

/-- The operator `a << k` on an integral number, for `k < 32`. -/
def jsShl (a : Int) (k : Nat) : Int := toInt32 (toInt32 a * 2 ^ k)

/-- One round of the hash loop: `h ^= c; h += (h << 1) + (h << 4) + (h << 7) + (h << 8) + (h << 24)`. -/
def fnvStep (h : Int) (c : Nat) : Int :=
  jsXor h (Int.ofNat c) +
    (jsShl (jsXor h (Int.ofNat c)) 1 + jsShl (jsXor h (Int.ofNat c)) 4 +
      jsShl (jsXor h (Int.ofNat c)) 7 + jsShl (jsXor h (Int.ofNat c)) 8 +
      jsShl (jsXor h (Int.ofNat c)) 24)

/-- The loop shared by `hashKey`, `hashLite`, `hashToken` and the fallback of
`hashString`, up to the final `h >>> 0`. -/
def fnv1a (str : JSString) : Nat := toUint32 (str.foldl fnvStep 2166136261)

/-- The code unit of one base-36 digit. -/
def digit36 (d : Nat) : Nat := if d < 10 then 48 + d else 87 + d

/-- The digits of `n` in base 36 in front of `acc`; `fuel` bounds the number of digits. -/
def toString36Aux : Nat → Nat → JSString → JSString
  | 0, _, acc => acc
  | fuel + 1, n, acc =>
    if n < 36 then digit36 n :: acc else toString36Aux fuel (n / 36) (digit36 (n % 36) :: acc)

/-- The call `n.toString(36)` on a non-negative integer. -/
def toString36 (n : Nat) : JSString := toString36Aux (n + 1) n []

/-- Source `hashKey` (`lib/idb.js`), and the identically coded `hashLite` (`lib/pipeline.js`). -/
def hashKey (str : JSString) : JSString := toString36 (fnv1a str)

/-- White space and line terminators, the code units `trim` strips. -/
def isWhiteSpace (c : Nat) : Bool :=
  c == 9 || c == 10 || c == 11 || c == 12 || c == 13 || c == 32 || c == 160 || c == 5760 ||
    (8192 ≤ c && c ≤ 8202) || c == 8232 || c == 8233 || c == 8239 || c == 8287 || c == 12288 ||
    c == 65279

/-- The method `trim`. -/
def trim (s : JSString) : JSString :=
  ((s.dropWhile isWhiteSpace).reverse.dropWhile isWhiteSpace).reverse

/-- The method `join(sep)` on an array of strings. -/
def join (sep : JSString) (xs : List JSString) : JSString := List.intercalate sep xs

/-- The array `Array.from(new Set(xs))`: the first occurrence of every string, in order. -/
def setFromList : List JSString → List JSString
  | [] => []
  | x :: xs => x :: (setFromList xs).filter (fun y => y != x)

/-! ## Entities (`lib/idb.js`) -/

/-- The argument of `upsertEntity`: an object that may carry any property of an entity record. -/
structure Entity where
  id : Option JSString
  name : Option JSString
  nameL : Option JSString
  type : Option JSString
  aliases : Option (List JSString)
  created_at : Option JSString
  updated_at : Option JSString
  weight : Option ℚ
  metadata : Option Metadata
  deriving DecidableEq

/-- A record of the `entities` object store. -/
structure EntityRecord where
  id : JSString
  name : JSString
  nameL : JSString
  type : JSString
  aliases : List JSString
  created_at : JSString
  updated_at : JSString
  weight : Option ℚ
  metadata : Option Metadata
  deriving DecidableEq

/-- Source `normalizeEntity`. The host method `toLowerCase` is the parameter `lower`,
and `random` is the text of `Math.random().toString()`. The last line of the
object literal, `...entity`, lets every property the argument carries replace
the one computed before it. -/
def normalizeEntity (lower : JSString → JSString) (entity : Entity)
    (existing : Option EntityRecord) (now random : JSString) : EntityRecord :=
  let name := trim (orStr entity.name (orStr (existing.map EntityRecord.name) []))
  let type := orStr entity.type (orStr (existing.map EntityRecord.type) (js "Unknown"))
  let id := orStr entity.id (orStr (existing.map EntityRecord.id)
    (if truthy name then js "ent:" ++ hashKey (name ++ js "|" ++ type)
     else js "ent:" ++ hashKey (orStr (some (join (js "|") (entity.aliases.getD []))) random)))
  let aliases := setFromList
    ((((existing.map EntityRecord.aliases).getD [] ++ entity.aliases.getD [] ++
      (if truthy name then [name] else [])).map trim).filter truthy)
  { id := entity.id.getD id
    name := entity.name.getD name
    nameL := entity.nameL.getD (lower name)
    type := entity.type.getD type
    aliases := entity.aliases.getD aliases
    created_at := entity.created_at.getD
      (orStr (existing.map EntityRecord.created_at) (orStr entity.created_at now))
    updated_at := entity.updated_at.getD now
    weight := entity.weight
    metadata := entity.metadata }

/-- Source `getEntityById`. -/
def getEntityById (store : List EntityRecord) (id : JSString) : Option EntityRecord :=
  store.find? (fun e => e.id == id)

/-- Source `upsertEntity`, as its effect on the `entities` store. -/
def upsertEntity (lower : JSString → JSString) (store : List EntityRecord) (entity : Entity)
    (now random : JSString) : List EntityRecord :=
  storePut EntityRecord.id store
    (normalizeEntity lower entity
      (match entity.id with
        | some i => if truthy i then getEntityById store i else none
        | none => none)
      now random)

/-! ## Pages (`lib/idb.js`) -/

/-- An embedding vector: the numbers held by a `Float32Array`. -/
abbrev Embedding := List ℚ

/-- A note as an argument of `normalizeNotes`. -/
structure NoteInput where
  id : Option JSString
  text : Option JSString
  timestamp : Option JSString
  deriving DecidableEq

/-- A note of a stored page. -/
structure Note where
  id : JSString
  text : JSString
  timestamp : JSString
  deriving DecidableEq

/-- A stored note read back as an argument. -/
def Note.toInput (n : Note) : NoteInput :=
  { id := some n.id, text := some n.text, timestamp := some n.timestamp }

/-- The argument of `upsertPage`. A key that is absent is `none`; for `embedding`,
`some none` is a key that holds `null` or `undefined`. -/
structure Page where
  id : Option JSString
  title : Option JSString
  url : Option JSString
  timestamp : Option JSString
  summary : Option JSString
  content : Option JSString
  contentHash : Option JSString
  embedding : Option (Option Embedding)
  embeddingDim : Option Nat
  notes : Option (List NoteInput)
  tags : Option (List JSString)
  metadata : Option Metadata
  created_at : Option JSString
  deriving DecidableEq

/-- A record of the `pages` object store. -/
structure PageRecord where
  id : JSString
  title : JSString
  url : JSString
  timestamp : JSString
  summary : JSString
  content : JSString
  contentHash : Option JSString
  embedding : Option Embedding
  embeddingDim : Nat
  notes : List Note
  tags : List JSString
  metadata : Metadata
  created_at : JSString
  updated_at : JSString
  deriving DecidableEq

/-- Source `DEFAULT_EMBEDDING_DIM`. -/
def DEFAULT_EMBEDDING_DIM : Nat := 384

/-- Source `normalizeNotes` on an array, from index `i` on; `fresh k` is the id
generated for a note at index `k` that has none. -/
def normalizeNotesFrom (now : JSString) (fresh : Nat → JSString) : Nat → List NoteInput → List Note
  | _, [] => []
  | i, note :: rest =>
    { id := orStr note.id (fresh i)
      text := orStr note.text []
      timestamp := orStr note.timestamp now } :: normalizeNotesFrom now fresh (i + 1) rest

/-- Source `normalizeNotes`; `none` is a value that is not an array. -/
def normalizeNotes (notes : Option (List NoteInput)) (now : JSString) (fresh : Nat → JSString) :
    List Note :=
  match notes with
  | none => []
  | some ns => normalizeNotesFrom now fresh 0 ns

/-- Source `serializeEmbedding`, then `deserializeEmbedding` when the record is read,
on a vector of float32 numbers (`Embedding`), which the conversion to a
`Float32Array` and back leaves as it is; anything else is `null`. -/
def serializeEmbedding (vec : Option (Option Embedding)) : Option Embedding :=
  match vec with
  | some (some v) => some v
  | _ => none

/-- Source `normalizePage`, on an object whose `id` is `id`. -/
def normalizePage (id : JSString) (page : Page) (now : JSString) (fresh : Nat → JSString) :
    PageRecord :=
  { id := id
    title := orStr page.title []
    url := orStr page.url []
    timestamp := orStr page.timestamp now
    summary := orStr page.summary []
    content := orStr page.content []
    contentHash := orNull page.contentHash
    embedding := serializeEmbedding page.embedding
    embeddingDim := match page.embeddingDim with
      | some d => if d = 0 then DEFAULT_EMBEDDING_DIM else d
      | none => DEFAULT_EMBEDDING_DIM
    notes := normalizeNotes page.notes now fresh
    tags := page.tags.getD []
    metadata := page.metadata.getD []
    created_at := orStr page.created_at now
    updated_at := now }

/-- Source `getPageById`. -/
def getPageById (store : List PageRecord) (id : Option JSString) : Option PageRecord :=
  match id with
  | some i => if truthy i then store.find? (fun r => r.id == i) else none
  | none => none

/-- Source `getPageByUrl`. -/
def getPageByUrl (store : List PageRecord) (url : JSString) : Option PageRecord :=
  store.find? (fun r => r.url == url)

/-- The object `merged` of `upsertPage`: the spread of the existing record and of the
argument, with `notes`, `tags` and `metadata` set after the spread. -/
def mergePage (existing : Option PageRecord) (page : Page) : Page :=
  { id := page.id
    title := page.title.orElse (fun _ => existing.map PageRecord.title)
    url := page.url.orElse (fun _ => existing.map PageRecord.url)
    timestamp := page.timestamp.orElse (fun _ => existing.map PageRecord.timestamp)
    summary := page.summary.orElse (fun _ => existing.map PageRecord.summary)
    content := page.content.orElse (fun _ => existing.map PageRecord.content)
    contentHash := page.contentHash.orElse (fun _ => existing.bind PageRecord.contentHash)
    embedding := page.embedding.orElse (fun _ => existing.map PageRecord.embedding)
    embeddingDim := page.embeddingDim.orElse (fun _ => existing.map PageRecord.embeddingDim)
    notes := page.notes.orElse (fun _ => existing.map (fun r => r.notes.map Note.toInput))
    tags := page.tags.orElse (fun _ => existing.map PageRecord.tags)
    metadata := some (Metadata.spread ((existing.map PageRecord.metadata).getD [])
      (page.metadata.getD []))
    created_at := page.created_at.orElse (fun _ => existing.map PageRecord.created_at) }

/-- The request `store.put(r)` on the `pages` store, whose index `by_url` is unique:
the request fails, `none`, when a record under another id holds the url of `r`. -/
def putPage (store : List PageRecord) (r : PageRecord) : Option (List PageRecord) :=
  if store.any (fun x => x.id != r.id && x.url == r.url) then none
  else some (storePut PageRecord.id store r)

/-- Source `upsertPage`: the `pages` store after the call, `none` when the promise
rejects and the store is left as it was. A record without an `id` has no key, and
the `put` request fails. -/
def upsertPage (store : List PageRecord) (page : Page) (now : JSString) (fresh : Nat → JSString) :
    Option (List PageRecord) :=
  match page.id with
  | none => none
  | some id => putPage store (normalizePage id (mergePage (getPageById store page.id) page) now fresh)

/-- The records of an object store in the order a cursor walks them: by primary key. -/
def byPrimaryKey {α : Type} (key : α → JSString) (store : List α) : List α :=
  store.insertionSort (fun a b => strLe (key a) (key b) = true)

/-- Source `getAllPages`: the cursor over the `pages` store. -/
def getAllPages (store : List PageRecord) : List PageRecord := byPrimaryKey PageRecord.id store

/-- A page record as `normalizePage` leaves it when the clock reading and the
generated note ids are non-empty strings: the fields read back through `||`
are truthy or `null`. -/
def PageRecord.Normalized (r : PageRecord) : Prop :=
  truthy r.timestamp = true ∧ truthy r.created_at = true ∧ r.contentHash ≠ some [] ∧
    ∀ n ∈ r.notes, truthy n.id = true ∧ truthy n.timestamp = true

instance (r : PageRecord) : Decidable r.Normalized := by
  unfold PageRecord.Normalized
  infer_instance

/-! ## Capture producer and task queue (`background.js`) -/

/-- Source `MAX_CAPTURE_CHARS`. -/
def MAX_CAPTURE_CHARS : Nat := 60000

/-- A pipeline task. -/
structure Task where
  taskId : JSString
  pageId : JSString
  url : JSString
  title : JSString
  text : JSString
  meta : JSString
  contentHash : JSString
  timestamp : JSString
  deriving DecidableEq

/-- The result of the capture script: `{ title, meta, text }`. -/
structure Capture where
  title : Option JSString
  meta : Option JSString
  text : Option JSString
  deriving DecidableEq

/-- The tab handed to `analyzePage`. -/
structure Tab where
  url : JSString
  title : Option JSString
  deriving DecidableEq

/-- An entry of the `pages` array kept in extension storage when the graph store
cannot be written. -/
structure PageStub where
  id : JSString
  title : JSString
  url : JSString
  timestamp : JSString
  summary : JSString
  content : JSString
  contentHash : JSString
  deriving DecidableEq

/-- What the background worker can read and write: the `pages` object store
(`none` when `MemoryPalDB` is not loaded), the `pages` array and the pipeline
queue of extension storage (`none` when the key was never set), and the
`PIPELINE_NEW_TASK` messages sent so far. -/
structure Background where
  db : Option (List PageRecord)
  pages : Option (List PageStub)
  queue : Option (List Task)
  sent : List Task
  deriving DecidableEq

/-- Source `hashString`. The host digest (SHA-256 rendered in hexadecimal) is the
parameter `digest`, `none` when it throws; the catch branch is the FNV loop. -/
def hashString (digest : JSString → Option JSString) (input : JSString) : JSString :=
  match digest input with
  | some h => h
  | none => toString36 (fnv1a input)

/-- Source `readPipelineQueue`. -/
def readPipelineQueue (queue : Option (List Task)) : List Task := queue.getD []

/-- The method `findIndex`, `none` for the result `-1`. -/
def findIndex {α : Type} (p : α → Bool) : List α → Option Nat
  | [] => none
  | x :: xs => if p x then some 0 else (findIndex p xs).map (fun i => i + 1)

/-- Source `enqueuePipelineTask`, as its effect on the stored queue. -/
def enqueuePipelineTask (queue : Option (List Task)) (task : Task) : Option (List Task) :=
  match findIndex (fun t => t.taskId == task.taskId) (readPipelineQueue queue) with
  | some idx => some ((readPipelineQueue queue).set idx task)
  | none => some (readPipelineQueue queue ++ [task])

/-- Source `tryDispatchTask`: the message is sent, whether or not a consumer receives it. -/
def tryDispatchTask (sent : List Task) (task : Task) : List Task := sent ++ [task]

/-- The text `analyzePage` keeps of a capture: `(capture.text || '').slice(0, MAX_CAPTURE_CHARS)`. -/
def captureText (capture : Capture) : JSString := (orStr capture.text []).take MAX_CAPTURE_CHARS

/-- The `contentHash` computed by `analyzePage`: the hash of `${url}|${text}`. -/
def captureHash (digest : JSString → Option JSString) (url : JSString) (capture : Capture) :
    JSString :=
  hashString digest (url ++ js "|" ++ captureText capture)

/-- The fallback of `analyzePage` when the page stub cannot be written to the graph store. -/
def storeStub (pages : Option (List PageStub)) (entry : PageStub) : Option (List PageStub) :=
  match findIndex (fun p => p.url == entry.url) (pages.getD []) with
  | some idx => some ((pages.getD []).set idx entry)
  | none => some (pages.getD [] ++ [entry])

/-- Source `analyzePage`; `capture` is the result of `captureTabContent(tab.id)`. The
page stub goes to the `pages` array of extension storage when the graph store is
not loaded or rejects the write. -/
def analyzePage (digest : JSString → Option JSString) (w : Background) (tab : Tab)
    (capture : Option Capture) (now : JSString) (fresh : Nat → JSString) : Background :=
  match capture with
  | none => w
  | some cap =>
    if !truthy (trim (captureText cap)) then w
    else
      let title := orStr cap.title (orStr tab.title [])
      let contentHash := captureHash digest tab.url cap
      let existing := w.db.bind (fun store => getPageByUrl store tab.url)
      if w.db.isSome && existing.bind PageRecord.contentHash == some contentHash then w
      else
        let pageId := orStr (existing.map PageRecord.id) (hashString digest tab.url)
        let task : Task :=
          { taskId := hashString digest (pageId ++ js "|" ++ contentHash)
            pageId := pageId
            url := tab.url
            title := title
            text := captureText cap
            meta := orStr cap.meta []
            contentHash := contentHash
            timestamp := now }
        let written := w.db.bind (fun store =>
          upsertPage store
            { id := some pageId
              title := some title
              url := some tab.url
              timestamp := some now
              summary := some (orStr (existing.map PageRecord.summary) [])
              content := some (captureText cap)
              contentHash := some contentHash
              embedding := some (existing.bind PageRecord.embedding)
              embeddingDim := none
              notes := existing.map (fun r => r.notes.map Note.toInput)
              tags := existing.map PageRecord.tags
              metadata := some (Metadata.spread ((existing.map PageRecord.metadata).getD [])
                [(js "metaDescription", MetaValue.str (orStr cap.meta []))])
              created_at := none } now fresh)
        { db := match written with
            | some store => some store
            | none => w.db
          pages := match written with
            | some _ => w.pages
            | none => storeStub w.pages
                { id := pageId, title := title, url := tab.url, timestamp := now, summary := [],
                  content := captureText cap, contentHash := contentHash }
          queue := enqueuePipelineTask w.queue task
          sent := tryDispatchTask w.sent task }

/-! ## Queue handlers (`background.js`) -/

/-- Source `writePipelineQueue`: the value stored under the queue key. -/
def writePipelineQueue (queue : List Task) : Option (List Task) := some queue

/-- The handler of `PIPELINE_REQUEST_QUEUE`: the queue sent in the response, and the
stored queue after the handler has run. -/
def requestQueue (queue : Option (List Task)) : List Task × Option (List Task) :=
  (readPipelineQueue queue, writePipelineQueue [])

/-- The handler of `PIPELINE_TASK_COMPLETE`, as its effect on the stored queue. -/
def taskComplete (queue : Option (List Task)) (taskId : JSString) : Option (List Task) :=
  writePipelineQueue ((readPipelineQueue queue).filter (fun task => task.taskId != taskId))

/-! ## Pipeline persistence (`lib/pipeline.js`) -/

/-- The three object stores the pipeline writes. -/
structure GraphStore where
  pages : List PageRecord
  entities : List EntityRecord
  relations : List RelationRecord
  deriving DecidableEq

/-- An entity as `extractEntities` resolves it. -/
structure ResolvedEntity where
  name : JSString
  type : JSString
  weight : ℚ
  aliases : List JSString
  source : JSString
  frequency : ℚ
  id : JSString
  deriving DecidableEq

/-- The result of `summarizeTask`. -/
structure SummaryResult where
  summary : JSString
  source : JSString
  deriving DecidableEq

/-- Source `PAGE_SIMILARITY_THRESHOLD`, the number 0.18. -/
def PAGE_SIMILARITY_THRESHOLD : ℚ := 9 / 50

/-- Source `cosineSimilarity` (`lib/embeddings.js`) on two vectors: the dot product
over the shorter length. The numbers are those of any ordered field, the
rationals for stored vectors. -/
def cosineSimilarity {R : Type} [LinearOrderedField R] (a b : List R) : R :=
  (List.zipWith (fun x y => x * y) a b).foldl (fun dot p => dot + p) 0

/-- The expression `Number(ent.weight || 1)`. -/
def weightOrOne (weight : ℚ) : ℚ := if weight = 0 then 1 else weight

/-- The argument `persistKnowledge` gives `upsertEntity` for one entity. -/
def entityUpdate (ent : ResolvedEntity) : Entity :=
  { id := some ent.id
    name := some ent.name
    nameL := none
    type := some ent.type
    aliases := some ent.aliases
    created_at := none
    updated_at := none
    weight := some ent.weight
    metadata := some [(js "source", MetaValue.str ent.source)] }

/-- The MENTIONS relation `persistKnowledge` builds for one entity. -/
def mentionsRelation (task : Task) (ent : ResolvedEntity) : Relation :=
  { id := none
    sourceType := js "page"
    sourceId := task.pageId
    targetType := js "entity"
    targetId := ent.id
    relType := some (js "MENTIONS")
    weight := some (weightOrOne ent.weight)
    created_at := none
    metadata := some [(js "frequency", MetaValue.num ent.frequency),
      (js "source", MetaValue.str ent.source)] }

/-- The pairs `(entityRecords[i], entityRecords[j])` with `i < j`, in loop order. -/
def entityPairs : List ResolvedEntity → List (ResolvedEntity × ResolvedEntity)
  | [] => []
  | a :: rest => rest.map (fun b => (a, b)) ++ entityPairs rest

/-- The CO_MENTION relation `persistKnowledge` builds for one pair. -/
def coMentionRelation (task : Task) (pair : ResolvedEntity × ResolvedEntity) : Relation :=
  { id := none
    sourceType := js "entity"
    sourceId := pair.1.id
    targetType := js "entity"
    targetId := pair.2.id
    relType := some (js "CO_MENTION")
    weight := some (min (weightOrOne pair.1.weight) (weightOrOne pair.2.weight))
    created_at := none
    metadata := some [(js "pageId", MetaValue.str task.pageId)] }

/-- The array `sims` of `updatePageSimilarities`: every other stored page that has an
embedding, with its score. -/
def similarityScores (pages : List PageRecord) (pageId : JSString) (embedding : Embedding) :
    List (JSString × ℚ) :=
  pages.filterMap (fun page =>
    match page.embedding with
    | none => none
    | some vec => if page.id == pageId then none else some (page.id, cosineSimilarity embedding vec))

/-- The array `top` of `updatePageSimilarities`: sorted by score, highest first,
cut at the threshold and at twelve entries. -/
def topSimilar (sims : List (JSString × ℚ)) : List (JSString × ℚ) :=
  ((sims.insertionSort (fun a b => b.2 ≤ a.2)).filter
    (fun s => decide (PAGE_SIMILARITY_THRESHOLD ≤ s.2))).take 12

/-- The PAGE_SIMILAR relation `updatePageSimilarities` builds for one entry of `top`. -/
def similarRelation (pageId : JSString) (item : JSString × ℚ) : Relation :=
  { id := none
    sourceType := js "page"
    sourceId := pageId
    targetType := js "page"
    targetId := item.1
    relType := some (js "PAGE_SIMILAR")
    weight := some item.2
    created_at := none
    metadata := none }

/-- Source `updatePageSimilarities`. -/
def updatePageSimilarities (st : GraphStore) (pageId : JSString) (embedding : Embedding)
    (now : JSString) : GraphStore :=
  { st with
    relations :=
      bulkUpsertRelations
        (deleteRelationsBySource st.relations (js "page") pageId (some (js "PAGE_SIMILAR")))
        ((topSimilar (similarityScores (getAllPages st.pages) pageId embedding)).map
          (similarRelation pageId))
        now }

/-- The store after `persistKnowledge` has upserted the page, cleared the relations
sourced from it, upserted the entities and written the MENTIONS and CO_MENTION
relations, before the similarity step. -/
def persistRelations (lower : JSString → JSString) (st : GraphStore) (task : Task)
    (summaryResult : SummaryResult) (embedding : Option Embedding)
    (entities : List ResolvedEntity) (now : JSString) (fresh : Nat → JSString)
    (random : JSString) : GraphStore :=
  { pages :=
      (upsertPage st.pages
        { id := some task.pageId
          title := some (orStr (some task.title) [])
          url := some task.url
          timestamp := some (orStr (some task.timestamp) now)
          summary := some summaryResult.summary
          content := some task.text
          contentHash := some task.contentHash
          embedding := some embedding
          embeddingDim := none
          notes := none
          tags := none
          metadata := some (Metadata.spread [] [(js "summarySource", MetaValue.str summaryResult.source)])
          created_at := none } now fresh).getD st.pages
    entities :=
      entities.foldl (fun store ent => upsertEntity lower store (entityUpdate ent) now random)
        st.entities
    relations :=
      bulkUpsertRelations
        (bulkUpsertRelations
          (deleteRelationsBySource st.relations (js "page") task.pageId none)
          (entities.map (mentionsRelation task)) now)
        ((entityPairs entities).map (coMentionRelation task)) now }

/-- Source `persistKnowledge`; `embedding = none` is the value `null`. -/
def persistKnowledge (lower : JSString → JSString) (st : GraphStore) (task : Task)
    (summaryResult : SummaryResult) (embedding : Option Embedding)
    (entities : List ResolvedEntity) (now : JSString) (fresh : Nat → JSString)
    (random : JSString) : GraphStore :=
  match embedding with
  | some vec =>
    updatePageSimilarities
      (persistRelations lower st task summaryResult embedding entities now fresh random)
      task.pageId vec now
  | none => persistRelations lower st task summaryResult embedding entities now fresh random

/-! ## Embedding engine (`lib/embeddings.js`)

The vector is computed over any ordered field `R`; `Math.sqrt` is the parameter
`sqrt`. Arithmetic taken as exact is the hypothesis, where a theorem needs it,
that `sqrt` is exact at the sum of squares it is applied to. -/

/-- Source `EMBEDDING_DIM`. -/
def EMBEDDING_DIM : Nat := 384

/-- A match of `https?:\/\/\S+` starts at the head of `rest`. -/
def urlStart (rest : JSString) : Bool :=
  (rest.take 7 == js "http://" &&
      (match rest[7]? with
        | some c => !isWhiteSpace c
        | none => false)) ||
    (rest.take 8 == js "https://" &&
      (match rest[8]? with
        | some c => !isWhiteSpace c
        | none => false))

/-- The call `replace(/https?:\/\/\S+/g, ' ')`; the flag tells that the scan is inside
a match, whose code units are dropped up to the next white space. -/
def replaceUrls : Bool → JSString → JSString
  | _, [] => []
  | true, c :: cs => if isWhiteSpace c then c :: replaceUrls false cs else replaceUrls true cs
  | false, c :: cs =>
    if urlStart (c :: cs) then 32 :: replaceUrls true cs else c :: replaceUrls false cs

/-- The class `[a-z0-9\s]`. -/
def isTokenChar (c : Nat) : Bool :=
  (decide (97 ≤ c) && decide (c ≤ 122)) || (decide (48 ≤ c) && decide (c ≤ 57)) || isWhiteSpace c

/-- The call `split(/\s+/)`: `cur` is the piece read so far, reversed, and the flag
tells that the scan is inside a run of white space. -/
def splitWhiteSpace : JSString → Bool → JSString → List JSString
  | cur, _, [] => [cur.reverse]
  | cur, inGap, c :: cs =>
    if isWhiteSpace c then
      if inGap then splitWhiteSpace [] true cs else cur.reverse :: splitWhiteSpace [] true cs
    else splitWhiteSpace (c :: cur) false cs

/-- Source `tokenize`; the host method `toLowerCase` is the parameter `lower`. -/
def tokenize (lower : JSString → JSString) (text : JSString) : List JSString :=
  (splitWhiteSpace [] false
    ((replaceUrls false (lower text)).map (fun c => if isTokenChar c then c else 32))).filter truthy

/-- Source `hashToken`. -/
def hashToken (token : JSString) : Nat := fnv1a token

/-- The assignment `vec[idx] += sign`. -/
def addAt {R : Type} [LinearOrderedField R] : List R → Nat → R → List R
  | [], _, _ => []
  | x :: xs, 0, sign => (x + sign) :: xs
  | x :: xs, idx + 1, sign => x :: addAt xs idx sign

/-- The loop of `computeEmbedding` over the tokens, from the zero vector. -/
def accumulate {R : Type} [LinearOrderedField R] (tokens : List JSString) : List R :=
  tokens.foldl
    (fun vec token =>
      addAt vec (hashToken token % EMBEDDING_DIM) (if hashToken token &&& 1 = 0 then 1 else -1))
    (List.replicate EMBEDDING_DIM 0)

/-- The first loop of `l2Normalize`: the sum of the squares of the components. -/
def sumSq {R : Type} [LinearOrderedField R] (vec : List R) : R :=
  vec.foldl (fun s x => s + x * x) 0

/-- Source `l2Normalize`. -/
def l2Normalize {R : Type} [LinearOrderedField R] (sqrt : R → R) (vec : List R) : List R :=
  vec.map (fun x => x / (if sqrt (sumSq vec) = 0 then 1 else sqrt (sumSq vec)))

/-- Source `computeEmbedding`. -/
def computeEmbedding {R : Type} [LinearOrderedField R] (sqrt : R → R)
    (lower : JSString → JSString) (text : JSString) : List R :=
  if (tokenize lower text).length = 0 then List.replicate EMBEDDING_DIM 0
  else l2Normalize sqrt (accumulate (tokenize lower text))

/-! ## Entity extraction (`lib/pipeline.js`) -/

/-- Source `ENTITY_LIMIT`. -/
def ENTITY_LIMIT : Nat := 24

/-- An entry of the map `candidates` of `extractEntities`, with the key it is stored under. -/
structure Candidate where
  key : JSString
  name : JSString
  type : JSString
  weight : ℚ
  frequency : ℚ
  aliases : List JSString
  sources : List JSString
  deriving DecidableEq

/-- One call of `addCandidate`: its four arguments. -/
structure CandidateMatch where
  name : JSString
  type : JSString
  weight : ℚ
  source : JSString
  deriving DecidableEq

/-- The method `add` of a `Set`, kept as the list of its elements in insertion order. -/
def setAdd (xs : List JSString) (x : JSString) : List JSString :=
  if xs.contains x then xs else xs ++ [x]

/-- Source `addCandidate`, as its effect on the map `candidates`, kept as the list of
its entries in insertion order. The host method `toLowerCase` is the parameter `lower`. -/
def addCandidate (lower : JSString → JSString) (candidates : List Candidate)
    (name type : JSString) (weight : ℚ) (source : JSString) : List Candidate :=
  if !truthy (trim name) || decide ((trim name).length < 3) then candidates
  else if candidates.any (fun c => c.key == lower (trim name)) then
    candidates.map (fun c =>
      if c.key == lower (trim name) then
        { c with
          weight := c.weight + weight
          frequency := c.frequency + 1
          aliases := setAdd c.aliases (trim name)
          sources := setAdd c.sources source }
      else c)
  else
    candidates ++
      [{ key := lower (trim name)
         name := trim name
         type := type
         weight := 0 + weight
         frequency := 0 + 1
         aliases := setAdd [trim name] (trim name)
         sources := setAdd [] source }]

/-- A call that `addCandidate` keeps (its trimmed name has three code units or more)
and files under the key `key`. -/
def keptUnder (lower : JSString → JSString) (key : JSString) (call : CandidateMatch) : Bool :=
  decide (3 ≤ (trim call.name).length) && lower (trim call.name) == key

/-- A run of calls of `addCandidate`, in order. -/
def addCandidates (lower : JSString → JSString) (candidates : List Candidate)
    (calls : List CandidateMatch) : List Candidate :=
  calls.foldl (fun cs m => addCandidate lower cs m.name m.type m.weight m.source) candidates

/-- The class `[A-Z]`. -/
def isUpper (c : Nat) : Bool := decide (65 ≤ c) && decide (c ≤ 90)

/-- The class `\w`. -/
def isWordChar (c : Nat) : Bool :=
  isUpper c || (decide (97 ≤ c) && decide (c ≤ 122)) || (decide (48 ≤ c) && decide (c ≤ 57)) ||
    c == 95

/-- The assertion `\b` between two code units; `none` is the start or the end of the input. -/
def wordBoundary (prev next : Option Nat) : Bool :=
  (prev.map isWordChar).getD false != (next.map isWordChar).getD false

/-- The end of a match of `[A-Z]{2,}\b` at the head of `rest`: the greedy quantifier
has taken `k` letters and gives them back one at a time, down to two. -/
def acronymEnd (rest : JSString) : Nat → Option Nat
  | 0 => none
  | 1 => none
  | k + 2 =>
    if wordBoundary rest[k + 1]? rest[k + 2]? then some (k + 2) else acronymEnd rest (k + 1)

/-- An attempt to match `\b([A-Z]{2,})\b` at the head of `rest`, the code unit before
it being `prev`: the length of the match. -/
def matchAcronymAt (prev : Option Nat) (rest : JSString) : Option Nat :=
  if wordBoundary prev rest.head? then acronymEnd rest (rest.takeWhile isUpper).length
  else none

/-- The matches of the global pattern `\b([A-Z]{2,})\b` from left to right; `skip`
counts the code units still inside the last match. -/
def acronymScan : Option Nat → Nat → JSString → List JSString
  | _, _, [] => []
  | _, skip + 1, c :: cs => acronymScan (some c) skip cs
  | prev, 0, c :: cs =>
    match matchAcronymAt prev (c :: cs) with
    | some k => (c :: cs).take k :: acronymScan (some c) (k - 1) cs
    | none => acronymScan (some c) 0 cs

/-- The array `acronyms` of `extractEntities`: `combined.match(/\b([A-Z]{2,})\b/g) || []`. -/
def acronymMatches (combined : JSString) : List JSString := acronymScan none 0 combined

/-- The maximal runs of `\w` code units of a string, `cur` being the run read so far, reversed. -/
def wordRuns : JSString → JSString → List JSString
  | cur, [] => if cur.isEmpty then [] else [cur.reverse]
  | cur, c :: cs =>
    if isWordChar c then wordRuns (c :: cur) cs
    else if cur.isEmpty then wordRuns [] cs
    else cur.reverse :: wordRuns [] cs

/-- A code unit with an upper-case ASCII letter turned to lower case, as the flag `i`
compares it with a lower-case ASCII letter of a pattern. -/
def foldAscii (c : Nat) : Nat := if isUpper c then c + 32 else c

/-- The test of a pattern `\b(w1|w2|...)\b` with the flag `i`, all alternatives being
words of lower-case ASCII letters: some maximal run of `\w` code units is one of them. -/
def testWords (alternatives : List JSString) (value : JSString) : Bool :=
  (wordRuns [] value).any (fun w => alternatives.contains (w.map foldAscii))

/-- Source `guessEntityType`. -/
def guessEntityType (value : JSString) : JSString :=
  if !truthy value then js "Concept"
  else if testWords [js "inc", js "corp", js "llc", js "ltd", js "company", js "university",
      js "institute"] value then js "Organization"
  else if testWords [js "mr", js "mrs", js "dr", js "prof", js "sir"] value then js "Person"
  else if (value.filter (fun c => !isWhiteSpace c)).all isUpper &&
      decide (2 ≤ (value.filter (fun c => !isWhiteSpace c)).length) then js "Acronym"
  else js "Concept"

/-- The arrays returned by the four other `match` calls of `extractEntities`, each
`[]` when the call returns `null`: the proper nouns, hashtags and pattern
matches of the combined text and the capitalised phrases of the title. -/
structure RegexMatches where
  proper : List JSString
  hashtags : List JSString
  patternMatches : List JSString
  headlineEntities : List JSString
  deriving DecidableEq

/-- The string `combined` of `extractEntities`. -/
def combinedText (task : Task) (summary : JSString) : JSString :=
  trim (orStr (some task.title) [] ++ js "\n" ++ orStr (some summary) [] ++ js "\n" ++
    orStr (some (task.text.take 15000)) [])

/-- The calls of `addCandidate` made by the loop over `acronyms`. -/
def acronymCalls (acronyms : List JSString) : List CandidateMatch :=
  (acronyms.filter (fun value => !(decide (value.length < 3) || decide (value.length > 8)))).map
    (fun value => { name := value, type := js "Acronym", weight := 3 / 2, source := js "acronym" })

/-- The calls of `addCandidate` made by `extractEntities`, in order: proper nouns,
acronyms, hashtags, pattern matches, title phrases. -/
def candidateCalls (task : Task) (summary : JSString) (m : RegexMatches) : List CandidateMatch :=
  m.proper.map (fun value =>
      { name := value, type := guessEntityType value, weight := 2, source := js "proper-noun" }) ++
    acronymCalls (acronymMatches (combinedText task summary)) ++
    m.hashtags.map (fun tag =>
      { name := tag.erase 35, type := js "Tag", weight := 1, source := js "hashtag" }) ++
    m.patternMatches.map (fun value =>
      { name := value, type := js "Concept", weight := 5 / 2, source := js "pattern" }) ++
    m.headlineEntities.map (fun value =>
      { name := value, type := guessEntityType value, weight := 3, source := js "title" })

/-- The map `candidates` of `extractEntities` after its five loops. -/
def extractCandidates (lower : JSString → JSString) (task : Task) (summary : JSString)
    (m : RegexMatches) : List Candidate :=
  addCandidates lower [] (candidateCalls task summary m)

/-- An element of the array `ranked` of `extractEntities`. -/
structure RankedCandidate where
  name : JSString
  type : JSString
  weight : ℚ
  aliases : List JSString
  source : JSString
  frequency : ℚ
  deriving DecidableEq

/-- The object `ranked` is mapped from: the score is `entry.weight + entry.frequency * 0.2`. -/
def rankEntry (entry : Candidate) : RankedCandidate :=
  { name := entry.name
    type := entry.type
    weight := entry.weight + entry.frequency * (1 / 5)
    aliases := entry.aliases
    source := join (js ",") entry.sources
    frequency := entry.frequency }

/-- The array `ranked` of `extractEntities`: sorted by score, highest first, and cut
at `ENTITY_LIMIT`. -/
def rankCandidates (candidates : List Candidate) : List RankedCandidate :=
  ((candidates.map rankEntry).insertionSort (fun a b => b.weight ≤ a.weight)).take ENTITY_LIMIT

/-- Source `findEntitiesByNameL` (`lib/idb.js`): the cursor over `by_name` at one key,
which walks the records of that key by primary key. -/
def findEntitiesByNameL (lower : JSString → JSString) (store : List EntityRecord)
    (nameL : JSString) : List EntityRecord :=
  (byPrimaryKey EntityRecord.id store).filter (fun e => e.nameL == lower nameL)

/-- The element of `resolved` that `extractEntities` pushes for one ranked candidate. -/
def resolveCandidate (lower : JSString → JSString) (store : List EntityRecord)
    (candidate : RankedCandidate) : ResolvedEntity :=
  { name := candidate.name
    type := candidate.type
    weight := candidate.weight
    aliases := candidate.aliases
    source := candidate.source
    frequency := candidate.frequency
    id := orStr ((findEntitiesByNameL lower store (lower candidate.name)).head?.map EntityRecord.id)
      (js "ent:" ++ hashKey (lower candidate.name ++ js "|" ++ candidate.type)) }

/-- Source `extractEntities`. -/
def extractEntities (lower : JSString → JSString) (store : List EntityRecord) (task : Task)
    (summary : JSString) (m : RegexMatches) : List ResolvedEntity :=
  (rankCandidates (extractCandidates lower task summary m)).map (resolveCandidate lower store)

/-! ## Queue events (`background.js`) -/

/-- What changes the stored queue: `analyzePage` enqueuing a task, the handler of
`PIPELINE_TASK_COMPLETE` removing one, and the handler of `PIPELINE_REQUEST_QUEUE`
draining it. -/
inductive QueueEvent where
  | enqueue (task : Task)
  | complete (taskId : JSString)
  | drain
  deriving DecidableEq

/-- The stored queue after one event. -/
def queueStep (queue : Option (List Task)) : QueueEvent → Option (List Task)
  | QueueEvent.enqueue task => enqueuePipelineTask queue task
  | QueueEvent.complete taskId => taskComplete queue taskId
  | QueueEvent.drain => (requestQueue queue).2

/-! ## The hash as the specification words it -/

/-- One round of 32-bit FNV-1a in the words of the specification: xor with the
code unit, then multiply by the prime 16777619 modulo 2^32. -/
def fnvRound (h c : Nat) : Nat := (Nat.xor h c * 16777619) % 4294967296

/-- The 32-bit FNV-1a hash in the words of the specification: the fold of
`fnvRound` from the offset basis 2166136261. -/
def fnv1aSpec (str : JSString) : Nat := str.foldl fnvRound 2166136261

/-! ## Capturable URLs and the navigation handler (`background.js`) -/

/-- The method `startsWith`. -/
def startsWith (s p : JSString) : Bool := s.take p.length == p

/-- The test of a pattern `^lit` with the flag `i`, `lit` being lower-case ASCII:
the head of the string is `lit` up to the case of ASCII letters. -/
def startsWithNoCase (s lit : JSString) : Bool := (s.take lit.length).map foldAscii == lit

/-- The alternatives of `FORBIDDEN_PROTOCOL`. -/
def FORBIDDEN_SCHEMES : List JSString :=
  [js "chrome", js "edge", js "brave", js "opera", js "vivaldi"]

/-- The test `FORBIDDEN_PROTOCOL.test(url)`, the pattern being
`^(chrome|edge|brave|opera|vivaldi):\/\/` with the flag `i`. -/
def forbiddenProtocol (url : JSString) : Bool :=
  FORBIDDEN_SCHEMES.any (fun scheme => startsWithNoCase url (scheme ++ js "://"))

/-- Source `isCapturableUrl`; `none` is a missing url. -/
def isCapturableUrl (url : Option JSString) : Bool :=
  match url with
  | none => false
  | some u =>
    if !truthy u then false
    else if startsWith u (js "about:") then false
    else if startsWith u (js "chrome-extension://") then false
    else if forbiddenProtocol u then false
    else startsWithNoCase u (js "http://") || startsWithNoCase u (js "https://")

/-- Source `captureTabContent`. The tab `chrome.tabs.get` resolves to is `current`
(`none` when the call rejects, else its `url`), and `script` is the result of the
injected script (`none` when the injection throws or gives no result). -/
def captureTabContent (current : Option (Option JSString)) (script : Option Capture) :
    Option Capture :=
  match current with
  | none => none
  | some url =>
    if !(match url with
        | some u => truthy u
        | none => false) || !isCapturableUrl url then none
    else script

/-- The arguments of the `tabs.onUpdated` listener: `changeInfo.status`, and the url
and title of the tab. -/
structure TabUpdate where
  status : Option JSString
  url : Option JSString
  title : Option JSString
  deriving DecidableEq

/-- The listener of `tabs.onUpdated`. The stored `settings?.autoAnalyze` is
`autoAnalyze`, `none` when it is not set. -/
def onTabUpdated (digest : JSString → Option JSString) (w : Background) (update : TabUpdate)
    (autoAnalyze : Option Bool) (current : Option (Option JSString)) (script : Option Capture)
    (now : JSString) (fresh : Nat → JSString) : Background :=
  if update.status != some (js "complete") || !isCapturableUrl update.url then w
  else if autoAnalyze == some false then w
  else
    analyzePage digest w { url := update.url.getD [], title := update.title }
      (captureTabContent current script) now fresh

/-! ## Summaries (`lib/pipeline.js`) -/

/-- Source `MAX_SUMMARIZER_CONTEXT`. -/
def MAX_SUMMARIZER_CONTEXT : Nat := 6500

/-- The call `replace(/\s+/g, ' ')`: every run of white space becomes one space; the
flag tells that the scan is inside such a run. -/
def collapseWhiteSpace : Bool → JSString → JSString
  | _, [] => []
  | inGap, c :: cs =>
    if isWhiteSpace c then
      if inGap then collapseWhiteSpace true cs else 32 :: collapseWhiteSpace true cs
    else c :: collapseWhiteSpace false cs

/-- The class `[.!?]`. -/
def isTerminator (c : Nat) : Bool := c == 46 || c == 33 || c == 63

/-- The call `match(/[^.!?]+[.!?]/g)`: every maximal run of code units outside
`[.!?]` that is followed by one of `.`, `!`, `?`, with that code unit; `cur` is the
run read so far, reversed. A run that reaches the end of the input is no match. -/
def sentenceScan : JSString → JSString → List JSString
  | _, [] => []
  | cur, c :: cs =>
    if isTerminator c then
      if cur.isEmpty then sentenceScan [] cs else (c :: cur).reverse :: sentenceScan [] cs
    else sentenceScan (c :: cur) cs

/-- The array `sentences` of `summarizeLocally`. -/
def splitSentences (text : JSString) : List JSString :=
  sentenceScan [] (collapseWhiteSpace false text)

/-- The set `stop` of `summarizeLocally`. -/
def STOP_WORDS : List JSString :=
  [js "the", js "and", js "for", js "that", js "with", js "this", js "from", js "you", js "are",
    js "was", js "have", js "not", js "but", js "they", js "his", js "her", js "she", js "him",
    js "our", js "your", js "about", js "into", js "over", js "after", js "before", js "when",
    js "while", js "what", js "which", js "who", js "where", js "how", js "why", js "can",
    js "will", js "just"]

/-- The words both loops of `summarizeLocally` run over:
`s.toLowerCase().replace(/[^a-z0-9\s]/g, '').split(/\s+/)`. -/
def sentenceWords (lower : JSString → JSString) (s : JSString) : List JSString :=
  splitWhiteSpace [] false ((lower s).filter isTokenChar)

/-- The value `freq[w]` of the table `freq`, `none` when the key is not set. -/
def freqGet (freq : List (JSString × ℚ)) (w : JSString) : Option ℚ :=
  (freq.find? (fun entry => entry.1 == w)).map (fun entry => entry.2)

/-- The assignment `freq[w] = (freq[w] || 0) + 1`. -/
def freqIncr (freq : List (JSString × ℚ)) (w : JSString) : List (JSString × ℚ) :=
  match freqGet freq w with
  | some n => freq.map (fun entry => if entry.1 == w then (entry.1, (if n = 0 then 0 else n) + 1) else entry)
  | none => freq ++ [(w, 1)]

/-- The table `freq` after the first loop of `summarizeLocally`. -/
def wordFreq (lower : JSString → JSString) (sentences : List JSString) : List (JSString × ℚ) :=
  (sentences.flatMap (sentenceWords lower)).foldl
    (fun freq w =>
      if !truthy w || decide (w.length < 3) || STOP_WORDS.contains w then freq else freqIncr freq w)
    []

/-- The score of one sentence: the sum of `freq[w]` over its words. -/
def sentenceScore (lower : JSString → JSString) (freq : List (JSString × ℚ)) (s : JSString) : ℚ :=
  (sentenceWords lower s).foldl
    (fun score w =>
      match freqGet freq w with
      | some n => if n = 0 then score else score + n
      | none => score)
    0

/-- An entry `{ i, s, score }` of the array `scored`. -/
structure ScoredSentence where
  i : Nat
  s : JSString
  score : ℚ
  deriving DecidableEq

/-- The array `scored` for the sentences from index `i` on. -/
def scoreFrom (lower : JSString → JSString) (freq : List (JSString × ℚ)) :
    Nat → List JSString → List ScoredSentence
  | _, [] => []
  | i, s :: rest =>
    { i := i, s := trim s, score := sentenceScore lower freq s } :: scoreFrom lower freq (i + 1) rest

/-- The array `scored` of `summarizeLocally`, before it is sorted. -/
def scoreSentences (lower : JSString → JSString) (sentences : List JSString) :
    List ScoredSentence :=
  scoreFrom lower (wordFreq lower sentences) 0 sentences

/-- The entries behind the array `top` of `summarizeLocally`: sorted by score, highest
first, cut at `maxSentences`, and sorted back by index. -/
def topSentences (scored : List ScoredSentence) (maxSentences : Nat) : List ScoredSentence :=
  ((scored.insertionSort (fun a b => b.score ≤ a.score)).take maxSentences).insertionSort
    (fun a b => a.i ≤ b.i)

/-- Source `summarizeLocally`; the default of `maxSentences` is 3. -/
def summarizeLocally (lower : JSString → JSString) (text : JSString) (maxSentences : Nat) :
    JSString :=
  if (splitSentences text).length = 0 then text.take 240
  else
    join (js " ")
      ((topSentences (scoreSentences lower (splitSentences text)) maxSentences).map
        ScoredSentence.s)

/-- What the external summarizer does on one call: there is no session, the call
`summarize` throws, or it answers with a response whose `summary` may be missing. -/
inductive SummarizerReply where
  | unavailable
  | failed
  | response (summary : Option JSString)
  deriving DecidableEq

/-- The string `context` of `summarizeTask`. -/
def summaryContext (task : Task) : JSString :=
  (orStr (some task.title) [] ++ js "\n" ++ orStr (some task.meta) [] ++ js "\n" ++
    orStr (some task.text) []).take MAX_SUMMARIZER_CONTEXT

/-- Source `summarizeTask`. -/
def summarizeTask (lower : JSString → JSString) (task : Task) (reply : SummarizerReply) :
    SummaryResult :=
  if !truthy (trim (summaryContext task)) then { summary := [], source := js "empty" }
  else
    match reply with
    | SummarizerReply.response (some s) =>
      if truthy s then { summary := s, source := js "chrome-ai" }
      else { summary := summarizeLocally lower (summaryContext task) 3, source := js "local-fallback" }
    | _ => { summary := summarizeLocally lower (summaryContext task) 3, source := js "local-fallback" }

/-! ## Task processing (`lib/pipeline.js`) -/

/-- What the pipeline page reads and writes while it processes tasks: the set
`processingTasks` (its elements in insertion order), the graph store, the task ids of
the `PIPELINE_TASK_COMPLETE` messages sent, and the page ids of the
`memorypal:pageProcessed` events dispatched. -/
structure Orchestrator where
  processingTasks : List JSString
  store : GraphStore
  completed : List JSString
  processed : List JSString
  deriving DecidableEq

/-- What one run takes from its host: `toLowerCase`, `Math.sqrt`, whether
`MemoryPalEmbeddings` is loaded, the behaviour of the external summarizer, the
matches of the patterns of `extractEntities`, the clock and the generated ids. -/
structure PipelineHost where
  lower : JSString → JSString
  sqrt : ℚ → ℚ
  embeddings : Bool
  reply : SummarizerReply
  regexMatches : RegexMatches
  now : JSString
  fresh : Nat → JSString
  random : JSString

/-- How the `try` block of `processPipelineTask` ends: every step returns, or a step
throws, the graph store being `store` at that point. -/
inductive Outcome where
  | returned
  | threw (store : GraphStore)
  deriving DecidableEq

/-- The `try` block of `processPipelineTask` when every step returns: summary,
embedding, entities, persistence, then the completion message and the event. -/
def runPipeline (host : PipelineHost) (o : Orchestrator) (task : Task) : Orchestrator :=
  let summaryResult := summarizeTask host.lower task host.reply
  let embeddingText :=
    (task.title ++ js "\n" ++ summaryResult.summary ++ js "\n" ++ task.text).take
      MAX_SUMMARIZER_CONTEXT
  let embedding : Option Embedding :=
    if host.embeddings then some (computeEmbedding host.sqrt host.lower embeddingText) else none
  let entities :=
    extractEntities host.lower o.store.entities task summaryResult.summary host.regexMatches
  { o with
    store :=
      persistKnowledge host.lower o.store task summaryResult embedding entities host.now
        host.fresh host.random
    completed := o.completed ++ [task.taskId]
    processed := o.processed ++ [task.pageId] }

/-- The statement `processingTasks.add(task.taskId)`. -/
def claimTask (o : Orchestrator) (task : Task) : Orchestrator :=
  { o with processingTasks := setAdd o.processingTasks task.taskId }

/-- The `try` and `catch` blocks of `processPipelineTask`. -/
def pipelineBody (host : PipelineHost) (o : Orchestrator) (task : Task) (outcome : Outcome) :
    Orchestrator :=
  match outcome with
  | Outcome.returned => runPipeline host o task
  | Outcome.threw store => { o with store := store }

/-- The `finally` block: `processingTasks.delete(task.taskId)`. -/
def releaseTask (o : Orchestrator) (task : Task) : Orchestrator :=
  { o with processingTasks := o.processingTasks.filter (fun k => k != task.taskId) }

/-- Source `processPipelineTask`; `task = none` is a missing task. -/
def processPipelineTask (host : PipelineHost) (o : Orchestrator) (task : Option Task)
    (outcome : Outcome) : Orchestrator :=
  match task with
  | none => o
  | some t =>
    if o.processingTasks.contains t.taskId then o
    else releaseTask (pipelineBody host (claimTask o t) t outcome) t

/-! ## The term frequency as the specification words it -/

/-- The term frequency of a word in the words of the specification: how often it
occurs among the words of all sentences, counting only words of at least three
code units that are no stop words. -/
def termFrequency (lower : JSString → JSString) (sentences : List JSString) (w : JSString) : Nat :=
  ((sentences.flatMap (sentenceWords lower)).filter
    (fun v => decide (3 ≤ v.length) && !STOP_WORDS.contains v)).count w

/-- The score of a sentence in the words of the specification: the sum of the term
frequencies of its words. -/
def termScore (lower : JSString → JSString) (sentences : List JSString) (s : JSString) : ℚ :=
  ((sentenceWords lower s).map (fun w => (termFrequency lower sentences w : ℚ))).sum

/-! ## Strings: order lemmas -/

theorem strLt_irrefl (a : JSString) : strLt a a = false := by
  induction a with
  | nil => rfl
  | cons x xs ih => simp [strLt, ih]

theorem strLt_asymm : ∀ a b : JSString, strLt a b = true → strLt b a = false
  | [], [], h => by simp [strLt] at h
  | [], _ :: _, _ => by simp [strLt]
  | _ :: _, [], h => by simp [strLt] at h
  | x :: xs, y :: ys, h => by
    simp only [strLt] at h ⊢
    by_cases hxy : x < y
    · have : ¬ y < x := by omega
      simp [this, hxy]
    · by_cases hyx : y < x
      · simp [hxy, hyx] at h
      · simp only [hxy, hyx, if_false] at h ⊢
        exact strLt_asymm xs ys h

theorem strLt_total : ∀ a b : JSString, strLt a b = false → strLt b a = false → a = b
  | [], [], _, _ => rfl
  | [], _ :: _, h, _ => by simp [strLt] at h
  | _ :: _, [], _, h => by simp [strLt] at h
  | x :: xs, y :: ys, h1, h2 => by
    simp only [strLt] at h1 h2
    by_cases hxy : x < y
    · simp [hxy] at h1
    · by_cases hyx : y < x
      · simp [hyx] at h2
      · simp only [hxy, hyx, if_false] at h1 h2
        have hx : x = y := by omega
        rw [hx, strLt_total xs ys h1 h2]

theorem strLt_append_left (p : JSString) : ∀ a b : JSString, strLt (p ++ a) (p ++ b) = strLt a b := by
  induction p with
  | nil => intro a b; rfl
  | cons x xs ih => intro a b; simp [strLt, ih]

/-! ## Object stores: `put` lemmas -/

theorem mem_storePut {α : Type} (key : α → JSString) (store : List α) (r x : α) :
    x ∈ storePut key store r ↔ (x ∈ store ∧ key x ≠ key r) ∨ x = r := by
  simp [storePut, List.mem_filter]

theorem storePut_map {α : Type} (key : α → JSString) (f : α → α) (hf : ∀ x, key (f x) = key x)
    (store : List α) (r : α) :
    (storePut key store r).map f = storePut key (store.map f) (f r) := by
  simp [storePut, List.filter_map, Function.comp_def, hf]

theorem foldl_storePut_map {α : Type} (key : α → JSString) (f : α → α)
    (hf : ∀ x, key (f x) = key x) (rs : List α) :
    ∀ store : List α,
      (rs.foldl (storePut key) store).map f = (rs.map f).foldl (storePut key) (store.map f) := by
  induction rs with
  | nil => intro store; rfl
  | cons r rs ih =>
    intro store
    simp only [List.foldl_cons, List.map_cons]
    rw [ih, storePut_map key f hf]

/-- A batch of puts keeps the records whose key the batch does not write, and
adds what the batch writes into an empty store. -/
theorem foldl_storePut {α : Type} (key : α → JSString) (rs : List α) :
    ∀ store : List α,
      rs.foldl (storePut key) store =
        store.filter (fun x => rs.all (fun r => key x != key r)) ++ rs.foldl (storePut key) [] := by
  induction rs with
  | nil => intro store; simp
  | cons r rs ih =>
    intro store
    simp only [List.foldl_cons]
    rw [ih (storePut key store r), ih (storePut key [] r)]
    simp only [storePut, List.filter_append, List.filter_filter, List.filter_nil, List.nil_append,
      List.all_cons, List.append_assoc]
    congr 1
    apply List.filter_congr
    intro x _
    exact Bool.and_comm _ _

theorem mem_foldl_storePut {α : Type} (key : α → JSString) (rs : List α) :
    ∀ (store : List α) (x : α), x ∈ rs.foldl (storePut key) store → x ∈ store ∨ x ∈ rs := by
  induction rs with
  | nil => intro store x h; exact Or.inl h
  | cons r rs ih =>
    intro store x h
    simp only [List.foldl_cons] at h
    rcases ih _ x h with h1 | h1
    · rcases (mem_storePut key store r x).1 h1 with h2 | h2
      · exact Or.inl h2.1
      · exact Or.inr (by simp [h2])
    · exact Or.inr (List.mem_cons_of_mem _ h1)

/-- A record stays in the store through a batch of puts that does not write its key. -/
theorem mem_foldl_storePut_of_fresh {α : Type} (key : α → JSString) (rs store : List α) (r : α)
    (hr : r ∈ store) (hfresh : ∀ x ∈ rs, key x ≠ key r) :
    r ∈ rs.foldl (storePut key) store := by
  rw [foldl_storePut]
  apply List.mem_append_left
  rw [List.mem_filter]
  refine ⟨hr, ?_⟩
  rw [List.all_eq_true]
  intro x hx
  have := hfresh x hx
  simp only [bne_iff_ne, ne_eq]
  exact fun h => this h.symm

/-- After a batch of puts the store holds a record of the batch under every key the
batch wrote. -/
theorem exists_key_foldl_storePut {α : Type} (key : α → JSString) (rs : List α) :
    ∀ (store : List α) (x : α), x ∈ rs →
      ∃ y ∈ rs.foldl (storePut key) store, key y = key x ∧ y ∈ rs := by
  induction rs with
  | nil => intro store x hx; simp at hx
  | cons a rs ih =>
    intro store x hx
    simp only [List.foldl_cons]
    by_cases hc : ∃ z ∈ rs, key z = key x
    · obtain ⟨z, hz, hzk⟩ := hc
      obtain ⟨y, hy, hyk, hyr⟩ := ih (storePut key store a) z hz
      exact ⟨y, hy, hyk.trans hzk, List.mem_cons_of_mem a hyr⟩
    · have hxa : x = a := by
        rcases List.mem_cons.1 hx with h | h
        · exact h
        · exact absurd ⟨x, h, rfl⟩ hc
      refine ⟨a, ?_, by rw [hxa], List.mem_cons_self a rs⟩
      apply mem_foldl_storePut_of_fresh key rs _ a ((mem_storePut key store a a).2 (Or.inr rfl))
      intro z hz hzk
      exact hc ⟨z, hz, by rw [hxa]; exact hzk⟩

/-- Through a batch of puts a stored record either stays as it is or is replaced by
a record of the batch with its key. -/
theorem mem_or_replaced_foldl_storePut {α : Type} (key : α → JSString) (rs store : List α) (r : α)
    (hr : r ∈ store) :
    ((∀ x ∈ rs, key x ≠ key r) → r ∈ rs.foldl (storePut key) store) ∧
    ∃ y ∈ rs.foldl (storePut key) store, key y = key r ∧ (y = r ∨ y ∈ rs) := by
  refine ⟨mem_foldl_storePut_of_fresh key rs store r hr, ?_⟩
  by_cases hc : ∃ x ∈ rs, key x = key r
  · obtain ⟨x, hx, hxk⟩ := hc
    obtain ⟨y, hy, hyk, hyr⟩ := exists_key_foldl_storePut key rs store x hx
    exact ⟨y, hy, hyk.trans hxk, Or.inr hyr⟩
  · exact ⟨r, mem_foldl_storePut_of_fresh key rs store r hr
      (fun x hx hxk => hc ⟨x, hx, hxk⟩), rfl, Or.inl rfl⟩

/-- Writing a second batch with the keys of the first replaces what the first wrote. -/
theorem foldl_storePut_twice {α : Type} (key : α → JSString) (rs1 rs2 : List α)
    (hk : rs1.map key = rs2.map key) (store : List α) :
    rs2.foldl (storePut key) (rs1.foldl (storePut key) store) =
      store.filter (fun x => rs1.all (fun r => key x != key r)) ++ rs2.foldl (storePut key) [] := by
  have hP : ∀ x : α, rs2.all (fun r => key x != key r) = rs1.all (fun r => key x != key r) := by
    intro x
    have h1 : ∀ l : List α, l.all (fun r => key x != key r) = (l.map key).all (fun k => key x != k) := by
      intro l; induction l with
      | nil => rfl
      | cons a l ih => simp only [List.all_cons, List.map_cons, ih]
    rw [h1 rs1, h1 rs2, hk]
  rw [foldl_storePut key rs2, foldl_storePut key rs1 store]
  congr 1
  simp only [hP, List.filter_append, List.filter_filter, Bool.and_self]
  have hnil : (rs1.foldl (storePut key) []).filter (fun x => rs1.all (fun r => key x != key r)) = [] := by
    rw [List.filter_eq_nil_iff]
    intro x hx
    rcases mem_foldl_storePut key rs1 [] x hx with h | h
    · simp at h
    · simp only [List.all_eq_true, not_forall]
      exact ⟨x, h, by simp⟩
  rw [hnil, List.append_nil]

/-! ## Relations: normalisation lemmas -/

theorem nodeKey_inj (t a b : JSString) (h : nodeKey t a = nodeKey t b) : a = b := by
  unfold nodeKey at h
  simpa using h

theorem dropTimes_id (r : RelationRecord) : r.dropTimes.id = r.id := rfl

theorem dropTimes_normalizeRelation (rel : Relation) (now1 now2 : JSString) :
    (normalizeRelation rel now1).dropTimes = (normalizeRelation rel now2).dropTimes := by
  simp [normalizeRelation, RelationRecord.dropTimes]

theorem symmetric_relType (relType : JSString)
    (hrel : relType = js "CO_MENTION" ∨ relType = js "PAGE_SIMILAR") :
    orStr (some relType) (js "RELATED_TO") = relType ∧ isUndirectedRelationType relType = true := by
  rcases hrel with h | h <;> subst h <;> exact ⟨by decide, by decide⟩

/-- The endpoints `normalizeRelation` stores for a symmetric relation between two
nodes of one kind: the node with the smaller key first. -/
theorem normalizeRelation_symmetric_endpoints (rel : Relation) (now relType : JSString)
    (hrel : relType = js "CO_MENTION" ∨ relType = js "PAGE_SIMILAR")
    (hr : rel.relType = some relType) (hk : rel.sourceType = rel.targetType) :
    ((normalizeRelation rel now).sourceId, (normalizeRelation rel now).targetId) =
      (if strLt (nodeKey rel.targetType rel.targetId) (nodeKey rel.sourceType rel.sourceId)
        then (rel.targetId, rel.sourceId) else (rel.sourceId, rel.targetId)) ∧
    (normalizeRelation rel now).sourceType = rel.sourceType ∧
    (normalizeRelation rel now).targetType = rel.sourceType ∧
    (normalizeRelation rel now).relType = relType := by
  obtain ⟨h1, h2⟩ := symmetric_relType relType hrel
  simp only [normalizeRelation, hr, h1, h2, hk, beq_self_eq_true, Bool.true_and]
  by_cases hs : strLt (nodeKey rel.targetType rel.targetId) (nodeKey rel.targetType rel.sourceId) = true
  · simp [hs]
  · simp [hs]

theorem orStr_of_orNull_none (v : Option JSString) (d : JSString) (h : orNull v = none) :
    orStr v d = d := by
  cases v with
  | none => rfl
  | some s =>
    by_cases ht : truthy s = true
    · simp [orNull, ht] at h
    · simp [orStr, ht]

/-- Without an id of its own, a relation gets the id built from the stored five-tuple. -/
theorem normalizeRelation_id (rel : Relation) (now : JSString) (h : orNull rel.id = none) :
    (normalizeRelation rel now).id =
      buildRelId (normalizeRelation rel now).sourceType (normalizeRelation rel now).sourceId
        (normalizeRelation rel now).relType (normalizeRelation rel now).targetType
        (normalizeRelation rel now).targetId := by
  simp only [normalizeRelation, orStr_of_orNull_none _ _ h]

theorem normalizeRelation_keys (rel : Relation) (now : JSString) :
    (normalizeRelation rel now).sourceKey =
        nodeKey (normalizeRelation rel now).sourceType (normalizeRelation rel now).sourceId ∧
      (normalizeRelation rel now).targetKey =
        nodeKey (normalizeRelation rel now).targetType (normalizeRelation rel now).targetId := by
  simp only [normalizeRelation, and_self]

/-! ## Claims on relations -/

/-- C1: a symmetric relation (CO_MENTION or PAGE_SIMILAR) between two nodes of one
kind, given once as A->B and once as B->A without an id of its own, is normalised
to the same id, source and target; upserting both leaves one record with that id,
and from the empty store exactly one record. -/
theorem symmetric_upsert_single_record (ab ba : Relation) (relType now1 now2 : JSString)
    (hrel : relType = js "CO_MENTION" ∨ relType = js "PAGE_SIMILAR")
    (hab : ab.relType = some relType) (hba : ba.relType = some relType)
    (hid1 : ab.id = none) (hid2 : ba.id = none)
    (hkind : ab.sourceType = ab.targetType)
    (hst : ba.sourceType = ab.targetType) (htt : ba.targetType = ab.sourceType)
    (hsi : ba.sourceId = ab.targetId) (hti : ba.targetId = ab.sourceId) :
    (normalizeRelation ab now1).id = (normalizeRelation ba now2).id ∧
    (normalizeRelation ab now1).sourceType = (normalizeRelation ba now2).sourceType ∧
    (normalizeRelation ab now1).sourceId = (normalizeRelation ba now2).sourceId ∧
    (normalizeRelation ab now1).sourceKey = (normalizeRelation ba now2).sourceKey ∧
    (normalizeRelation ab now1).targetType = (normalizeRelation ba now2).targetType ∧
    (normalizeRelation ab now1).targetId = (normalizeRelation ba now2).targetId ∧
    (normalizeRelation ab now1).targetKey = (normalizeRelation ba now2).targetKey ∧
    (∀ store : List RelationRecord,
      ((upsertRelation (upsertRelation store ab now1) ba now2).filter
        (fun r => r.id == (normalizeRelation ab now1).id)) = [normalizeRelation ba now2]) ∧
    upsertRelation (upsertRelation [] ab now1) ba now2 = [normalizeRelation ba now2] := by
  have hkind2 : ba.sourceType = ba.targetType := by rw [hst, htt, hkind]
  obtain ⟨e1, s1, t1, r1⟩ := normalizeRelation_symmetric_endpoints ab now1 relType hrel hab hkind
  obtain ⟨e2, s2, t2, r2⟩ := normalizeRelation_symmetric_endpoints ba now2 relType hrel hba hkind2
  have hends : ((normalizeRelation ab now1).sourceId, (normalizeRelation ab now1).targetId) =
      ((normalizeRelation ba now2).sourceId, (normalizeRelation ba now2).targetId) := by
    rw [e1, e2, hst, htt, hsi, hti, ← hkind]
    by_cases hx : strLt (nodeKey ab.sourceType ab.targetId) (nodeKey ab.sourceType ab.sourceId) = true
    · have hy := strLt_asymm _ _ hx
      simp [hx, hy]
    · by_cases hy : strLt (nodeKey ab.sourceType ab.sourceId) (nodeKey ab.sourceType ab.targetId) = true
      · simp [hx, hy]
      · have heq := nodeKey_inj _ _ _
          (strLt_total _ _ (Bool.eq_false_iff.2 hx) (Bool.eq_false_iff.2 hy))
        simp [hx, hy, heq]
  have hsi' : (normalizeRelation ab now1).sourceId = (normalizeRelation ba now2).sourceId :=
    congrArg Prod.fst hends
  have hti' : (normalizeRelation ab now1).targetId = (normalizeRelation ba now2).targetId :=
    congrArg Prod.snd hends
  have hst' : (normalizeRelation ab now1).sourceType = (normalizeRelation ba now2).sourceType := by
    rw [s1, s2, hst, hkind]
  have htt' : (normalizeRelation ab now1).targetType = (normalizeRelation ba now2).targetType := by
    rw [t1, t2, hst, hkind]
  have hidEq : (normalizeRelation ab now1).id = (normalizeRelation ba now2).id := by
    rw [normalizeRelation_id ab now1 (by rw [hid1]; rfl),
      normalizeRelation_id ba now2 (by rw [hid2]; rfl), hsi', hti', hst', htt', r1, r2]
  refine ⟨hidEq, hst', hsi', ?_, htt', hti', ?_, ?_, ?_⟩
  · rw [(normalizeRelation_keys ab now1).1, (normalizeRelation_keys ba now2).1, hst', hsi']
  · rw [(normalizeRelation_keys ab now1).2, (normalizeRelation_keys ba now2).2, htt', hti']
  · intro store
    simp [upsertRelation, storePut, List.filter_append, List.filter_filter, hidEq]
  · simp [upsertRelation, storePut, hidEq]

theorem symmetric_upsert_single_record_witness :
    upsertRelation
        (upsertRelation []
          { id := none, sourceType := js "page", sourceId := js "b", targetType := js "page",
            targetId := js "a", relType := some (js "PAGE_SIMILAR"), weight := some (1 / 2),
            created_at := none, metadata := none } (js "t1"))
        { id := none, sourceType := js "page", sourceId := js "a", targetType := js "page",
          targetId := js "b", relType := some (js "PAGE_SIMILAR"), weight := some (1 / 2),
          created_at := none, metadata := none } (js "t2") =
      [normalizeRelation
        { id := none, sourceType := js "page", sourceId := js "a", targetType := js "page",
          targetId := js "b", relType := some (js "PAGE_SIMILAR"), weight := some (1 / 2),
          created_at := none, metadata := none } (js "t2")] :=
  (symmetric_upsert_single_record _ _ (js "PAGE_SIMILAR") (js "t1") (js "t2") (Or.inr rfl)
    rfl rfl rfl rfl rfl rfl rfl rfl rfl).2.2.2.2.2.2.2.2

/-- C2: canonical orientation. For a CO_MENTION or PAGE_SIMILAR input whose source
and target have the same kind, the stored record has sourceKey <= targetKey in
string order, its source key is the smaller of the two node keys of the input,
and its endpoints are the input's endpoints, as given or exchanged. -/
theorem canonical_orientation (rel : Relation) (now relType : JSString)
    (hrel : relType = js "CO_MENTION" ∨ relType = js "PAGE_SIMILAR")
    (hr : rel.relType = some relType) (hk : rel.sourceType = rel.targetType) :
    strLe (normalizeRelation rel now).sourceKey (normalizeRelation rel now).targetKey = true ∧
    (normalizeRelation rel now).sourceKey =
      (if strLt (nodeKey rel.targetType rel.targetId) (nodeKey rel.sourceType rel.sourceId)
        then nodeKey rel.targetType rel.targetId else nodeKey rel.sourceType rel.sourceId) ∧
    (normalizeRelation rel now).targetKey =
      (if strLt (nodeKey rel.targetType rel.targetId) (nodeKey rel.sourceType rel.sourceId)
        then nodeKey rel.sourceType rel.sourceId else nodeKey rel.targetType rel.targetId) ∧
    (((normalizeRelation rel now).sourceType = rel.sourceType ∧
        (normalizeRelation rel now).sourceId = rel.sourceId ∧
        (normalizeRelation rel now).targetType = rel.targetType ∧
        (normalizeRelation rel now).targetId = rel.targetId) ∨
      ((normalizeRelation rel now).sourceType = rel.targetType ∧
        (normalizeRelation rel now).sourceId = rel.targetId ∧
        (normalizeRelation rel now).targetType = rel.sourceType ∧
        (normalizeRelation rel now).targetId = rel.sourceId)) := by
  obtain ⟨h1, h2⟩ := symmetric_relType relType hrel
  simp only [normalizeRelation, hr, h1, h2, hk, beq_self_eq_true, Bool.true_and, strLe]
  by_cases hs : strLt (nodeKey rel.targetType rel.targetId) (nodeKey rel.targetType rel.sourceId) = true
  · have ha := strLt_asymm _ _ hs
    simp [hs, ha]
  · simp [hs]

theorem canonical_orientation_witness :
    strLe
        (normalizeRelation
          { id := none, sourceType := js "entity", sourceId := js "ent:zz",
            targetType := js "entity", targetId := js "ent:aa",
            relType := some (js "CO_MENTION"), weight := some 2, created_at := none,
            metadata := none } (js "t1")).sourceKey
        (normalizeRelation
          { id := none, sourceType := js "entity", sourceId := js "ent:zz",
            targetType := js "entity", targetId := js "ent:aa",
            relType := some (js "CO_MENTION"), weight := some 2, created_at := none,
            metadata := none } (js "t1")).targetKey = true :=
  (canonical_orientation _ (js "t1") (js "CO_MENTION") (Or.inl rfl) rfl rfl).1

/-- C3, as the claim states it, fails: two inputs with the same five-tuple, one of
which carries an id of its own, are stored under different ids. -/
theorem relation_id_five_tuple_counterexample :
    (normalizeRelation
        { id := some (js "edge-1"), sourceType := js "page", sourceId := js "p1",
          targetType := js "entity", targetId := js "e1", relType := some (js "MENTIONS"),
          weight := some 1, created_at := none, metadata := none } (js "t")).id = js "edge-1" ∧
    (normalizeRelation
        { id := none, sourceType := js "page", sourceId := js "p1",
          targetType := js "entity", targetId := js "e1", relType := some (js "MENTIONS"),
          weight := some 1, created_at := none, metadata := none } (js "t")).id =
      js "page:p1|MENTIONS|entity:e1" ∧
    js "edge-1" ≠ js "page:p1|MENTIONS|entity:e1" := by
  decide

/-- C3, amended: two inputs that agree on the five-tuple (sourceType, sourceId,
relType, targetType, targetId) and carry no id of their own get the same id,
whatever their weight, created_at and metadata and whenever they are normalised;
that id is built from the canonicalised five-tuple. An input that carries a
non-empty id keeps it. -/
theorem relation_id_five_tuple (a b : Relation) (now1 now2 : JSString)
    (hst : a.sourceType = b.sourceType) (hsi : a.sourceId = b.sourceId)
    (hrt : a.relType = b.relType)
    (htt : a.targetType = b.targetType) (hti : a.targetId = b.targetId)
    (ha : orNull a.id = none) (hb : orNull b.id = none) :
    (normalizeRelation a now1).id = (normalizeRelation b now2).id ∧
    (normalizeRelation a now1).id =
      buildRelId (normalizeRelation a now1).sourceType (normalizeRelation a now1).sourceId
        (normalizeRelation a now1).relType (normalizeRelation a now1).targetType
        (normalizeRelation a now1).targetId ∧
    (∀ (c : Relation) (i : JSString), c.id = some i → truthy i = true →
      (normalizeRelation c now1).id = i) := by
  refine ⟨?_, normalizeRelation_id a now1 ha, ?_⟩
  · simp only [normalizeRelation, orStr_of_orNull_none _ _ ha, orStr_of_orNull_none _ _ hb,
      hst, hsi, hrt, htt, hti]
  · intro c i hc hi
    simp [normalizeRelation, hc, orStr, hi]

theorem relation_id_five_tuple_witness :
    (normalizeRelation
        { id := none, sourceType := js "page", sourceId := js "p1",
          targetType := js "entity", targetId := js "e1", relType := some (js "MENTIONS"),
          weight := some 3, created_at := some (js "t0"), metadata := some [] } (js "t1")).id =
      (normalizeRelation
        { id := some [], sourceType := js "page", sourceId := js "p1",
          targetType := js "entity", targetId := js "e1", relType := some (js "MENTIONS"),
          weight := none, created_at := none, metadata := none } (js "t2")).id :=
  (relation_id_five_tuple _ _ (js "t1") (js "t2") (by rfl) (by rfl) (by rfl) (by rfl) (by rfl)
    (by rfl) (by rfl)).1

/-- C4: upsertRelation and bulkUpsertRelations are idempotent under repeated
identical input. Applying the same input a second time, at any later clock
reading, leaves the store with the records it held after the first application,
up to their created_at and updated_at timestamps. -/
theorem upsert_relation_idempotent (store : List RelationRecord) (rel : Relation)
    (rels : List Relation) (now1 now2 : JSString) :
    (upsertRelation (upsertRelation store rel now1) rel now2).map RelationRecord.dropTimes =
      (upsertRelation store rel now1).map RelationRecord.dropTimes ∧
    (bulkUpsertRelations (bulkUpsertRelations store rels now1) rels now2).map
        RelationRecord.dropTimes =
      (bulkUpsertRelations store rels now1).map RelationRecord.dropTimes := by
  have hbulk : ∀ (now : JSString) (st : List RelationRecord), bulkUpsertRelations st rels now =
      (rels.map (fun rel => normalizeRelation rel now)).foldl (storePut RelationRecord.id) st := by
    intro now st
    unfold bulkUpsertRelations
    split
    · next h => rw [List.length_eq_zero.1 h]; rfl
    · rfl
  have hmap : ∀ now : JSString,
      (rels.map (fun rel => normalizeRelation rel now)).map RelationRecord.dropTimes =
        (rels.map (fun rel => normalizeRelation rel now1)).map RelationRecord.dropTimes := by
    intro now
    simp only [List.map_map]
    apply List.map_congr_left
    intro rel _
    exact dropTimes_normalizeRelation rel now now1
  have hkeys : (rels.map (fun rel => normalizeRelation rel now1)).map RelationRecord.id =
      (rels.map (fun rel => normalizeRelation rel now2)).map RelationRecord.id := by
    have h := congrArg (List.map RelationRecord.id) (hmap now2)
    simp only [List.map_map] at h ⊢
    have hc : RelationRecord.id ∘ RelationRecord.dropTimes = RelationRecord.id := rfl
    simpa only [← Function.comp_assoc, hc] using h.symm
  constructor
  · have h1 := hbulk now1 store
    have hsingle := foldl_storePut_twice RelationRecord.id [normalizeRelation rel now1]
      [normalizeRelation rel now2] (by simp [normalizeRelation]) store
    have hone := foldl_storePut RelationRecord.id [normalizeRelation rel now1] store
    simp only [List.foldl_cons, List.foldl_nil] at hsingle hone
    unfold upsertRelation
    rw [hsingle, hone]
    simp only [List.map_append, storePut, List.filter_nil, List.nil_append, List.map_cons,
      List.map_nil, dropTimes_normalizeRelation rel now2 now1]
  · rw [hbulk now2, hbulk now1, foldl_storePut_twice RelationRecord.id _ _ hkeys store,
      foldl_storePut RelationRecord.id _ store, List.map_append, List.map_append,
      foldl_storePut_map RelationRecord.id RelationRecord.dropTimes dropTimes_id,
      foldl_storePut_map RelationRecord.id RelationRecord.dropTimes dropTimes_id, hmap now2]

/-! ## Batches of puts and a filter -/

theorem foldl_storePut_nil_nodup {α : Type} (key : α → JSString) (rs : List α)
    (h : (rs.map key).Nodup) : rs.foldl (storePut key) [] = rs := by
  induction rs with
  | nil => rfl
  | cons r rs ih =>
    simp only [List.map_cons, List.nodup_cons] at h
    simp only [List.foldl_cons]
    rw [foldl_storePut key rs, ih h.2]
    have hr : rs.all (fun x => key r != key x) = true := by
      rw [List.all_eq_true]
      intro x hx
      have : key r ≠ key x := fun he => h.1 (he ▸ List.mem_map_of_mem key hx)
      simpa using this
    simp [storePut, hr]

/-- A batch none of whose records satisfies `p`, and none of whose keys is the key
of a stored record satisfying `p`, leaves the stored records satisfying `p` as they were. -/
theorem filter_foldl_storePut_of_false {α : Type} (key : α → JSString) (p : α → Bool)
    (store rs : List α) (hp : ∀ r ∈ rs, p r = false)
    (hk : ∀ x ∈ store, p x = true → ∀ r ∈ rs, key x ≠ key r) :
    (rs.foldl (storePut key) store).filter p = store.filter p := by
  rw [foldl_storePut key rs store, List.filter_append, List.filter_filter]
  have h2 : (rs.foldl (storePut key) []).filter p = [] := by
    rw [List.filter_eq_nil_iff]
    intro x hx
    rcases mem_foldl_storePut key rs [] x hx with h | h
    · simp at h
    · simp [hp x h]
  rw [h2, List.append_nil]
  apply List.filter_congr
  intro x hx
  by_cases hpx : p x = true
  · have : rs.all (fun r => key x != key r) = true := by
      rw [List.all_eq_true]
      intro r hr
      simpa using hk x hx hpx r hr
    simp [hpx, this]
  · simp [hpx]

/-- A batch with distinct keys all of whose records satisfy `p`, written to a store
that holds no record satisfying `p`, leaves exactly the batch as the records
satisfying `p`. -/
theorem filter_foldl_storePut_of_true {α : Type} (key : α → JSString) (p : α → Bool)
    (store rs : List α) (hp : ∀ r ∈ rs, p r = true) (hn : (rs.map key).Nodup)
    (hs : store.filter p = []) :
    (rs.foldl (storePut key) store).filter p = rs := by
  rw [foldl_storePut key rs store, List.filter_append, List.filter_filter,
    foldl_storePut_nil_nodup key rs hn]
  have h1 : store.filter (fun a => p a && rs.all (fun r => key a != key r)) = [] := by
    rw [List.filter_eq_nil_iff] at hs ⊢
    intro x hx
    simp [hs x hx]
  rw [h1, List.nil_append, List.filter_eq_self]
  exact hp

theorem bulkUpsertRelations_eq (store : List RelationRecord) (rels : List Relation)
    (now : JSString) :
    bulkUpsertRelations store rels now =
      (rels.map (fun rel => normalizeRelation rel now)).foldl (storePut RelationRecord.id) store := by
  unfold bulkUpsertRelations
  split
  · next h => rw [List.length_eq_zero.1 h]; rfl
  · rfl

/-! ## The relations written by the pipeline -/

theorem strLt_append_self (p t : JSString) : strLt (p ++ t) p = false := by
  induction p with
  | nil => cases t <;> rfl
  | cons x xs ih => simp [strLt, ih]

/-- Two strings that agree up to a bar, the first having no bar before it: the
second is the first, or continues it with a bar. -/
theorem eq_or_bar_of_append_bar : ∀ (p x r1 r2 : JSString), 124 ∉ p →
    p ++ 124 :: r1 = x ++ 124 :: r2 → (x = p ∧ r1 = r2) ∨ ∃ t, x = p ++ 124 :: t
  | [], [], r1, r2, _, h => Or.inl ⟨rfl, by simpa using h⟩
  | [], y :: ys, _, _, _, h => by
    simp only [List.nil_append, List.cons_append, List.cons.injEq] at h
    exact Or.inr ⟨ys, by simp [h.1]⟩
  | a :: as, [], _, _, hp, h => by
    simp only [List.nil_append, List.cons_append, List.cons.injEq] at h
    exact absurd (by simp [h.1]) hp
  | a :: as, y :: ys, r1, r2, hp, h => by
    simp only [List.cons_append, List.cons.injEq] at h
    have hp2 : 124 ∉ as := fun hm => hp (List.mem_cons_of_mem _ hm)
    rcases eq_or_bar_of_append_bar as ys r1 r2 hp2 h.2 with ⟨h1, h2⟩ | ⟨t, ht⟩
    · exact Or.inl ⟨by rw [h.1, h1], h2⟩
    · exact Or.inr ⟨t, by rw [h.1, ht]; rfl⟩

theorem normalizeRelation_mentions (task : Task) (ent : ResolvedEntity) (now : JSString) :
    normalizeRelation (mentionsRelation task ent) now =
      { id := js "page:" ++ (task.pageId ++ 124 :: (js "MENTIONS|entity:" ++ ent.id))
        sourceType := js "page"
        sourceId := task.pageId
        sourceKey := nodeKey (js "page") task.pageId
        targetType := js "entity"
        targetId := ent.id
        targetKey := nodeKey (js "entity") ent.id
        relType := js "MENTIONS"
        weight := weightOrOne ent.weight
        created_at := now
        updated_at := now
        metadata := [(js "frequency", MetaValue.num ent.frequency),
          (js "source", MetaValue.str ent.source)] } := by
  have h1 : isUndirectedRelationType (js "MENTIONS") = false := by decide
  have h2 : truthy (js "MENTIONS") = true := by decide
  have h3 : js "page" ++ (js ":" ++ (task.pageId ++ (js "|" ++ (js "MENTIONS" ++
      (js "|" ++ (js "entity" ++ (js ":" ++ ent.id))))))) =
      js "page:" ++ (task.pageId ++ 124 :: (js "MENTIONS|entity:" ++ ent.id)) := by
    have e1 : js "page" ++ (js ":" ++ (task.pageId ++ (js "|" ++ (js "MENTIONS" ++
        (js "|" ++ (js "entity" ++ (js ":" ++ ent.id))))))) =
        (js "page" ++ js ":") ++ (task.pageId ++ ((js "|" ++ js "MENTIONS" ++ js "|" ++
          js "entity" ++ js ":") ++ ent.id)) := by
      simp only [List.append_assoc]
    rw [e1]
    rfl
  simp only [normalizeRelation, mentionsRelation, orStr, h1, h2, if_true, Bool.false_and,
    Bool.false_eq_true, if_false, Option.getD_some, buildRelId, List.append_assoc, h3]

theorem normalizeRelation_coMention (task : Task) (pair : ResolvedEntity × ResolvedEntity)
    (now : JSString) :
    (normalizeRelation (coMentionRelation task pair) now).relType = js "CO_MENTION" ∧
    (normalizeRelation (coMentionRelation task pair) now).sourceType = js "entity" ∧
    ∃ t, (normalizeRelation (coMentionRelation task pair) now).id = js "entity" ++ t := by
  have h2 : truthy (js "CO_MENTION") = true := by decide
  simp only [normalizeRelation, coMentionRelation, orStr, h2, if_true, ite_self, buildRelId,
    List.append_assoc, true_and]
  exact ⟨_, rfl⟩

theorem similar_id_shape (a b : JSString) :
    js "page" ++ (js ":" ++ (a ++ (js "|" ++ (js "PAGE_SIMILAR" ++
      (js "|" ++ (js "page" ++ (js ":" ++ b))))))) =
      js "page:" ++ (a ++ 124 :: (js "PAGE_SIMILAR|page:" ++ b)) := by
  have e1 : js "page" ++ (js ":" ++ (a ++ (js "|" ++ (js "PAGE_SIMILAR" ++
      (js "|" ++ (js "page" ++ (js ":" ++ b))))))) =
      (js "page" ++ js ":") ++ (a ++ ((js "|" ++ js "PAGE_SIMILAR" ++ js "|" ++
        js "page" ++ js ":") ++ b)) := by
    simp only [List.append_assoc]
  rw [e1]
  rfl

/-- A PAGE_SIMILAR relation from page `pageId` to page `other` is stored as given,
or, when the key of `other` is the smaller one, with `other` as its source. -/
theorem normalizeRelation_similar (pageId : JSString) (item : JSString × ℚ) (now : JSString) :
    (normalizeRelation (similarRelation pageId item) now).relType = js "PAGE_SIMILAR" ∧
    (((normalizeRelation (similarRelation pageId item) now).sourceKey =
          nodeKey (js "page") pageId ∧
        (normalizeRelation (similarRelation pageId item) now).targetKey =
          nodeKey (js "page") item.1 ∧
        (normalizeRelation (similarRelation pageId item) now).id =
          js "page:" ++ (pageId ++ 124 :: (js "PAGE_SIMILAR|page:" ++ item.1))) ∨
      (strLt (nodeKey (js "page") item.1) (nodeKey (js "page") pageId) = true ∧
        (normalizeRelation (similarRelation pageId item) now).sourceKey =
          nodeKey (js "page") item.1 ∧
        (normalizeRelation (similarRelation pageId item) now).targetKey =
          nodeKey (js "page") pageId ∧
        (normalizeRelation (similarRelation pageId item) now).id =
          js "page:" ++ (item.1 ++ 124 :: (js "PAGE_SIMILAR|page:" ++ pageId)))) := by
  have h1 : isUndirectedRelationType (js "PAGE_SIMILAR") = true := by decide
  have h2 : truthy (js "PAGE_SIMILAR") = true := by decide
  simp only [normalizeRelation, similarRelation, orStr, h1, h2, if_true, ite_self, buildRelId,
    List.append_assoc, true_and, beq_self_eq_true, Bool.true_and]
  by_cases hs : strLt (nodeKey (js "page") item.1) (nodeKey (js "page") pageId) = true
  · simp only [hs, if_true, true_and]
    exact Or.inr (similar_id_shape _ _)
  · simp only [hs, if_false, Bool.false_eq_true, false_and, or_false, true_and]
    exact similar_id_shape _ _

/-- No PAGE_SIMILAR relation written for a page whose id has no bar takes the id of
a MENTIONS relation of that page. -/
theorem similar_id_ne_mentions_id (task : Task) (ent : ResolvedEntity)
    (item : JSString × ℚ) (now : JSString) (hp : 124 ∉ task.pageId) :
    (normalizeRelation (mentionsRelation task ent) now).id ≠
      (normalizeRelation (similarRelation task.pageId item) now).id := by
  rw [normalizeRelation_mentions]
  intro heq
  rcases (normalizeRelation_similar task.pageId item now).2 with ⟨_, _, h⟩ | ⟨hlt, _, _, h⟩
  · rw [h] at heq
    have h1 := List.append_cancel_left (List.append_cancel_left heq)
    revert h1
    simp [js, utf16]
  · rw [h] at heq
    have h1 := List.append_cancel_left heq
    unfold nodeKey at hlt
    rw [List.append_assoc, List.append_assoc, strLt_append_left] at hlt
    rw [strLt_append_left] at hlt
    rcases eq_or_bar_of_append_bar task.pageId item.1 _ _ hp h1 with ⟨hx, _⟩ | ⟨t, ht⟩
    · rw [hx, strLt_irrefl] at hlt
      exact Bool.false_ne_true hlt
    · rw [ht, strLt_append_self] at hlt
      exact Bool.false_ne_true hlt

theorem mentions_ids_nodup (task : Task) (entities : List ResolvedEntity) (now : JSString)
    (hids : (entities.map ResolvedEntity.id).Nodup) :
    ((entities.map (fun e => normalizeRelation (mentionsRelation task e) now)).map
      RelationRecord.id).Nodup := by
  have hmap : (entities.map (fun e => normalizeRelation (mentionsRelation task e) now)).map
      RelationRecord.id =
      (entities.map ResolvedEntity.id).map
        (fun i => js "page:" ++ (task.pageId ++ 124 :: (js "MENTIONS|entity:" ++ i))) := by
    simp only [List.map_map]
    apply List.map_congr_left
    intro e _
    simp only [Function.comp, normalizeRelation_mentions]
  rw [hmap]
  apply List.Nodup.map _ hids
  intro a b hab
  have h1 := List.append_cancel_left (List.append_cancel_left hab)
  simp only [List.cons.injEq, true_and] at h1
  exact List.append_cancel_left h1

/-- After the relation writes of `persistKnowledge`, the MENTIONS relations sourced
from the page are the ones built for the entity list, in order. -/
theorem persistRelations_mentions (lower : JSString → JSString) (st : GraphStore) (task : Task)
    (summaryResult : SummaryResult) (embedding : Option Embedding)
    (entities : List ResolvedEntity) (now : JSString) (fresh : Nat → JSString)
    (random : JSString) (hids : (entities.map ResolvedEntity.id).Nodup) :
    (persistRelations lower st task summaryResult embedding entities now fresh random).relations.filter
        (fun r => r.relType == js "MENTIONS" && r.sourceKey == nodeKey (js "page") task.pageId) =
      entities.map (fun e => normalizeRelation (mentionsRelation task e) now) := by
  simp only [persistRelations, bulkUpsertRelations_eq, List.map_map]
  have hA : (deleteRelationsBySource st.relations (js "page") task.pageId none).filter
      (fun r => r.relType == js "MENTIONS" && r.sourceKey == nodeKey (js "page") task.pageId) =
      [] := by
    rw [List.filter_eq_nil_iff]
    intro r hr
    simp only [deleteRelationsBySource, List.mem_filter] at hr
    have h2 := hr.2
    simp only [Bool.and_true, Bool.not_eq_true'] at h2
    simp [h2]
  have hB := filter_foldl_storePut_of_true RelationRecord.id
    (fun r => r.relType == js "MENTIONS" && r.sourceKey == nodeKey (js "page") task.pageId)
    (deleteRelationsBySource st.relations (js "page") task.pageId none)
    (entities.map ((fun rel => normalizeRelation rel now) ∘ mentionsRelation task))
    (by
      intro r hr
      obtain ⟨e, _, rfl⟩ := List.mem_map.1 hr
      simp [Function.comp, normalizeRelation_mentions])
    (mentions_ids_nodup task entities now hids) hA
  have hC := filter_foldl_storePut_of_false RelationRecord.id
    (fun r => r.relType == js "MENTIONS" && r.sourceKey == nodeKey (js "page") task.pageId)
    ((entities.map ((fun rel => normalizeRelation rel now) ∘ mentionsRelation task)).foldl
      (storePut RelationRecord.id)
      (deleteRelationsBySource st.relations (js "page") task.pageId none))
    ((entityPairs entities).map ((fun rel => normalizeRelation rel now) ∘ coMentionRelation task))
    (by
      intro r hr
      obtain ⟨pr, _, rfl⟩ := List.mem_map.1 hr
      have hne : js "CO_MENTION" ≠ js "MENTIONS" := by decide
      simp [Function.comp, (normalizeRelation_coMention task pr now).1, hne])
    (by
      intro x hx hpx r hr
      have hxm : x ∈ entities.map ((fun rel => normalizeRelation rel now) ∘ mentionsRelation task) := by
        rw [← hB]
        exact List.mem_filter.2 ⟨hx, hpx⟩
      obtain ⟨e, _, rfl⟩ := List.mem_map.1 hxm
      obtain ⟨pr, _, rfl⟩ := List.mem_map.1 hr
      obtain ⟨t, ht⟩ := (normalizeRelation_coMention task pr now).2.2
      simp only [Function.comp, normalizeRelation_mentions, ht]
      simp [js, utf16])
  rw [hC, hB]
  rfl

/-- The similarity step leaves the MENTIONS relations sourced from the page as they
were, when the page id has no bar. -/
theorem updatePageSimilarities_mentions (st : GraphStore) (task : Task) (vec : Embedding)
    (entities : List ResolvedEntity) (now : JSString) (hp : 124 ∉ task.pageId)
    (hst : st.relations.filter
        (fun r => r.relType == js "MENTIONS" && r.sourceKey == nodeKey (js "page") task.pageId) =
      entities.map (fun e => normalizeRelation (mentionsRelation task e) now)) :
    (updatePageSimilarities st task.pageId vec now).relations.filter
        (fun r => r.relType == js "MENTIONS" && r.sourceKey == nodeKey (js "page") task.pageId) =
      entities.map (fun e => normalizeRelation (mentionsRelation task e) now) := by
  simp only [updatePageSimilarities, bulkUpsertRelations_eq, List.map_map]
  have hD : (deleteRelationsBySource st.relations (js "page") task.pageId
      (some (js "PAGE_SIMILAR"))).filter
      (fun r => r.relType == js "MENTIONS" && r.sourceKey == nodeKey (js "page") task.pageId) =
      st.relations.filter
        (fun r => r.relType == js "MENTIONS" && r.sourceKey == nodeKey (js "page") task.pageId) := by
    simp only [deleteRelationsBySource, List.filter_filter]
    apply List.filter_congr
    intro r _
    by_cases hr : r.relType = js "MENTIONS"
    · have hne : js "MENTIONS" ≠ js "PAGE_SIMILAR" := by decide
      have ht : truthy (js "PAGE_SIMILAR") = true := by decide
      simp [hr, hne, ht]
    · simp [hr]
  have hE := filter_foldl_storePut_of_false RelationRecord.id
    (fun r => r.relType == js "MENTIONS" && r.sourceKey == nodeKey (js "page") task.pageId)
    (deleteRelationsBySource st.relations (js "page") task.pageId (some (js "PAGE_SIMILAR")))
    ((topSimilar (similarityScores (getAllPages st.pages) task.pageId vec)).map
      ((fun rel => normalizeRelation rel now) ∘ similarRelation task.pageId))
    (by
      intro r hr
      obtain ⟨item, _, rfl⟩ := List.mem_map.1 hr
      have hne : js "PAGE_SIMILAR" ≠ js "MENTIONS" := by decide
      simp [Function.comp, (normalizeRelation_similar task.pageId item now).1, hne])
    (by
      intro x hx hpx r hr
      have hxm : x ∈ entities.map (fun e => normalizeRelation (mentionsRelation task e) now) := by
        rw [← hst, ← hD]
        exact List.mem_filter.2 ⟨hx, hpx⟩
      obtain ⟨e, _, rfl⟩ := List.mem_map.1 hxm
      obtain ⟨item, _, rfl⟩ := List.mem_map.1 hr
      exact similar_id_ne_mentions_id task e item now hp)
  rw [hE, hD, hst]

/-- C5: relation replace-on-reprocess. Whatever the store held, after
persistKnowledge has run for a page with a list of resolved entities of distinct
ids, the MENTIONS relations sourced from that page are exactly one per entity of
the list, each from the page to that entity and with the entity's score as its
weight. The entities are resolved ones, whose score is not zero, and the page id
is a digest, which has no bar in it. -/
theorem mentions_replaced_on_reprocess (lower : JSString → JSString) (st : GraphStore)
    (task : Task) (summaryResult : SummaryResult) (embedding : Option Embedding)
    (entities : List ResolvedEntity) (now : JSString) (fresh : Nat → JSString)
    (random : JSString) (hids : (entities.map ResolvedEntity.id).Nodup)
    (hw : ∀ e ∈ entities, e.weight ≠ 0) (hp : 124 ∉ task.pageId) :
    (persistKnowledge lower st task summaryResult embedding entities now fresh random).relations.filter
        (fun r => r.relType == js "MENTIONS" && r.sourceKey == nodeKey (js "page") task.pageId) =
      entities.map (fun e =>
        { id := js "page:" ++ (task.pageId ++ 124 :: (js "MENTIONS|entity:" ++ e.id))
          sourceType := js "page"
          sourceId := task.pageId
          sourceKey := nodeKey (js "page") task.pageId
          targetType := js "entity"
          targetId := e.id
          targetKey := nodeKey (js "entity") e.id
          relType := js "MENTIONS"
          weight := e.weight
          created_at := now
          updated_at := now
          metadata := [(js "frequency", MetaValue.num e.frequency),
            (js "source", MetaValue.str e.source)] }) := by
  have hrec : entities.map (fun e => normalizeRelation (mentionsRelation task e) now) =
      entities.map (fun e =>
        ({ id := js "page:" ++ (task.pageId ++ 124 :: (js "MENTIONS|entity:" ++ e.id))
           sourceType := js "page"
           sourceId := task.pageId
           sourceKey := nodeKey (js "page") task.pageId
           targetType := js "entity"
           targetId := e.id
           targetKey := nodeKey (js "entity") e.id
           relType := js "MENTIONS"
           weight := e.weight
           created_at := now
           updated_at := now
           metadata := [(js "frequency", MetaValue.num e.frequency),
             (js "source", MetaValue.str e.source)] } : RelationRecord)) := by
    apply List.map_congr_left
    intro e he
    rw [normalizeRelation_mentions]
    simp [weightOrOne, hw e he]
  have h1 := persistRelations_mentions lower st task summaryResult embedding entities now fresh
    random hids
  rw [← hrec]
  cases embedding with
  | none => exact h1
  | some vec =>
    exact updatePageSimilarities_mentions _ task vec entities now hp h1

theorem mentions_replaced_on_reprocess_witness :
    ((persistKnowledge (fun s => s)
        { pages := []
          entities := []
          relations :=
            [normalizeRelation
              (mentionsRelation
                { taskId := js "k0", pageId := js "b", url := js "https://b", title := js "B",
                  text := js "old", meta := [], contentHash := js "h0", timestamp := js "t0" }
                { name := js "Old Topic", type := js "Concept", weight := 3, aliases := [],
                  source := js "title", frequency := 1, id := js "ent:0" })
              (js "t0")] }
        { taskId := js "k1", pageId := js "b", url := js "https://b", title := js "B",
          text := js "new", meta := [], contentHash := js "h1", timestamp := js "t1" }
        { summary := [], source := js "empty" } none
        [{ name := js "New Topic", type := js "Concept", weight := 3, aliases := [],
           source := js "title", frequency := 1, id := js "ent:1" },
         { name := js "Other Topic", type := js "Concept", weight := 2, aliases := [],
           source := js "proper-noun", frequency := 1, id := js "ent:2" }]
        (js "t1") (fun _ => js "n") (js "r")).relations.filter
      (fun r => r.relType == js "MENTIONS" && r.sourceKey == nodeKey (js "page") (js "b"))).map
        (fun r => (r.targetId, r.weight)) =
      [(js "ent:1", 3), (js "ent:2", 2)] := by
  refine (congrArg (List.map (fun r => (r.targetId, r.weight)))
    (mentions_replaced_on_reprocess (fun s => s) _
      { taskId := js "k1", pageId := js "b", url := js "https://b", title := js "B",
        text := js "new", meta := [], contentHash := js "h1", timestamp := js "t1" }
      _ _ _ _ _ _ ?_ ?_ ?_)).trans ?_
  · decide
  · decide
  · decide
  · rfl

/-- C6, at the failing input. Page `a` holds the embedding (1, 0). Page `b` is
processed with the embedding (1, 0): the PAGE_SIMILAR relation the run writes is
stored with `a` as its source. Page `b` is then reprocessed with the embedding
(0, 1): no page is similar any more, yet the relation written by the earlier run
is still in the store. -/
theorem stale_similarity_relation_survives :
    (persistKnowledge (fun s => s)
        { pages :=
            [{ id := js "a", title := js "A", url := js "https://a", timestamp := js "t0",
               summary := [], content := js "x", contentHash := some (js "h"),
               embedding := some [1, 0], embeddingDim := 384, notes := [], tags := [],
               metadata := [], created_at := js "t0", updated_at := js "t0" }]
          entities := []
          relations := [] }
        { taskId := js "k1", pageId := js "b", url := js "https://b", title := js "B",
          text := js "y", meta := [], contentHash := js "h1", timestamp := js "t1" }
        { summary := [], source := js "empty" } (some [1, 0]) [] (js "t1") (fun _ => js "n")
        (js "r")).relations.map
        (fun r => (r.id, r.sourceId, r.targetId, r.weight)) =
      [(js "page:a|PAGE_SIMILAR|page:b", js "a", js "b", 1)] ∧
    topSimilar
        (similarityScores
          (persistKnowledge (fun s => s)
            { pages :=
                [{ id := js "a", title := js "A", url := js "https://a", timestamp := js "t0",
                   summary := [], content := js "x", contentHash := some (js "h"),
                   embedding := some [1, 0], embeddingDim := 384, notes := [], tags := [],
                   metadata := [], created_at := js "t0", updated_at := js "t0" }]
              entities := []
              relations := [] }
            { taskId := js "k1", pageId := js "b", url := js "https://b", title := js "B",
              text := js "y", meta := [], contentHash := js "h1", timestamp := js "t1" }
            { summary := [], source := js "empty" } (some [1, 0]) [] (js "t1")
            (fun _ => js "n") (js "r")).pages
          (js "b") [0, 1]) = [] ∧
    (persistKnowledge (fun s => s)
        (persistKnowledge (fun s => s)
          { pages :=
              [{ id := js "a", title := js "A", url := js "https://a", timestamp := js "t0",
                 summary := [], content := js "x", contentHash := some (js "h"),
                 embedding := some [1, 0], embeddingDim := 384, notes := [], tags := [],
                 metadata := [], created_at := js "t0", updated_at := js "t0" }]
            entities := []
            relations := [] }
          { taskId := js "k1", pageId := js "b", url := js "https://b", title := js "B",
            text := js "y", meta := [], contentHash := js "h1", timestamp := js "t1" }
          { summary := [], source := js "empty" } (some [1, 0]) [] (js "t1") (fun _ => js "n")
          (js "r"))
        { taskId := js "k2", pageId := js "b", url := js "https://b", title := js "B",
          text := js "z", meta := [], contentHash := js "h2", timestamp := js "t2" }
        { summary := [], source := js "empty" } (some [0, 1]) [] (js "t2") (fun _ => js "n")
        (js "r")).relations.map
        (fun r => (r.id, r.sourceId, r.targetId, r.weight)) =
      [(js "page:a|PAGE_SIMILAR|page:b", js "a", js "b", 1)] := by
  decide!

/-- C7, at the failing input. The stored entity has the aliases "AI" and "A.I.";
the update persistKnowledge sends for it carries the alias "AI" alone. The record
upsertEntity stores has the aliases of the update only: "A.I." is gone. -/
theorem upsertEntity_drops_stored_alias :
    (upsertEntity (fun s => s)
        [{ id := js "ent:1", name := js "AI", nameL := js "ai", type := js "Concept",
           aliases := [js "AI", js "A.I."], created_at := js "t0", updated_at := js "t0",
           weight := none, metadata := none }]
        (entityUpdate
          { name := js "AI", type := js "Concept", weight := 2, aliases := [js "AI"],
            source := js "title", frequency := 1, id := js "ent:1" })
        (js "t1") (js "r")).map (fun e => (e.id, e.aliases)) =
      [(js "ent:1", [js "AI"])] := by
  decide

/-! ## Pages: merge lemmas -/

theorem orStr_some_nil (s : JSString) : orStr (some s) [] = s := by
  cases s <;> rfl

theorem orStr_some_of_truthy (s d : JSString) (h : truthy s = true) : orStr (some s) d = s := by
  simp [orStr, h]

theorem orNull_of_ne_some_nil (v : Option JSString) (h : v ≠ some []) : orNull v = v := by
  cases v with
  | none => rfl
  | some s =>
    cases s with
    | nil => exact absurd rfl h
    | cons a as => rfl

theorem normalizeNotesFrom_toInput (now : JSString) (fresh : Nat → JSString) :
    ∀ (ns : List Note) (i : Nat),
      (∀ n ∈ ns, truthy n.id = true ∧ truthy n.timestamp = true) →
      normalizeNotesFrom now fresh i (ns.map Note.toInput) = ns := by
  intro ns
  induction ns with
  | nil => intro i _; rfl
  | cons n ns ih =>
    intro i h
    have hn := h n (List.mem_cons_self _ _)
    simp only [List.map_cons, normalizeNotesFrom, Note.toInput, orStr_some_nil,
      orStr_some_of_truthy _ _ hn.1, orStr_some_of_truthy _ _ hn.2]
    rw [ih (i + 1) (fun m hm => h m (List.mem_cons_of_mem _ hm))]

theorem find?_filter_of_imp {α : Type} (p q : α → Bool) (h : ∀ x, p x = true → q x = true) :
    ∀ l : List α, (l.filter q).find? p = l.find? p := by
  intro l
  induction l with
  | nil => rfl
  | cons a l ih =>
    by_cases hq : q a = true
    · rw [List.filter_cons_of_pos hq]
      by_cases hp : p a = true
      · simp [List.find?_cons, hp]
      · simp [List.find?_cons, hp, ih]
    · have hp : ¬ p a = true := fun hp => hq (h a hp)
      rw [List.filter_cons_of_neg hq]
      simp [List.find?_cons, hp, ih]

/-- Reading a property of the spread `{ ...a, ...b }`: the value in `b` when `b`
defines the property, the value in `a` otherwise. -/
theorem Metadata.get_spread (a b : Metadata) (k : JSString) :
    Metadata.get (Metadata.spread a b) k =
      (Metadata.get b k).orElse (fun _ => Metadata.get a k) := by
  unfold Metadata.spread Metadata.get
  rw [List.find?_append]
  cases hb : b.find? (fun kv => kv.1 == k) with
  | some v => simp
  | none =>
    simp only [Option.none_or, Option.map_none', Option.orElse]
    congr 1
    apply find?_filter_of_imp
    intro x hx
    have hxk : x.1 = k := by simpa using hx
    simp [Metadata.get, hxk, hb]

theorem getPageById_id (store : List PageRecord) (i : JSString) (r : PageRecord)
    (h : getPageById store (some i) = some r) : r.id = i ∧ truthy i = true := by
  unfold getPageById at h
  by_cases ht : truthy i = true
  · simp only [ht, if_true] at h
    have := List.find?_some h
    exact ⟨by simpa using this, ht⟩
  · simp [ht] at h

/-- C8, as the claim states it, fails for an update that carries the url of another
stored page: the unique index `by_url` rejects the put, the store is left as it
was, and the record under the id does not get the metadata of the update. -/
theorem upsertPage_url_taken_counterexample :
    upsertPage
        [normalizePage (js "p1")
          { id := some (js "p1"), title := some (js "A"), url := some (js "https://a"),
            timestamp := none, summary := none, content := none, contentHash := none,
            embedding := none, embeddingDim := none, notes := none, tags := none,
            metadata := none, created_at := none } (js "t0") (fun _ => js "n0"),
          normalizePage (js "p2")
          { id := some (js "p2"), title := some (js "B"), url := some (js "https://b"),
            timestamp := none, summary := none, content := none, contentHash := none,
            embedding := none, embeddingDim := none, notes := none, tags := none,
            metadata := none, created_at := none } (js "t0") (fun _ => js "n0")]
        { id := some (js "p1"), title := none, url := some (js "https://b"), timestamp := none,
          summary := none, content := none, contentHash := none, embedding := none,
          embeddingDim := none, notes := none, tags := none,
          metadata := some [(js "k", MetaValue.str (js "v"))], created_at := none }
        (js "t1") (fun _ => js "n1") = none ∧
    (getPageById
        [normalizePage (js "p1")
          { id := some (js "p1"), title := some (js "A"), url := some (js "https://a"),
            timestamp := none, summary := none, content := none, contentHash := none,
            embedding := none, embeddingDim := none, notes := none, tags := none,
            metadata := none, created_at := none } (js "t0") (fun _ => js "n0"),
          normalizePage (js "p2")
          { id := some (js "p2"), title := some (js "B"), url := some (js "https://b"),
            timestamp := none, summary := none, content := none, contentHash := none,
            embedding := none, embeddingDim := none, notes := none, tags := none,
            metadata := none, created_at := none } (js "t0") (fun _ => js "n0")]
        (some (js "p1"))).map (fun r => Metadata.get r.metadata (js "k")) = some none := by
  decide!

/-- C8, amended: upsertPage merge semantics. Let `r` be the normalised record stored
under its id and `p` an update carrying that id. When no record under another id
holds the url of the merged record (the url of `p`, or of `r` when `p` provides
none), the store after upsertPage holds, in place of `r`, a record in which each
of title, url, timestamp, summary, content, contentHash, embedding, notes, tags
and created_at that `p` does not provide has the value it has in `r`, and whose
metadata is the shallow merge of the metadata of `r` and of `p`: reading a key
gives the value of `p` when `p` defines the key and the value of `r` otherwise.
When such a record exists the call is rejected and the store is left as it was. -/
theorem upsertPage_merge (store : List PageRecord) (r : PageRecord) (p : Page)
    (now : JSString) (fresh : Nat → JSString)
    (hr : getPageById store (some r.id) = some r) (hn : r.Normalized)
    (hid : p.id = some r.id) :
    ((∀ x ∈ store, x.id ≠ r.id → x.url ≠ orStr (p.url.orElse (fun _ => some r.url)) []) →
      ∃ r' : PageRecord,
        upsertPage store p now fresh = some (store.filter (fun x => x.id != r.id) ++ [r']) ∧
        r'.id = r.id ∧
        (p.title = none → r'.title = r.title) ∧
        (p.url = none → r'.url = r.url) ∧
        (p.timestamp = none → r'.timestamp = r.timestamp) ∧
        (p.summary = none → r'.summary = r.summary) ∧
        (p.content = none → r'.content = r.content) ∧
        (p.contentHash = none → r'.contentHash = r.contentHash) ∧
        (p.embedding = none → r'.embedding = r.embedding) ∧
        (p.notes = none → r'.notes = r.notes) ∧
        (p.tags = none → r'.tags = r.tags) ∧
        (p.created_at = none → r'.created_at = r.created_at) ∧
        (∀ k, Metadata.get r'.metadata k =
          (Metadata.get (p.metadata.getD []) k).orElse (fun _ => Metadata.get r.metadata k)) ∧
        (∀ k v, Metadata.get r.metadata k = some v → Metadata.get (p.metadata.getD []) k = none →
          Metadata.get r'.metadata k = some v) ∧
        (∀ k v, Metadata.get (p.metadata.getD []) k = some v →
          Metadata.get r'.metadata k = some v)) ∧
    ((∃ x ∈ store, x.id ≠ r.id ∧ x.url = orStr (p.url.orElse (fun _ => some r.url)) []) →
      upsertPage store p now fresh = none) := by
  obtain ⟨hts, hca, hch, hnotes⟩ := hn
  have hurl' : (normalizePage r.id (mergePage (some r) p) now fresh).url =
      orStr (p.url.orElse (fun _ => some r.url)) [] := by
    simp only [normalizePage, mergePage, Option.map_some']
  have hup : upsertPage store p now fresh =
      putPage store (normalizePage r.id (mergePage (some r) p) now fresh) := by
    simp only [upsertPage, hid, hr]
  constructor
  · intro hfree
    have hany : store.any (fun x => x.id != (normalizePage r.id (mergePage (some r) p) now fresh).id &&
        x.url == (normalizePage r.id (mergePage (some r) p) now fresh).url) = false := by
      rw [List.any_eq_false]
      intro x hx
      rw [hurl']
      by_cases hxi : x.id = r.id
      · simp [normalizePage, hxi]
      · have := hfree x hx hxi
        simp [this]
    refine ⟨normalizePage r.id (mergePage (some r) p) now fresh, ?_, rfl, ?_, ?_, ?_, ?_, ?_, ?_,
      ?_, ?_, ?_, ?_, ?_, ?_, ?_⟩
    · rw [hup]
      unfold putPage
      rw [if_neg (by rw [hany]; decide)]
      rfl
    · intro h
      simp [normalizePage, mergePage, h, orStr_some_nil]
    · intro h
      simp [normalizePage, mergePage, h, orStr_some_nil]
    · intro h
      simp [normalizePage, mergePage, h, orStr_some_of_truthy _ _ hts]
    · intro h
      simp [normalizePage, mergePage, h, orStr_some_nil]
    · intro h
      simp [normalizePage, mergePage, h, orStr_some_nil]
    · intro h
      simp [normalizePage, mergePage, h, orNull_of_ne_some_nil _ hch]
    · intro h
      simp only [normalizePage, mergePage, h, Option.orElse, Option.map_some', serializeEmbedding]
      cases r.embedding <;> rfl
    · intro h
      simp only [normalizePage, mergePage, h, Option.orElse, Option.map_some', normalizeNotes]
      exact normalizeNotesFrom_toInput now fresh r.notes 0 hnotes
    · intro h
      simp [normalizePage, mergePage, h]
    · intro h
      simp [normalizePage, mergePage, h, orStr_some_of_truthy _ _ hca]
    · intro k
      simp only [normalizePage, mergePage, Option.getD_some, Option.map_some']
      exact Metadata.get_spread _ _ k
    · intro k v h1 h2
      simp only [normalizePage, mergePage, Option.getD_some, Option.map_some']
      rw [Metadata.get_spread, h2, h1]
      rfl
    · intro k v h1
      simp only [normalizePage, mergePage, Option.getD_some, Option.map_some']
      rw [Metadata.get_spread, h1]
      rfl
  · rintro ⟨x, hx, hxi, hxu⟩
    have hany : store.any (fun x => x.id != (normalizePage r.id (mergePage (some r) p) now fresh).id &&
        x.url == (normalizePage r.id (mergePage (some r) p) now fresh).url) = true := by
      rw [List.any_eq_true]
      refine ⟨x, hx, ?_⟩
      rw [hurl']
      simp [normalizePage, hxi, hxu]
    rw [hup]
    unfold putPage
    rw [if_pos hany]

/-- What normalizePage returns is a normalised record, when the clock reading and
the generated note ids are non-empty. -/
theorem normalizePage_normalized (id : JSString) (page : Page) (now : JSString)
    (fresh : Nat → JSString) (hnow : truthy now = true) (hfresh : ∀ i, truthy (fresh i) = true) :
    (normalizePage id page now fresh).Normalized := by
  have hor : ∀ (v : Option JSString) (d : JSString), truthy d = true → truthy (orStr v d) = true := by
    intro v d hd
    cases v with
    | none => exact hd
    | some s =>
      by_cases hs : truthy s = true
      · simp [orStr, hs]
      · simp [orStr, hs, hd]
  have hnotes : ∀ (ns : List NoteInput) (i : Nat), ∀ n ∈ normalizeNotesFrom now fresh i ns,
      truthy n.id = true ∧ truthy n.timestamp = true := by
    intro ns
    induction ns with
    | nil => intro i n hn; simp [normalizeNotesFrom] at hn
    | cons a ns ih =>
      intro i n hn
      simp only [normalizeNotesFrom, List.mem_cons] at hn
      rcases hn with h | h
      · subst h
        exact ⟨hor _ _ (hfresh i), hor _ _ hnow⟩
      · exact ih (i + 1) n h
  refine ⟨hor _ _ hnow, hor _ _ hnow, ?_, ?_⟩
  · simp only [normalizePage]
    cases page.contentHash with
    | none => simp [orNull]
    | some s =>
      cases s with
      | nil => simp [orNull, truthy]
      | cons a as => simp [orNull, truthy]
  · simp only [normalizePage, normalizeNotes]
    cases page.notes with
    | none => intro n hn; simp at hn
    | some ns => exact hnotes ns 0

theorem upsertPage_merge_witness :
    ∃ r' : PageRecord,
      upsertPage
          [normalizePage (js "p2")
            { id := some (js "p2"), title := some (js "Other"), url := some (js "https://b"),
              timestamp := none, summary := none, content := none, contentHash := none,
              embedding := none, embeddingDim := none, notes := none, tags := none,
              metadata := none, created_at := none } (js "t0") (fun _ => js "n0"),
            normalizePage (js "p1")
            { id := some (js "p1"), title := some (js "Old title"), url := some (js "https://a"),
              timestamp := none, summary := some (js "Old summary"), content := some (js "text"),
              contentHash := some (js "h0"), embedding := some (some [1, 0]), embeddingDim := none,
              notes := some [{ id := none, text := some (js "note"), timestamp := none }],
              tags := some [js "tag"], metadata := some [(js "metaDescription", MetaValue.str (js "d"))],
              created_at := none } (js "t0") (fun _ => js "n0")]
          { id := some (js "p1"), title := some (js "New title"), url := none, timestamp := none,
            summary := none, content := none, contentHash := none, embedding := none,
            embeddingDim := none, notes := none, tags := none,
            metadata := some [(js "summarySource", MetaValue.str (js "local-fallback"))],
            created_at := none } (js "t1") (fun _ => js "n1") =
        some
          [normalizePage (js "p2")
            { id := some (js "p2"), title := some (js "Other"), url := some (js "https://b"),
              timestamp := none, summary := none, content := none, contentHash := none,
              embedding := none, embeddingDim := none, notes := none, tags := none,
              metadata := none, created_at := none } (js "t0") (fun _ => js "n0"), r'] ∧
      r'.summary = js "Old summary" ∧ r'.embedding = some [1, 0] ∧
      r'.notes = [{ id := js "n0", text := js "note", timestamp := js "t0" }] ∧
      Metadata.get r'.metadata (js "metaDescription") = some (MetaValue.str (js "d")) ∧
      Metadata.get r'.metadata (js "summarySource") =
        some (MetaValue.str (js "local-fallback")) := by
  obtain ⟨r', h1, _, _, _, _, h5, _, _, h8, h9, _, _, _, h13, h14⟩ :=
    (upsertPage_merge
      [normalizePage (js "p2")
        { id := some (js "p2"), title := some (js "Other"), url := some (js "https://b"),
          timestamp := none, summary := none, content := none, contentHash := none,
          embedding := none, embeddingDim := none, notes := none, tags := none,
          metadata := none, created_at := none } (js "t0") (fun _ => js "n0"),
        normalizePage (js "p1")
        { id := some (js "p1"), title := some (js "Old title"), url := some (js "https://a"),
          timestamp := none, summary := some (js "Old summary"), content := some (js "text"),
          contentHash := some (js "h0"), embedding := some (some [1, 0]), embeddingDim := none,
          notes := some [{ id := none, text := some (js "note"), timestamp := none }],
          tags := some [js "tag"], metadata := some [(js "metaDescription", MetaValue.str (js "d"))],
          created_at := none } (js "t0") (fun _ => js "n0")]
      (normalizePage (js "p1")
        { id := some (js "p1"), title := some (js "Old title"), url := some (js "https://a"),
          timestamp := none, summary := some (js "Old summary"), content := some (js "text"),
          contentHash := some (js "h0"), embedding := some (some [1, 0]), embeddingDim := none,
          notes := some [{ id := none, text := some (js "note"), timestamp := none }],
          tags := some [js "tag"], metadata := some [(js "metaDescription", MetaValue.str (js "d"))],
          created_at := none } (js "t0") (fun _ => js "n0"))
      { id := some (js "p1"), title := some (js "New title"), url := none, timestamp := none,
        summary := none, content := none, contentHash := none, embedding := none,
        embeddingDim := none, notes := none, tags := none,
        metadata := some [(js "summarySource", MetaValue.str (js "local-fallback"))],
        created_at := none } (js "t1") (fun _ => js "n1") (by decide!)
      (by decide!) (by rfl)).1 (by decide!)
  refine ⟨r', ?_, h5 rfl, h8 rfl, h9 rfl, h13 _ _ (by decide) (by decide), h14 _ _ (by decide)⟩
  rw [h1]
  rfl

/-! ## Capture producer and queue -/

theorem findIndex_eq_none {α : Type} (p : α → Bool) :
    ∀ l : List α, (∀ x ∈ l, p x = false) → findIndex p l = none := by
  intro l
  induction l with
  | nil => intro _; rfl
  | cons a l ih =>
    intro h
    have ha := h a (List.mem_cons_self _ _)
    simp only [findIndex, ha, Bool.false_eq_true, if_false,
      ih (fun x hx => h x (List.mem_cons_of_mem _ hx)), Option.map_none']

/-- When some entry satisfies `p`, `findIndex` returns the position of the first
one, and writing at that position replaces that entry alone. -/
theorem findIndex_split {α : Type} (p : α → Bool) (t : α) :
    ∀ l : List α, (∃ x ∈ l, p x = true) →
      ∃ (pre : List α) (x : α) (post : List α), l = pre ++ x :: post ∧
        (∀ y ∈ pre, p y = false) ∧ p x = true ∧ findIndex p l = some pre.length ∧
        l.set pre.length t = pre ++ t :: post := by
  intro l
  induction l with
  | nil => intro h; obtain ⟨x, hx, _⟩ := h; simp at hx
  | cons a l ih =>
    intro h
    by_cases ha : p a = true
    · exact ⟨[], a, l, rfl, by simp, ha, by simp [findIndex, ha], rfl⟩
    · have hl : ∃ x ∈ l, p x = true := by
        obtain ⟨x, hx, hpx⟩ := h
        rcases List.mem_cons.1 hx with h1 | h1
        · exact absurd (h1 ▸ hpx) ha
        · exact ⟨x, h1, hpx⟩
      obtain ⟨pre, x, post, h1, h2, h3, h4, h5⟩ := ih hl
      refine ⟨a :: pre, x, post, by rw [h1]; rfl, ?_, h3, ?_, ?_⟩
      · intro y hy
        rcases List.mem_cons.1 hy with h6 | h6
        · rw [h6]; simpa using ha
        · exact h2 y h6
      · simp [findIndex, ha, h4]
      · simp only [List.length_cons, List.set_cons_succ, h5, List.cons_append]

theorem captureText_congr (cap cap' : Capture) (h : cap'.text = cap.text) :
    captureText cap' = captureText cap := by
  simp only [captureText, h]

/-- C9: content dedup. The contentHash of a capture is the digest of
url + '|' + text, the text being the captured text cut at MAX_CAPTURE_CHARS code
units, so two captures with the same url and text compute the same contentHash.
When the page stored for the url carries that contentHash, analyzePage for a
capture of the same url and text returns with the page store, the fallback
pages, the queue and the sent messages all unchanged. -/
theorem content_dedup (digest : JSString → Option JSString) (w : Background) (tab : Tab)
    (cap cap' : Capture) (now : JSString) (fresh : Nat → JSString)
    (store : List PageRecord) (r : PageRecord)
    (htext : cap'.text = cap.text)
    (hdb : w.db = some store) (hr : getPageByUrl store tab.url = some r)
    (hh : r.contentHash = some (captureHash digest tab.url cap)) :
    captureHash digest tab.url cap' = captureHash digest tab.url cap ∧
    captureHash digest tab.url cap =
      hashString digest (tab.url ++ js "|" ++ (orStr cap.text []).take MAX_CAPTURE_CHARS) ∧
    ((orStr cap.text []).length ≤ MAX_CAPTURE_CHARS →
      captureHash digest tab.url cap = hashString digest (tab.url ++ js "|" ++ orStr cap.text [])) ∧
    analyzePage digest w tab (some cap') now fresh = w := by
  have hc : captureHash digest tab.url cap' = captureHash digest tab.url cap := by
    simp only [captureHash, captureText_congr cap cap' htext]
  refine ⟨hc, rfl, ?_, ?_⟩
  · intro hlen
    simp only [captureHash, captureText, List.take_of_length_le hlen]
  · simp only [analyzePage, hc, hdb, Option.bind, hr, hh, Option.isSome, beq_self_eq_true,
      Bool.and_self, if_true, ite_self]

theorem content_dedup_witness :
    analyzePage (fun _ => none)
        { db := some
            [{ id := js "p1", title := js "A", url := js "https://a", timestamp := js "t0",
               summary := [], content := js "hello",
               contentHash := some (hashString (fun _ => none) (js "https://a|hello")),
               embedding := none, embeddingDim := 384, notes := [], tags := [], metadata := [],
               created_at := js "t0", updated_at := js "t0" }]
          pages := none
          queue := some []
          sent := [] }
        { url := js "https://a", title := some (js "A") }
        (some { title := some (js "A again"), meta := none, text := some (js "hello") })
        (js "t1") (fun _ => js "n") =
      { db := some
          [{ id := js "p1", title := js "A", url := js "https://a", timestamp := js "t0",
             summary := [], content := js "hello",
             contentHash := some (hashString (fun _ => none) (js "https://a|hello")),
             embedding := none, embeddingDim := 384, notes := [], tags := [], metadata := [],
             created_at := js "t0", updated_at := js "t0" }]
        pages := none
        queue := some []
        sent := [] } :=
  (content_dedup (fun _ => none) _ { url := js "https://a", title := some (js "A") }
    { title := some (js "A"), meta := none, text := some (js "hello") }
    { title := some (js "A again"), meta := none, text := some (js "hello") }
    (js "t1") (fun _ => js "n") _ _ (by rfl) (by rfl) (by rfl) (by rfl)).2.2.2

/-- C10: enqueue. If some entry of the queue has the task's taskId,
enqueuePipelineTask writes the queue with the first such entry replaced by the
task, every other entry unchanged and in place; otherwise it writes the queue
with the task appended as the last entry. -/
theorem enqueue_replace_or_append (queue : Option (List Task)) (task : Task) :
    ((∃ e ∈ readPipelineQueue queue, e.taskId = task.taskId) →
      ∃ (pre : List Task) (x : Task) (post : List Task),
        readPipelineQueue queue = pre ++ x :: post ∧
        (∀ y ∈ pre, y.taskId ≠ task.taskId) ∧ x.taskId = task.taskId ∧
        enqueuePipelineTask queue task = some (pre ++ task :: post) ∧
        (pre ++ task :: post).length = (readPipelineQueue queue).length) ∧
    ((∀ e ∈ readPipelineQueue queue, e.taskId ≠ task.taskId) →
      enqueuePipelineTask queue task = some (readPipelineQueue queue ++ [task])) := by
  constructor
  · intro h
    obtain ⟨pre, x, post, h1, h2, h3, h4, h5⟩ :=
      findIndex_split (fun t : Task => t.taskId == task.taskId) task (readPipelineQueue queue)
        (by obtain ⟨e, he, het⟩ := h; exact ⟨e, he, by simpa using het⟩)
    refine ⟨pre, x, post, h1, ?_, by simpa using h3, ?_, ?_⟩
    · intro y hy
      simpa using h2 y hy
    · simp only [enqueuePipelineTask, h4, h5]
    · rw [h1]; simp
  · intro h
    have hnone := findIndex_eq_none (fun t : Task => t.taskId == task.taskId)
      (readPipelineQueue queue) (fun x hx => by simpa using h x hx)
    simp only [enqueuePipelineTask, hnone]

theorem enqueue_replace_or_append_witness :
    enqueuePipelineTask
        (some
          [{ taskId := js "k1", pageId := js "p1", url := js "https://a", title := js "A",
             text := js "old", meta := [], contentHash := js "h1", timestamp := js "t1" }])
        { taskId := js "k2", pageId := js "p2", url := js "https://b", title := js "B",
          text := js "new", meta := [], contentHash := js "h2", timestamp := js "t2" } =
      some
        (readPipelineQueue
            (some
              [{ taskId := js "k1", pageId := js "p1", url := js "https://a", title := js "A",
                 text := js "old", meta := [], contentHash := js "h1", timestamp := js "t1" }]) ++
          [{ taskId := js "k2", pageId := js "p2", url := js "https://b", title := js "B",
             text := js "new", meta := [], contentHash := js "h2", timestamp := js "t2" }]) :=
  (enqueue_replace_or_append _ _).2 (by decide)

/-! ## Queue handlers -/

/-- C11: queue drain-once. The drain handler answers with the whole pending queue in
its stored order and leaves the stored queue empty; a second drain with no
enqueue in between answers with the empty list; and the first answer is
non-empty whenever at least one task was pending. -/
theorem drain_once (queue : Option (List Task)) :
    (requestQueue queue).1 = readPipelineQueue queue ∧
    readPipelineQueue (requestQueue queue).2 = [] ∧
    (requestQueue (requestQueue queue).2).1 = [] ∧
    readPipelineQueue (requestQueue (requestQueue queue).2).2 = [] ∧
    ((∃ t, t ∈ readPipelineQueue queue) → (requestQueue queue).1 ≠ []) := by
  refine ⟨rfl, rfl, rfl, rfl, ?_⟩
  rintro ⟨t, ht⟩ hnil
  have h0 : (requestQueue queue).1 = readPipelineQueue queue := rfl
  rw [h0] at hnil
  rw [hnil] at ht
  exact List.not_mem_nil t ht

theorem drain_once_witness :
    (requestQueue
        (enqueuePipelineTask none
          { taskId := js "k1", pageId := js "p1", url := js "https://a", title := js "A",
            text := js "hello", meta := [], contentHash := js "h1", timestamp := js "t1" })).1 ≠
      [] :=
  (drain_once _).2.2.2.2 ⟨_, List.mem_singleton.2 rfl⟩

/-- C12: queue remove. The completion handler for taskId `k` leaves a queue that
holds no entry with taskId `k` and holds the other entries of the queue in their
original order (the stored queue is the old one filtered, each entry kept once);
when no entry has taskId `k` the queue is left as it was. -/
theorem task_complete_removes (queue : Option (List Task)) (k : JSString) :
    (∀ t ∈ readPipelineQueue (taskComplete queue k), t.taskId ≠ k) ∧
    readPipelineQueue (taskComplete queue k) =
      (readPipelineQueue queue).filter (fun t => decide (t.taskId ≠ k)) ∧
    List.Sublist (readPipelineQueue (taskComplete queue k)) (readPipelineQueue queue) ∧
    (∀ t ∈ readPipelineQueue queue, t.taskId ≠ k → t ∈ readPipelineQueue (taskComplete queue k)) ∧
    (∀ t, t.taskId ≠ k → (readPipelineQueue (taskComplete queue k)).count t =
      (readPipelineQueue queue).count t) ∧
    ((∀ t ∈ readPipelineQueue queue, t.taskId ≠ k) →
      readPipelineQueue (taskComplete queue k) = readPipelineQueue queue) := by
  have h0 : readPipelineQueue (taskComplete queue k) =
      (readPipelineQueue queue).filter (fun t => t.taskId != k) := rfl
  have h1 : (fun t : Task => t.taskId != k) = (fun t => decide (t.taskId ≠ k)) := by
    funext t
    by_cases h : t.taskId = k <;> simp [h]
  refine ⟨?_, ?_, ?_, ?_, ?_, ?_⟩
  · intro t ht
    rw [h0] at ht
    simpa using (List.mem_filter.1 ht).2
  · rw [h0, h1]
  · rw [h0]
    exact List.filter_sublist _
  · intro t ht hk
    rw [h0]
    exact List.mem_filter.2 ⟨ht, by simpa using hk⟩
  · intro t hk
    rw [h0, List.count_filter]
    simpa using hk
  · intro h
    rw [h0, List.filter_eq_self]
    intro t ht
    simpa using h t ht

theorem task_complete_removes_witness :
    readPipelineQueue
        (taskComplete
          (some
            [{ taskId := js "k1", pageId := js "p1", url := js "https://a", title := js "A",
               text := js "hello", meta := [], contentHash := js "h1", timestamp := js "t1" }])
          (js "k2")) =
      readPipelineQueue
        (some
          [{ taskId := js "k1", pageId := js "p1", url := js "https://a", title := js "A",
             text := js "hello", meta := [], contentHash := js "h1", timestamp := js "t1" }]) :=
  (task_complete_removes _ (js "k2")).2.2.2.2.2 (by decide)

/-! ## Co-mention pairs -/

theorem length_entityPairs (entities : List ResolvedEntity) :
    (entityPairs entities).length * 2 = entities.length * (entities.length - 1) := by
  induction entities with
  | nil => rfl
  | cons a rest ih =>
    simp only [entityPairs, List.length_append, List.length_map, List.length_cons,
      Nat.add_sub_cancel, Nat.add_mul, ih]
    cases rest with
    | nil => rfl
    | cons b rest2 =>
      simp only [List.length_cons, Nat.add_sub_cancel]
      ring

theorem mem_entityPairs (entities : List ResolvedEntity) (p : ResolvedEntity × ResolvedEntity) :
    p ∈ entityPairs entities ↔
      ∃ i j : Nat, i < j ∧ entities[i]? = some p.1 ∧ entities[j]? = some p.2 := by
  induction entities with
  | nil => simp [entityPairs]
  | cons a rest ih =>
    simp only [entityPairs, List.mem_append, List.mem_map, ih]
    constructor
    · rintro (⟨b, hb, rfl⟩ | ⟨i, j, hij, hi, hj⟩)
      · obtain ⟨n, hn⟩ := List.mem_iff_getElem?.1 hb
        exact ⟨0, n + 1, Nat.succ_pos n, by simp, by simpa using hn⟩
      · exact ⟨i + 1, j + 1, Nat.succ_lt_succ hij, by simpa using hi, by simpa using hj⟩
    · rintro ⟨i, j, hij, hi, hj⟩
      cases j with
      | zero => exact absurd hij (Nat.not_lt_zero i)
      | succ j =>
        cases i with
        | zero =>
          left
          refine ⟨p.2, List.mem_iff_getElem?.2 ⟨j, by simpa using hj⟩, ?_⟩
          have h1 : a = p.1 := by simpa using hi
          rw [h1]
        | succ i =>
          right
          exact ⟨i, j, Nat.lt_of_succ_lt_succ hij, by simpa using hi, by simpa using hj⟩

theorem nodup_entityPairs (entities : List ResolvedEntity) (h : entities.Nodup) :
    (entityPairs entities).Nodup := by
  induction entities with
  | nil => simp [entityPairs]
  | cons a rest ih =>
    rw [List.nodup_cons] at h
    simp only [entityPairs]
    rw [List.nodup_append]
    refine ⟨?_, ih h.2, ?_⟩
    · exact List.Nodup.map (fun x y hxy => (Prod.mk.inj hxy).2) h.2
    · intro p hp hq
      obtain ⟨b, _, rfl⟩ := List.mem_map.1 hp
      obtain ⟨i, j, _, hi, _⟩ := (mem_entityPairs rest (a, b)).1 hq
      exact h.1 (List.mem_iff_getElem?.2 ⟨i, hi⟩)

/-- C17: co-mention edges. For n entities, all stored, persistKnowledge builds
n(n-1)/2 CO_MENTION relations and hands them to the store in one batch: one for
every pair of positions i < j of the entity list, from the entity at i to the
entity at j, both ends of kind entity, with weight the smaller of the two
entities' weights (entity scores are not zero). -/
theorem co_mention_relations (lower : JSString → JSString) (st : GraphStore) (task : Task)
    (summaryResult : SummaryResult) (embedding : Option Embedding)
    (entities : List ResolvedEntity) (now : JSString) (fresh : Nat → JSString)
    (random : JSString) (hw : ∀ e ∈ entities, e.weight ≠ 0) :
    (persistRelations lower st task summaryResult embedding entities now fresh random).relations =
      bulkUpsertRelations
        (bulkUpsertRelations (deleteRelationsBySource st.relations (js "page") task.pageId none)
          (entities.map (mentionsRelation task)) now)
        ((entityPairs entities).map (coMentionRelation task)) now ∧
    ((entityPairs entities).map (coMentionRelation task)).length =
      entities.length * (entities.length - 1) / 2 ∧
    (∀ p, p ∈ entityPairs entities ↔
      ∃ i j : Nat, i < j ∧ entities[i]? = some p.1 ∧ entities[j]? = some p.2) ∧
    (entities.Nodup → (entityPairs entities).Nodup) ∧
    (∀ p ∈ entityPairs entities,
      (coMentionRelation task p).relType = some (js "CO_MENTION") ∧
      (coMentionRelation task p).sourceType = js "entity" ∧
      (coMentionRelation task p).sourceId = p.1.id ∧
      (coMentionRelation task p).targetType = js "entity" ∧
      (coMentionRelation task p).targetId = p.2.id ∧
      (coMentionRelation task p).weight = some (min p.1.weight p.2.weight) ∧
      (normalizeRelation (coMentionRelation task p) now).relType = js "CO_MENTION" ∧
      (normalizeRelation (coMentionRelation task p) now).sourceType = js "entity" ∧
      (normalizeRelation (coMentionRelation task p) now).targetType = js "entity" ∧
      (normalizeRelation (coMentionRelation task p) now).weight = min p.1.weight p.2.weight) := by
  refine ⟨rfl, ?_, mem_entityPairs entities, nodup_entityPairs entities, ?_⟩
  · rw [List.length_map]
    have h := length_entityPairs entities
    omega
  · intro p hp
    obtain ⟨i, j, _, hi, hj⟩ := (mem_entityPairs entities p).1 hp
    have h1 : p.1.weight ≠ 0 := hw _ (List.mem_iff_getElem?.2 ⟨i, hi⟩)
    have h2 : p.2.weight ≠ 0 := hw _ (List.mem_iff_getElem?.2 ⟨j, hj⟩)
    have ht : truthy (js "CO_MENTION") = true := by decide
    refine ⟨rfl, rfl, rfl, rfl, rfl, ?_, ?_, ?_, ?_, ?_⟩
    · simp [coMentionRelation, weightOrOne, h1, h2]
    · exact (normalizeRelation_coMention task p now).1
    · exact (normalizeRelation_coMention task p now).2.1
    · simp only [normalizeRelation, coMentionRelation, ite_self]
    · simp [normalizeRelation, coMentionRelation, weightOrOne, h1, h2]

theorem co_mention_relations_witness :
    ((entityPairs
        [{ name := js "Alpha Beta", type := js "Concept", weight := 3, aliases := [],
           source := js "title", frequency := 1, id := js "ent:1" },
         { name := js "Gamma Delta", type := js "Concept", weight := 2, aliases := [],
           source := js "proper-noun", frequency := 1, id := js "ent:2" },
         { name := js "NASA", type := js "Acronym", weight := 5, aliases := [],
           source := js "acronym", frequency := 2, id := js "ent:3" }]).map
      (coMentionRelation
        { taskId := js "k1", pageId := js "p1", url := js "https://a", title := js "A",
          text := js "hello", meta := [], contentHash := js "h1", timestamp := js "t1" })).length =
      3 * (3 - 1) / 2 :=
  (co_mention_relations (fun s => s) { pages := [], entities := [], relations := [] }
    { taskId := js "k1", pageId := js "p1", url := js "https://a", title := js "A",
      text := js "hello", meta := [], contentHash := js "h1", timestamp := js "t1" }
    { summary := [], source := js "empty" } none _ (js "t1") (fun _ => js "n") (js "r")
    (by decide)).2.1

/-! ## Similarity linking -/

theorem sorted_insertionSort_score (sims : List (JSString × ℚ)) :
    List.Pairwise (fun a b : JSString × ℚ => b.2 ≤ a.2)
      (sims.insertionSort (fun a b => b.2 ≤ a.2)) := by
  haveI : IsTotal (JSString × ℚ) (fun a b => b.2 ≤ a.2) := ⟨fun a b => le_total b.2 a.2⟩
  haveI : IsTrans (JSString × ℚ) (fun a b => b.2 ≤ a.2) := ⟨fun _ _ _ hab hbc => le_trans hbc hab⟩
  exact List.sorted_insertionSort (fun a b : JSString × ℚ => b.2 ≤ a.2) sims

/-- The entries over the threshold, sorted, are `top` followed by entries none of
which has a higher score than an entry of `top`. -/
theorem topSimilar_split (sims : List (JSString × ℚ)) :
    ∃ rest : List (JSString × ℚ),
      (sims.insertionSort (fun a b => b.2 ≤ a.2)).filter
          (fun s => decide (PAGE_SIMILARITY_THRESHOLD ≤ s.2)) = topSimilar sims ++ rest ∧
      ∀ kept ∈ topSimilar sims, ∀ x ∈ rest, x.2 ≤ kept.2 := by
  refine ⟨((sims.insertionSort (fun a b => b.2 ≤ a.2)).filter
    (fun s => decide (PAGE_SIMILARITY_THRESHOLD ≤ s.2))).drop 12, ?_, ?_⟩
  · exact (List.take_append_drop 12 _).symm
  · have hs := (sorted_insertionSort_score sims).filter
      (fun s => decide (PAGE_SIMILARITY_THRESHOLD ≤ s.2))
    rw [← List.take_append_drop 12 ((sims.insertionSort (fun a b => b.2 ≤ a.2)).filter
      (fun s => decide (PAGE_SIMILARITY_THRESHOLD ≤ s.2))), List.pairwise_append] at hs
    exact hs.2.2

theorem mem_topSimilar (sims : List (JSString × ℚ)) (item : JSString × ℚ)
    (h : item ∈ topSimilar sims) : item ∈ sims ∧ PAGE_SIMILARITY_THRESHOLD ≤ item.2 := by
  have h1 := List.mem_of_mem_take h
  rw [List.mem_filter] at h1
  exact ⟨(List.perm_insertionSort _ sims).mem_iff.1 h1.1, by simpa using h1.2⟩

theorem mem_similarityScores (pages : List PageRecord) (pageId : JSString)
    (embedding : Embedding) (item : JSString × ℚ)
    (h : item ∈ similarityScores pages pageId embedding) :
    ∃ page ∈ pages, page.id = item.1 ∧ page.id ≠ pageId ∧
      ∃ vec, page.embedding = some vec ∧ cosineSimilarity embedding vec = item.2 := by
  simp only [similarityScores, List.mem_filterMap] at h
  obtain ⟨page, hp, hf⟩ := h
  cases he : page.embedding with
  | none => simp [he] at hf
  | some vec =>
    by_cases hid : page.id = pageId
    · simp [he, hid] at hf
    · simp only [he, beq_iff_eq, hid, if_false, Option.some.injEq] at hf
      refine ⟨page, hp, ?_, hid, vec, he, ?_⟩
      · rw [← hf]
      · rw [← hf]

theorem mem_getAllPages (store : List PageRecord) (page : PageRecord) :
    page ∈ getAllPages store ↔ page ∈ store :=
  (List.perm_insertionSort _ store).mem_iff

theorem similarityScores_complete (pages : List PageRecord) (pageId : JSString)
    (embedding : Embedding) (page : PageRecord) (vec : Embedding) (hp : page ∈ pages)
    (he : page.embedding = some vec) (hid : page.id ≠ pageId) :
    (page.id, cosineSimilarity embedding vec) ∈ similarityScores pages pageId embedding := by
  simp only [similarityScores, List.mem_filterMap]
  exact ⟨page, hp, by simp [he, hid]⟩

theorem length_topSimilar (sims : List (JSString × ℚ)) :
    (topSimilar sims).length =
      min 12 (sims.filter (fun s => decide (PAGE_SIMILARITY_THRESHOLD ≤ s.2))).length := by
  unfold topSimilar
  rw [List.length_take, ((List.perm_insertionSort _ sims).filter _).length_eq]

theorem topSimilar_subperm (sims : List (JSString × ℚ)) :
    List.Subperm (topSimilar sims)
      (sims.filter (fun s => decide (PAGE_SIMILARITY_THRESHOLD ≤ s.2))) :=
  (List.take_sublist 12 _).subperm.trans ((List.perm_insertionSort _ sims).filter _).subperm

/-- C16: similarity linking keeps the best scores above the threshold. The
PAGE_SIMILAR relations updatePageSimilarities writes are those of the entries
kept: their number is the smaller of 12 and the number of eligible pages (stored
pages other than the page that have an embedding and a cosine score of at least
0.18 against the page's embedding); each entry kept is such a page, taken at most
as often as it is scored, and its relation goes from the page to it and carries
its score as weight, also once stored; the entries kept are in order of score,
highest first; every eligible page that was left out has a score no greater than
that of any page kept; and after the call the store holds a PAGE_SIMILAR record
under the id of every relation written. -/
theorem similarity_links_top (st : GraphStore) (pageId : JSString) (embedding : Embedding)
    (now : JSString) :
    (updatePageSimilarities st pageId embedding now).relations =
      bulkUpsertRelations
        (deleteRelationsBySource st.relations (js "page") pageId (some (js "PAGE_SIMILAR")))
        ((topSimilar (similarityScores (getAllPages st.pages) pageId embedding)).map
          (similarRelation pageId))
        now ∧
    ((topSimilar (similarityScores (getAllPages st.pages) pageId embedding)).map
      (similarRelation pageId)).length =
      min 12 ((similarityScores (getAllPages st.pages) pageId embedding).filter
        (fun s => decide (PAGE_SIMILARITY_THRESHOLD ≤ s.2))).length ∧
    List.Subperm (topSimilar (similarityScores (getAllPages st.pages) pageId embedding))
      ((similarityScores (getAllPages st.pages) pageId embedding).filter
        (fun s => decide (PAGE_SIMILARITY_THRESHOLD ≤ s.2))) ∧
    List.Pairwise (fun a b : JSString × ℚ => b.2 ≤ a.2)
      (topSimilar (similarityScores (getAllPages st.pages) pageId embedding)) ∧
    (∀ item : JSString × ℚ,
      item ∈ similarityScores (getAllPages st.pages) pageId embedding ↔
        ∃ page ∈ st.pages, page.id = item.1 ∧ page.id ≠ pageId ∧
          ∃ vec, page.embedding = some vec ∧ cosineSimilarity embedding vec = item.2) ∧
    (∀ item ∈ topSimilar (similarityScores (getAllPages st.pages) pageId embedding),
      (∃ page ∈ st.pages, page.id = item.1 ∧ page.id ≠ pageId ∧
        ∃ vec, page.embedding = some vec ∧ cosineSimilarity embedding vec = item.2) ∧
      PAGE_SIMILARITY_THRESHOLD ≤ item.2 ∧
      (similarRelation pageId item).relType = some (js "PAGE_SIMILAR") ∧
      (similarRelation pageId item).sourceType = js "page" ∧
      (similarRelation pageId item).sourceId = pageId ∧
      (similarRelation pageId item).targetType = js "page" ∧
      (similarRelation pageId item).targetId = item.1 ∧
      (similarRelation pageId item).weight = some item.2 ∧
      (normalizeRelation (similarRelation pageId item) now).relType = js "PAGE_SIMILAR" ∧
      (normalizeRelation (similarRelation pageId item) now).weight = item.2 ∧
      ∃ y ∈ (updatePageSimilarities st pageId embedding now).relations,
        y.id = (normalizeRelation (similarRelation pageId item) now).id ∧
        y.relType = js "PAGE_SIMILAR" ∧
        ∃ kept ∈ topSimilar (similarityScores (getAllPages st.pages) pageId embedding),
          y = normalizeRelation (similarRelation pageId kept) now) ∧
    (∀ page ∈ st.pages, ∀ vec, page.embedding = some vec → page.id ≠ pageId →
      PAGE_SIMILARITY_THRESHOLD ≤ cosineSimilarity embedding vec →
      (page.id, cosineSimilarity embedding vec) ∉
        topSimilar (similarityScores (getAllPages st.pages) pageId embedding) →
      ∀ kept ∈ topSimilar (similarityScores (getAllPages st.pages) pageId embedding),
        cosineSimilarity embedding vec ≤ kept.2) := by
  have hiff : ∀ item : JSString × ℚ,
      item ∈ similarityScores (getAllPages st.pages) pageId embedding ↔
        ∃ page ∈ st.pages, page.id = item.1 ∧ page.id ≠ pageId ∧
          ∃ vec, page.embedding = some vec ∧ cosineSimilarity embedding vec = item.2 := by
    intro item
    constructor
    · intro h
      obtain ⟨page, hp, h1, h2, vec, h3, h4⟩ :=
        mem_similarityScores (getAllPages st.pages) pageId embedding item h
      exact ⟨page, (mem_getAllPages _ _).1 hp, h1, h2, vec, h3, h4⟩
    · rintro ⟨page, hp, h1, h2, vec, h3, h4⟩
      have := similarityScores_complete (getAllPages st.pages) pageId embedding page vec
        ((mem_getAllPages _ _).2 hp) h3 h2
      rw [h1, h4] at this
      exact this
  refine ⟨rfl, ?_, topSimilar_subperm _, ?_, hiff, ?_, ?_⟩
  · rw [List.length_map]
    exact length_topSimilar _
  · exact (((sorted_insertionSort_score _).filter _).sublist (List.take_sublist 12 _))
  · intro item hitem
    obtain ⟨h1, h2⟩ := mem_topSimilar _ item hitem
    refine ⟨(hiff item).1 h1, h2, rfl, rfl, rfl, rfl, rfl,
      rfl, (normalizeRelation_similar pageId item now).1, ?_, ?_⟩
    · simp only [normalizeRelation, similarRelation]
    · have hmem : normalizeRelation (similarRelation pageId item) now ∈
          ((topSimilar (similarityScores (getAllPages st.pages) pageId embedding)).map
            (similarRelation pageId)).map (fun rel => normalizeRelation rel now) :=
        List.mem_map_of_mem _ (List.mem_map_of_mem _ hitem)
      obtain ⟨y, hy, hyk, hyr⟩ := exists_key_foldl_storePut RelationRecord.id _
        (deleteRelationsBySource st.relations (js "page") pageId (some (js "PAGE_SIMILAR")))
        _ hmem
      obtain ⟨rel, hrel, hn⟩ := List.mem_map.1 hyr
      obtain ⟨kept, hkept, hk⟩ := List.mem_map.1 hrel
      refine ⟨y, ?_, hyk, ?_, kept, hkept, ?_⟩
      · simp only [updatePageSimilarities, bulkUpsertRelations_eq]
        exact hy
      · rw [← hn, ← hk]
        exact (normalizeRelation_similar pageId kept now).1
      · rw [← hn, ← hk]
  · intro page hp vec he hid hthr hnot kept hkept
    have hitem := (hiff (page.id, cosineSimilarity embedding vec)).2
      ⟨page, hp, rfl, hid, vec, he, rfl⟩
    obtain ⟨rest, hsplit, hle⟩ :=
      topSimilar_split (similarityScores (getAllPages st.pages) pageId embedding)
    have hmem : (page.id, cosineSimilarity embedding vec) ∈
        (List.insertionSort (fun a b : JSString × ℚ => b.2 ≤ a.2)
          (similarityScores (getAllPages st.pages) pageId embedding)).filter
        (fun s => decide (PAGE_SIMILARITY_THRESHOLD ≤ s.2)) :=
      List.mem_filter.2 ⟨(List.perm_insertionSort _ _).mem_iff.2 hitem, by simpa using hthr⟩
    rw [hsplit, List.mem_append] at hmem
    rcases hmem with h | h
    · exact absurd h hnot
    · exact hle kept hkept _ h

/-! ## Candidate merging -/

theorem addCandidate_of_short (lower : JSString → JSString) (candidates : List Candidate)
    (name type : JSString) (weight : ℚ) (source : JSString) (h : (trim name).length < 3) :
    addCandidate lower candidates name type weight source = candidates := by
  simp [addCandidate, h]

theorem truthy_of_three_le (s : JSString) (h : 3 ≤ s.length) : truthy s = true := by
  cases s with
  | nil => simp at h
  | cons a as => rfl

theorem addCandidate_of_present (lower : JSString → JSString) (candidates : List Candidate)
    (name type : JSString) (weight : ℚ) (source : JSString) (h : 3 ≤ (trim name).length)
    (hk : ∃ c ∈ candidates, c.key = lower (trim name)) :
    addCandidate lower candidates name type weight source =
      candidates.map (fun c =>
        if c.key == lower (trim name) then
          { c with
            weight := c.weight + weight
            frequency := c.frequency + 1
            aliases := setAdd c.aliases (trim name)
            sources := setAdd c.sources source }
        else c) := by
  have h3 : ¬ (trim name).length < 3 := by omega
  have hany : candidates.any (fun c => c.key == lower (trim name)) = true := by
    rw [List.any_eq_true]
    obtain ⟨c, hc, hck⟩ := hk
    exact ⟨c, hc, by simpa using hck⟩
  simp [addCandidate, h3, truthy_of_three_le _ h, hany]

theorem addCandidate_of_absent (lower : JSString → JSString) (candidates : List Candidate)
    (name type : JSString) (weight : ℚ) (source : JSString) (h : 3 ≤ (trim name).length)
    (hk : ∀ c ∈ candidates, c.key ≠ lower (trim name)) :
    addCandidate lower candidates name type weight source =
      candidates ++
        [{ key := lower (trim name)
           name := trim name
           type := type
           weight := weight
           frequency := 1
           aliases := [trim name]
           sources := [source] }] := by
  have h3 : ¬ (trim name).length < 3 := by omega
  have hany : candidates.any (fun c => c.key == lower (trim name)) = false := by
    rw [List.any_eq_false]
    intro c hc
    simpa using hk c hc
  simp [addCandidate, h3, truthy_of_three_le _ h, hany, setAdd]

theorem addCandidates_append_singleton (lower : JSString → JSString)
    (calls : List CandidateMatch) (m : CandidateMatch) :
    addCandidates lower [] (calls ++ [m]) =
      addCandidate lower (addCandidates lower [] calls) m.name m.type m.weight m.source := by
  simp [addCandidates, List.foldl_append]

theorem filter_append_singleton_of_false {α : Type} (p : α → Bool) (l : List α) (a : α)
    (h : p a = false) : (l ++ [a]).filter p = l.filter p ∧ (l ++ [a]).find? p = l.find? p := by
  constructor
  · simp [List.filter_append, h]
  · rw [List.find?_append]
    simp [List.find?_cons, h]

theorem filter_append_singleton_of_true {α : Type} (p : α → Bool) (l : List α) (a : α)
    (h : p a = true) : (l ++ [a]).filter p = l.filter p ++ [a] := by
  simp [List.filter_append, h]

/-- What the map `candidates` holds after a run of calls of `addCandidate` from the
empty map: one entry per key, which counts and sums the calls kept under its
key, holds their sources, and has the name and type of the first of them. -/
theorem addCandidates_spec (lower : JSString → JSString) (calls : List CandidateMatch) :
    ((addCandidates lower [] calls).map Candidate.key).Nodup ∧
    (∀ c ∈ addCandidates lower [] calls,
      c.key = lower c.name ∧ 3 ≤ c.name.length ∧
      c.frequency = ((calls.filter (keptUnder lower c.key)).length : ℚ) ∧
      c.weight = ((calls.filter (keptUnder lower c.key)).map CandidateMatch.weight).sum ∧
      (∀ m ∈ calls, keptUnder lower c.key m = true → m.source ∈ c.sources) ∧
      ∃ m0, calls.find? (keptUnder lower c.key) = some m0 ∧ c.type = m0.type ∧
        c.name = trim m0.name) ∧
    (∀ m ∈ calls, 3 ≤ (trim m.name).length →
      ∃ c ∈ addCandidates lower [] calls, c.key = lower (trim m.name)) := by
  induction calls using List.reverseRecOn with
  | nil =>
    refine ⟨by simp [addCandidates], ?_, ?_⟩
    · intro c hc
      simp [addCandidates] at hc
    · intro m hm
      simp at hm
  | append_singleton calls m ih =>
    obtain ⟨ihN, ihC, ihE⟩ := ih
    rw [addCandidates_append_singleton]
    by_cases hlen : 3 ≤ (trim m.name).length
    · by_cases hk : ∃ c ∈ addCandidates lower [] calls, c.key = lower (trim m.name)
      · -- the key is present: the entry is updated in place
        rw [addCandidate_of_present lower _ _ _ _ _ hlen hk]
        refine ⟨?_, ?_, ?_⟩
        · have hkeys : ((addCandidates lower [] calls).map (fun c =>
              if c.key == lower (trim m.name) then
                { c with
                  weight := c.weight + m.weight
                  frequency := c.frequency + 1
                  aliases := setAdd c.aliases (trim m.name)
                  sources := setAdd c.sources m.source }
              else c)).map Candidate.key = (addCandidates lower [] calls).map Candidate.key := by
            rw [List.map_map]
            apply List.map_congr_left
            intro c _
            simp only [Function.comp]
            split <;> rfl
          rw [hkeys]
          exact ihN
        · intro c' hc'
          obtain ⟨c, hc, rfl⟩ := List.mem_map.1 hc'
          obtain ⟨h1, h2, h3, h4, h5, m0, h6, h7, h8⟩ := ihC c hc
          by_cases hck : c.key = lower (trim m.name)
          · have hkept : keptUnder lower c.key m = true := by
              simp [keptUnder, hlen, hck]
            simp only [hck, beq_self_eq_true, if_true]
            rw [← hck, filter_append_singleton_of_true _ _ _ hkept]
            refine ⟨h1, h2, ?_, ?_, ?_, m0, ?_, h7, h8⟩
            · rw [h3]
              simp
            · rw [h4]
              simp
            · intro m' hm' hk'
              rcases List.mem_append.1 hm' with hm1 | hm1
              · have := h5 m' hm1 hk'
                unfold setAdd
                split
                · exact this
                · exact List.mem_append_left _ this
              · have hmm : m' = m := by simpa using hm1
                subst hmm
                unfold setAdd
                split
                · next hc => simpa using hc
                · simp
            · rw [List.find?_append, h6]
              rfl
          · have hkept : keptUnder lower c.key m = false := by
              simp only [keptUnder, Bool.and_eq_false_iff]
              right
              simpa using fun h => hck h.symm
            have hne : (c.key == lower (trim m.name)) = false := by simpa using hck
            simp only [hne, Bool.false_eq_true, if_false]
            obtain ⟨hf1, hf2⟩ := filter_append_singleton_of_false (keptUnder lower c.key) calls m hkept
            rw [hf1, hf2]
            refine ⟨h1, h2, h3, h4, ?_, m0, h6, h7, h8⟩
            intro m' hm' hk'
            rcases List.mem_append.1 hm' with hm1 | hm1
            · exact h5 m' hm1 hk'
            · have hmm : m' = m := by simpa using hm1
              rw [hmm, hkept] at hk'
              exact absurd hk' (by simp)
        · intro m' hm' hlen'
          have hex : ∃ c ∈ addCandidates lower [] calls, c.key = lower (trim m'.name) := by
            rcases List.mem_append.1 hm' with hm1 | hm1
            · exact ihE m' hm1 hlen'
            · have hmm : m' = m := by simpa using hm1
              rw [hmm]
              exact hk
          obtain ⟨c, hc, hck⟩ := hex
          refine ⟨_, List.mem_map_of_mem _ hc, ?_⟩
          rw [← hck]
          split <;> rfl
      · -- the key is absent: a new entry is appended
        have hk' : ∀ c ∈ addCandidates lower [] calls, c.key ≠ lower (trim m.name) :=
          fun c hc hck => hk ⟨c, hc, hck⟩
        rw [addCandidate_of_absent lower _ _ _ _ _ hlen hk']
        have hnone : ∀ m' ∈ calls, keptUnder lower (lower (trim m.name)) m' = false := by
          intro m' hm'
          by_contra hcon
          have hkt : keptUnder lower (lower (trim m.name)) m' = true := by simpa using hcon
          simp only [keptUnder, Bool.and_eq_true, decide_eq_true_eq, beq_iff_eq] at hkt
          obtain ⟨c, hc, hck⟩ := ihE m' hm' hkt.1
          exact hk' c hc (hck.trans hkt.2)
        refine ⟨?_, ?_, ?_⟩
        · rw [List.map_append, List.nodup_append]
          refine ⟨ihN, by simp, ?_⟩
          intro k hk1 hk2
          obtain ⟨c, hc, rfl⟩ := List.mem_map.1 hk1
          have : c.key = lower (trim m.name) := by simpa using hk2
          exact hk' c hc this
        · intro c hc
          rcases List.mem_append.1 hc with hc1 | hc1
          · obtain ⟨h1, h2, h3, h4, h5, m0, h6, h7, h8⟩ := ihC c hc1
            have hkept : keptUnder lower c.key m = false := by
              simp only [keptUnder, Bool.and_eq_false_iff]
              right
              simpa using fun h => hk' c hc1 h.symm
            obtain ⟨hf1, hf2⟩ := filter_append_singleton_of_false (keptUnder lower c.key) calls m hkept
            rw [hf1, hf2]
            refine ⟨h1, h2, h3, h4, ?_, m0, h6, h7, h8⟩
            intro m' hm' hkm
            rcases List.mem_append.1 hm' with hm1 | hm1
            · exact h5 m' hm1 hkm
            · have hmm : m' = m := by simpa using hm1
              rw [hmm, hkept] at hkm
              exact absurd hkm (by simp)
          · have hcn := List.mem_singleton.1 hc1
            subst hcn
            have hkept : keptUnder lower (lower (trim m.name)) m = true := by
              simp [keptUnder, hlen]
            have hfil : calls.filter (keptUnder lower (lower (trim m.name))) = [] := by
              rw [List.filter_eq_nil_iff]
              intro m' hm'
              simp [hnone m' hm']
            have hfind : calls.find? (keptUnder lower (lower (trim m.name))) = none := by
              rw [List.find?_eq_none]
              intro m' hm'
              simp [hnone m' hm']
            simp only
            rw [filter_append_singleton_of_true _ _ _ hkept, hfil]
            refine ⟨trivial, hlen, by simp, by simp, ?_, m, ?_, rfl, rfl⟩
            · intro m' hm' hkm
              rcases List.mem_append.1 hm' with hm1 | hm1
              · rw [hnone m' hm1] at hkm
                exact absurd hkm (by simp)
              · have hmm : m' = m := by simpa using hm1
                simp [hmm]
            · rw [List.find?_append, hfind]
              simp [List.find?_cons, hkept]
        · intro m' hm' hlen'
          rcases List.mem_append.1 hm' with hm1 | hm1
          · obtain ⟨c, hc, hck⟩ := ihE m' hm1 hlen'
            exact ⟨c, List.mem_append_left _ hc, hck⟩
          · have hmm : m' = m := by simpa using hm1
            rw [hmm]
            exact ⟨_, List.mem_append_right _ (List.mem_singleton.2 rfl), rfl⟩
    · -- the call is dropped
      have hshort : (trim m.name).length < 3 := by omega
      rw [addCandidate_of_short lower _ _ _ _ _ hshort]
      have hkept : ∀ k, keptUnder lower k m = false := by
        intro k
        simp [keptUnder, hlen]
      refine ⟨ihN, ?_, ?_⟩
      · intro c hc
        obtain ⟨h1, h2, h3, h4, h5, m0, h6, h7, h8⟩ := ihC c hc
        obtain ⟨hf1, hf2⟩ := filter_append_singleton_of_false (keptUnder lower c.key) calls m
          (hkept c.key)
        rw [hf1, hf2]
        refine ⟨h1, h2, h3, h4, ?_, m0, h6, h7, h8⟩
        intro m' hm' hkm
        rcases List.mem_append.1 hm' with hm1 | hm1
        · exact h5 m' hm1 hkm
        · have hmm : m' = m := by simpa using hm1
          rw [hmm, hkept] at hkm
          exact absurd hkm (by simp)
      · intro m' hm' hlen'
        rcases List.mem_append.1 hm' with hm1 | hm1
        · exact ihE m' hm1 hlen'
        · have hmm : m' = m := by simpa using hm1
          rw [hmm] at hlen'
          exact absurd hlen' hlen

/-! ## Ranking -/

theorem sorted_insertionSort_weight (l : List RankedCandidate) :
    List.Pairwise (fun a b : RankedCandidate => b.weight ≤ a.weight)
      (l.insertionSort (fun a b => b.weight ≤ a.weight)) := by
  haveI : IsTotal RankedCandidate (fun a b => b.weight ≤ a.weight) :=
    ⟨fun a b => le_total b.weight a.weight⟩
  haveI : IsTrans RankedCandidate (fun a b => b.weight ≤ a.weight) :=
    ⟨fun _ _ _ hab hbc => le_trans hbc hab⟩
  exact List.sorted_insertionSort (fun a b : RankedCandidate => b.weight ≤ a.weight) l

/-- The ranked candidates, sorted, are the ones kept followed by candidates none of
which has a higher score than one that is kept. -/
theorem rankCandidates_split (candidates : List Candidate) :
    ∃ rest : List RankedCandidate,
      (candidates.map rankEntry).insertionSort (fun a b => b.weight ≤ a.weight) =
        rankCandidates candidates ++ rest ∧
      ∀ kept ∈ rankCandidates candidates, ∀ x ∈ rest, x.weight ≤ kept.weight := by
  refine ⟨((candidates.map rankEntry).insertionSort
    (fun a b : RankedCandidate => b.weight ≤ a.weight)).drop ENTITY_LIMIT, ?_, ?_⟩
  · exact (List.take_append_drop ENTITY_LIMIT _).symm
  · have hs := sorted_insertionSort_weight (candidates.map rankEntry)
    rw [← List.take_append_drop ENTITY_LIMIT ((candidates.map rankEntry).insertionSort
      (fun a b => b.weight ≤ a.weight)), List.pairwise_append] at hs
    exact hs.2.2

theorem mem_rankCandidates (candidates : List Candidate) (r : RankedCandidate)
    (h : r ∈ rankCandidates candidates) : ∃ c ∈ candidates, r = rankEntry c := by
  have h1 := (List.perm_insertionSort _ _).mem_iff.1 (List.mem_of_mem_take h)
  obtain ⟨c, hc, rfl⟩ := List.mem_map.1 h1
  exact ⟨c, hc, rfl⟩

/-- C18: entity ranking. Whatever the task, the summary and the matches of the
patterns, extractEntities returns at most 24 entities, as many as there are
merged candidates when these are fewer, in order of score highest first; they
carry the names and scores of the ranked candidates kept, each of which is a
merged candidate taken once; and every merged candidate left out has a score no
greater than that of every entity returned. -/
theorem entity_ranking (lower : JSString → JSString) (store : List EntityRecord) (task : Task)
    (summary : JSString) (m : RegexMatches) :
    (extractEntities lower store task summary m).length ≤ 24 ∧
    (extractEntities lower store task summary m).length =
      min 24 (extractCandidates lower task summary m).length ∧
    List.Subperm (rankCandidates (extractCandidates lower task summary m))
      ((extractCandidates lower task summary m).map rankEntry) ∧
    List.Pairwise (fun a b : ResolvedEntity => b.weight ≤ a.weight)
      (extractEntities lower store task summary m) ∧
    (extractEntities lower store task summary m).map (fun e => (e.name, e.weight)) =
      (rankCandidates (extractCandidates lower task summary m)).map
        (fun r => (r.name, r.weight)) ∧
    (∀ e ∈ extractEntities lower store task summary m,
      ∃ c ∈ extractCandidates lower task summary m,
        e.name = c.name ∧ e.weight = c.weight + c.frequency * (1 / 5)) ∧
    (∀ c ∈ extractCandidates lower task summary m,
      rankEntry c ∉ rankCandidates (extractCandidates lower task summary m) →
      ∀ e ∈ extractEntities lower store task summary m,
        c.weight + c.frequency * (1 / 5) ≤ e.weight) := by
  refine ⟨?_, ?_, ?_, ?_, ?_, ?_, ?_⟩
  · simp only [extractEntities, List.length_map, rankCandidates]
    exact List.length_take_le _ _
  · simp only [extractEntities, List.length_map, rankCandidates, List.length_take,
      List.length_insertionSort, ENTITY_LIMIT]
  · exact (List.take_sublist _ _).subperm.trans (List.perm_insertionSort _ _).subperm
  · simp only [extractEntities, rankCandidates]
    rw [List.pairwise_map]
    exact (sorted_insertionSort_weight _).sublist (List.take_sublist _ _)
  · simp only [extractEntities, List.map_map]
    rfl
  · intro e he
    simp only [extractEntities] at he
    obtain ⟨r, hr, rfl⟩ := List.mem_map.1 he
    obtain ⟨c, hc, rfl⟩ := mem_rankCandidates _ r hr
    exact ⟨c, hc, rfl, rfl⟩
  · intro c hc hnot e he
    simp only [extractEntities] at he
    obtain ⟨r, hr, rfl⟩ := List.mem_map.1 he
    obtain ⟨rest, hsplit, hle⟩ := rankCandidates_split (extractCandidates lower task summary m)
    have hmem : rankEntry c ∈ ((extractCandidates lower task summary m).map rankEntry).insertionSort
        (fun a b => b.weight ≤ a.weight) :=
      (List.perm_insertionSort _ _).mem_iff.2 (List.mem_map_of_mem _ hc)
    rw [hsplit, List.mem_append] at hmem
    rcases hmem with h | h
    · exact absurd h hnot
    · exact hle r hr _ h

/-- C19, as the claim states it, fails: a match whose trimmed name has fewer than
three code units is fed to addCandidate and merged into no candidate. The title
match "Go" leaves the map empty and extractEntities returns nothing. -/
theorem short_match_counterexample :
    addCandidate (fun s => s.map foldAscii) [] (js "Go") (js "Concept") 3 (js "title") = [] ∧
    extractEntities (fun s => s.map foldAscii) []
        { taskId := js "k", pageId := js "p", url := js "https://a", title := js "Go rocks",
          text := js "it does", meta := [], contentHash := js "h", timestamp := js "t" }
        [] { proper := [], hashtags := [], patternMatches := [], headlineEntities := [js "Go"] } =
      [] := by
  decide

/-- C19, amended: for every sequence of calls of addCandidate, the calls whose
trimmed name has at least three code units are merged by name ignoring case:
each such call has a candidate with its lower-cased name, no two candidates (and
no two ranked candidates) have names equal ignoring case, the frequency of a
candidate is the number of those calls filed under its name, and its final score
is the sum of their pattern weights plus 0.2 times its frequency. Calls with a
shorter trimmed name are dropped. -/
theorem candidate_merging (lower : JSString → JSString) (calls : List CandidateMatch) :
    ((addCandidates lower [] calls).map (fun c => lower c.name)).Nodup ∧
    ((rankCandidates (addCandidates lower [] calls)).map (fun r => lower r.name)).Nodup ∧
    (∀ m ∈ calls, 3 ≤ (trim m.name).length →
      ∃ c ∈ addCandidates lower [] calls, lower c.name = lower (trim m.name)) ∧
    (∀ c ∈ addCandidates lower [] calls,
      c.frequency = ((calls.filter (keptUnder lower (lower c.name))).length : ℚ) ∧
      (rankEntry c).frequency = ((calls.filter (keptUnder lower (lower c.name))).length : ℚ) ∧
      (rankEntry c).weight =
        ((calls.filter (keptUnder lower (lower c.name))).map CandidateMatch.weight).sum +
          (1 / 5) * ((calls.filter (keptUnder lower (lower c.name))).length : ℚ)) ∧
    (∀ r ∈ rankCandidates (addCandidates lower [] calls),
      ∃ c ∈ addCandidates lower [] calls, r = rankEntry c) ∧
    (∀ m ∈ calls, (trim m.name).length < 3 →
      ∀ cs : List Candidate, addCandidate lower cs m.name m.type m.weight m.source = cs) := by
  obtain ⟨hN, hC, hE⟩ := addCandidates_spec lower calls
  have hkeys : (addCandidates lower [] calls).map (fun c => lower c.name) =
      (addCandidates lower [] calls).map Candidate.key := by
    apply List.map_congr_left
    intro c hc
    exact (hC c hc).1.symm
  refine ⟨?_, ?_, ?_, ?_, mem_rankCandidates _, ?_⟩
  · rw [hkeys]
    exact hN
  · have hsub : List.Sublist
        ((rankCandidates (addCandidates lower [] calls)).map (fun r => lower r.name))
        ((((addCandidates lower [] calls).map rankEntry).insertionSort
          (fun a b => b.weight ≤ a.weight)).map (fun r => lower r.name)) :=
      (List.take_sublist _ _).map _
    apply List.Nodup.sublist hsub
    have hperm := (List.perm_insertionSort (fun a b : RankedCandidate => b.weight ≤ a.weight)
      ((addCandidates lower [] calls).map rankEntry)).map (fun r => lower r.name)
    rw [hperm.nodup_iff, List.map_map]
    have : (fun r : RankedCandidate => lower r.name) ∘ rankEntry = fun c => lower c.name := rfl
    rw [this, hkeys]
    exact hN
  · intro m hm hlen
    obtain ⟨c, hc, hck⟩ := hE m hm hlen
    exact ⟨c, hc, by rw [← (hC c hc).1, hck]⟩
  · intro c hc
    obtain ⟨h1, _, h3, h4, _, _⟩ := hC c hc
    rw [← h1]
    refine ⟨h3, h3, ?_⟩
    simp only [rankEntry, h3, h4]
    ring
  · intro m _ hlen cs
    exact addCandidate_of_short lower cs _ _ _ _ hlen

/-! ## The acronym pattern -/

theorem isWordChar_of_isUpper (c : Nat) (h : isUpper c = true) : isWordChar c = true := by
  simp [isWordChar, h]

theorem acronymEnd_bounds : ∀ (rest : JSString) (k j : Nat),
    acronymEnd rest k = some j → 2 ≤ j ∧ j ≤ k
  | _, 0, _, h => by simp [acronymEnd] at h
  | _, 1, _, h => by simp [acronymEnd] at h
  | rest, k + 2, j, h => by
    unfold acronymEnd at h
    split at h
    · have hj : k + 2 = j := by simpa using h
      omega
    · have := acronymEnd_bounds rest (k + 1) j h
      omega

theorem matchAcronymAt_bounds (prev : Option Nat) (rest : JSString) (k : Nat)
    (h : matchAcronymAt prev rest = some k) :
    2 ≤ k ∧ k ≤ (rest.takeWhile isUpper).length := by
  unfold matchAcronymAt at h
  split at h
  · exact acronymEnd_bounds rest _ k h
  · simp at h

theorem takeWhile_append_of_last {p : Nat → Bool} : ∀ (pre rest : JSString),
    (∃ x, pre.getLast? = some x ∧ p x = false) →
    (List.takeWhile p (pre ++ rest)).length < pre.length
  | [], _, h => by
    obtain ⟨x, hx, _⟩ := h
    simp at hx
  | [c], rest, h => by
    obtain ⟨x, hx, hp⟩ := h
    have hc : c = x := by simpa using hx
    subst hc
    simp [List.takeWhile, hp]
  | c :: d :: ds, rest, h => by
    obtain ⟨x, hx, hp⟩ := h
    have hx' : (d :: ds).getLast? = some x := by
      rw [List.getLast?_cons_cons] at hx
      exact hx
    have ih := takeWhile_append_of_last (d :: ds) rest ⟨x, hx', hp⟩
    by_cases hc : p c = true
    · simp only [List.cons_append, List.takeWhile_cons, hc, if_true, List.length_cons] at ih ⊢
      omega
    · simp [List.takeWhile_cons, hc]

theorem take_of_le_takeWhile {p : Nat → Bool} : ∀ (l : JSString) (k : Nat),
    k ≤ (List.takeWhile p l).length → ∀ x ∈ l.take k, p x = true
  | _, 0, _, x, hx => by simp at hx
  | [], k + 1, _, x, hx => by simp at hx
  | c :: cs, k + 1, h, x, hx => by
    by_cases hc : p c = true
    · simp only [List.takeWhile_cons, hc, if_true, List.length_cons] at h
      simp only [List.take_succ_cons, List.mem_cons] at hx
      rcases hx with hx | hx
      · rw [hx]; exact hc
      · exact take_of_le_takeWhile cs k (by omega) x hx
    · simp [List.takeWhile_cons, hc] at h

theorem takeWhile_append_of_all {p : Nat → Bool} : ∀ (tok post : JSString),
    (∀ c ∈ tok, p c = true) → (∀ c, post.head? = some c → p c = false) →
    List.takeWhile p (tok ++ post) = tok
  | [], [], _, _ => rfl
  | [], c :: cs, _, h => by
    have := h c rfl
    simp [List.takeWhile_cons, this]
  | t :: ts, post, h1, h2 => by
    have ht : p t = true := h1 t (List.mem_cons_self _ _)
    simp only [List.cons_append, List.takeWhile_cons, ht, if_true]
    rw [takeWhile_append_of_all ts post (fun c hc => h1 c (List.mem_cons_of_mem _ hc)) h2]

theorem acronymScan_skip (prev : Option Nat) (s c : Nat) (cs : JSString) :
    acronymScan prev (s + 1) (c :: cs) = acronymScan (some c) s cs := by
  simp only [acronymScan]

theorem acronymScan_of_match (prev : Option Nat) (c k : Nat) (cs : JSString)
    (h : matchAcronymAt prev (c :: cs) = some k) :
    acronymScan prev 0 (c :: cs) = (c :: cs).take k :: acronymScan (some c) (k - 1) cs := by
  simp only [acronymScan, h]

theorem acronymScan_of_no_match (prev : Option Nat) (c : Nat) (cs : JSString)
    (h : matchAcronymAt prev (c :: cs) = none) :
    acronymScan prev 0 (c :: cs) = acronymScan (some c) 0 cs := by
  simp only [acronymScan, h]

/-- Scanning a prefix whose last code unit is not an upper-case letter ends with no
match still open: the scan goes on at the rest, right after that code unit. -/
theorem acronymScan_prefix (rest : JSString) : ∀ (pre : JSString) (prev : Option Nat) (skip : Nat),
    skip ≤ pre.length → (∀ c ∈ pre.take skip, isUpper c = true) →
    (∀ c, pre.getLast? = some c → isUpper c = false) →
    ∃ (out : List JSString) (prev' : Option Nat),
      acronymScan prev skip (pre ++ rest) = out ++ acronymScan prev' 0 rest ∧
      ((pre = [] ∧ prev' = prev) ∨ (prev' ≠ none ∧ pre.getLast? = prev'))
  | [], prev, skip, hs, _, _ => by
    have h0 : skip = 0 := by simpa using hs
    subst h0
    exact ⟨[], prev, rfl, Or.inl ⟨rfl, rfl⟩⟩
  | c :: cs, prev, skip, hs, hup, hlast => by
    have hlast' : ∀ x, cs.getLast? = some x → isUpper x = false := by
      intro x hx
      cases cs with
      | nil => simp at hx
      | cons d ds => exact hlast x (by rw [List.getLast?_cons_cons]; exact hx)
    have hwrap : ∀ (out : List JSString) (prev' : Option Nat),
        ((cs = [] ∧ prev' = some c) ∨ (prev' ≠ none ∧ cs.getLast? = prev')) →
        ((c :: cs = [] ∧ prev' = prev) ∨ (prev' ≠ none ∧ (c :: cs).getLast? = prev')) := by
      intro out prev' h
      right
      rcases h with ⟨h1, h2⟩ | ⟨h1, h2⟩
      · subst h1 h2
        exact ⟨by simp, rfl⟩
      · refine ⟨h1, ?_⟩
        cases cs with
        | nil =>
          simp only [List.getLast?_nil] at h2
          exact absurd h2.symm h1
        | cons d ds => rw [List.getLast?_cons_cons]; exact h2
    cases skip with
    | succ s =>
      have hs' : s ≤ cs.length := by simpa using hs
      have hup' : ∀ x ∈ cs.take s, isUpper x = true := by
        intro x hx
        exact hup x (by simp [List.take_succ_cons, hx])
      obtain ⟨out, prev', h1, h2⟩ := acronymScan_prefix rest cs (some c) s hs' hup' hlast'
      refine ⟨out, prev', ?_, hwrap out prev' h2⟩
      rw [List.cons_append, acronymScan_skip]
      exact h1
    | zero =>
      cases hm : matchAcronymAt prev (c :: cs ++ rest) with
      | none =>
        obtain ⟨out, prev', h1, h2⟩ := acronymScan_prefix rest cs (some c) 0 (Nat.zero_le _)
          (by simp) hlast'
        refine ⟨out, prev', ?_, hwrap out prev' h2⟩
        rw [List.cons_append] at hm ⊢
        rw [acronymScan_of_no_match prev c _ hm]
        exact h1
      | some k =>
        obtain ⟨hk2, hkrun⟩ := matchAcronymAt_bounds prev _ k hm
        have hx : ∃ x, (c :: cs).getLast? = some x ∧ isUpper x = false := by
          have hne : (c :: cs) ≠ [] := by simp
          refine ⟨(c :: cs).getLast hne, List.getLast?_eq_getLast _ hne, ?_⟩
          exact hlast _ (List.getLast?_eq_getLast _ hne)
        have hlt := takeWhile_append_of_last (p := isUpper) (c :: cs) rest hx
        have hk1 : k - 1 ≤ cs.length := by
          simp only [List.length_cons] at hlt
          omega
        have hupk : ∀ x ∈ cs.take (k - 1), isUpper x = true := by
          intro x hx1
          apply take_of_le_takeWhile (p := isUpper) (c :: cs ++ rest) k hkrun x
          have hk : k = (k - 1) + 1 := by omega
          rw [hk]
          simp only [List.cons_append, List.take_succ_cons, List.mem_cons]
          right
          rw [List.take_append_of_le_length hk1]
          exact hx1
        obtain ⟨out, prev', h1, h2⟩ := acronymScan_prefix rest cs (some c) (k - 1) hk1 hupk hlast'
        refine ⟨(c :: cs ++ rest).take k :: out, prev', ?_, hwrap out prev' h2⟩
        rw [List.cons_append] at hm ⊢
        rw [acronymScan_of_match prev c k _ hm, h1]
        rfl

/-- At the start of a run of two or more upper-case letters that no word code unit
precedes or follows, the pattern matches the whole run. -/
theorem matchAcronymAt_token (prev : Option Nat) (tok post : JSString)
    (hprev : ∀ c, prev = some c → isWordChar c = false)
    (htok : ∀ c ∈ tok, isUpper c = true) (hlen : 2 ≤ tok.length)
    (hpost : ∀ c, post.head? = some c → isWordChar c = false) :
    matchAcronymAt prev (tok ++ post) = some tok.length := by
  have hpostU : ∀ c, post.head? = some c → isUpper c = false := by
    intro c hc
    by_contra hcon
    have hu : isUpper c = true := by simpa using hcon
    have := hpost c hc
    rw [isWordChar_of_isUpper c hu] at this
    exact absurd this (by simp)
  have hrun : List.takeWhile isUpper (tok ++ post) = tok :=
    takeWhile_append_of_all tok post htok hpostU
  obtain ⟨n, hn⟩ : ∃ n, tok.length = n + 2 := ⟨tok.length - 2, by omega⟩
  have hprevB : (prev.map isWordChar).getD false = false := by
    cases prev with
    | none => rfl
    | some c => simpa using hprev c rfl
  have hhead : ((tok ++ post).head?.map isWordChar).getD false = true := by
    cases tok with
    | nil => simp at hlen
    | cons t ts => simpa using isWordChar_of_isUpper t (htok t (List.mem_cons_self _ _))
  have hlastB : (((tok ++ post)[n + 1]?).map isWordChar).getD false = true := by
    have hlt : n + 1 < tok.length := by omega
    rw [List.getElem?_append_left hlt, List.getElem?_eq_getElem hlt]
    simpa using isWordChar_of_isUpper _ (htok _ (List.getElem_mem hlt))
  have hnextB : (((tok ++ post)[n + 2]?).map isWordChar).getD false = false := by
    rw [← hn, List.getElem?_append_right (Nat.le_refl _), Nat.sub_self]
    cases post with
    | nil => rfl
    | cons q qs => simpa using hpost q rfl
  unfold matchAcronymAt
  rw [hrun, hn]
  simp only [wordBoundary, hprevB, hhead, acronymEnd, hlastB, hnextB]
  rfl

/-- An all-caps token of two letters or more, standing between code units that are
not word code units (or at an end of the text), is one of the matches of the
acronym pattern. -/
theorem mem_acronymMatches (pre tok post : JSString)
    (htok : ∀ c ∈ tok, isUpper c = true) (hlen : 2 ≤ tok.length)
    (hpre : ∀ c, pre.getLast? = some c → isWordChar c = false)
    (hpost : ∀ c, post.head? = some c → isWordChar c = false) :
    tok ∈ acronymMatches (pre ++ (tok ++ post)) := by
  have hpreU : ∀ c, pre.getLast? = some c → isUpper c = false := by
    intro c hc
    by_contra hcon
    have hu : isUpper c = true := by simpa using hcon
    have := hpre c hc
    rw [isWordChar_of_isUpper c hu] at this
    exact absurd this (by simp)
  obtain ⟨out, prev', h1, h2⟩ := acronymScan_prefix (tok ++ post) pre none 0 (Nat.zero_le _)
    (by simp) hpreU
  have hprev' : ∀ c, prev' = some c → isWordChar c = false := by
    intro c hc
    rcases h2 with ⟨_, h3⟩ | ⟨_, h3⟩
    · rw [h3] at hc
      simp at hc
    · exact hpre c (by rw [h3, hc])
  have hm := matchAcronymAt_token prev' tok post hprev' htok hlen hpost
  unfold acronymMatches
  rw [h1]
  apply List.mem_append_right
  cases htk : tok with
  | nil => rw [htk] at hlen; simp at hlen
  | cons t ts =>
    rw [htk, List.cons_append] at hm
    rw [List.cons_append, acronymScan_of_match prev' t _ _ hm, ← List.cons_append,
      List.take_left]
    exact List.mem_cons_self _ _

/-! ## Acronym candidates -/

theorem not_isWhiteSpace_of_isUpper (c : Nat) (h : isUpper c = true) : isWhiteSpace c = false := by
  simp only [isUpper, Bool.and_eq_true, decide_eq_true_eq] at h
  simp only [isWhiteSpace, Bool.or_eq_false_iff, beq_eq_false_iff_ne, ne_eq, Bool.and_eq_false_iff,
    decide_eq_false_iff_not]
  omega

theorem dropWhile_of_all_false {p : Nat → Bool} (l : JSString) (h : ∀ c ∈ l, p c = false) :
    l.dropWhile p = l := by
  cases l with
  | nil => rfl
  | cons a as => simp [List.dropWhile_cons, h a (List.mem_cons_self _ _)]

theorem trim_of_all_upper (tok : JSString) (h : ∀ c ∈ tok, isUpper c = true) : trim tok = tok := by
  have h1 : ∀ c ∈ tok, isWhiteSpace c = false := fun c hc => not_isWhiteSpace_of_isUpper c (h c hc)
  unfold trim
  rw [dropWhile_of_all_false tok h1,
    dropWhile_of_all_false tok.reverse (fun c hc => h1 c (List.mem_reverse.1 hc)),
    List.reverse_reverse]

theorem acronymCalls_type (acronyms : List JSString) (call : CandidateMatch)
    (h : call ∈ acronymCalls acronyms) :
    call.type = js "Acronym" ∧ call.weight = 3 / 2 ∧ call.source = js "acronym" := by
  simp only [acronymCalls, List.mem_map] at h
  obtain ⟨v, _, rfl⟩ := h
  exact ⟨rfl, rfl, rfl⟩

theorem candidateCalls_weight_nonneg (task : Task) (summary : JSString) (m : RegexMatches)
    (call : CandidateMatch) (h : call ∈ candidateCalls task summary m) : 0 ≤ call.weight := by
  simp only [candidateCalls, List.mem_append, List.mem_map] at h
  rcases h with (((⟨v, _, rfl⟩ | h) | ⟨v, _, rfl⟩) | ⟨v, _, rfl⟩) | ⟨v, _, rfl⟩
  · norm_num
  · rw [(acronymCalls_type _ call h).2.1]
    norm_num
  · norm_num
  · norm_num
  · norm_num

/-- C20, as the claim states it, fails at length 2: the all-caps token "AI" is a
match of the acronym pattern, but the loop skips matches shorter than three
code units, so no call of addCandidate is made and no candidate exists. -/
theorem two_letter_acronym_counterexample :
    acronymMatches
        (combinedText
          { taskId := js "k", pageId := js "p", url := js "https://a", title := [],
            text := js "AI", meta := [], contentHash := js "h", timestamp := js "t" } []) =
      [js "AI"] ∧
    acronymCalls
        (acronymMatches
          (combinedText
            { taskId := js "k", pageId := js "p", url := js "https://a", title := [],
              text := js "AI", meta := [], contentHash := js "h", timestamp := js "t" } [])) =
      [] ∧
    extractCandidates (fun s => s.map foldAscii)
        { taskId := js "k", pageId := js "p", url := js "https://a", title := [],
          text := js "AI", meta := [], contentHash := js "h", timestamp := js "t" } []
        { proper := [], hashtags := [], patternMatches := [], headlineEntities := [] } =
      [] := by
  decide

theorem mem_of_mem_trim (s : JSString) (c : Nat) (h : c ∈ trim s) : c ∈ s := by
  unfold trim at h
  rw [List.mem_reverse] at h
  have h1 := (List.dropWhile_sublist isWhiteSpace).subset h
  rw [List.mem_reverse] at h1
  exact (List.dropWhile_sublist isWhiteSpace).subset h1

theorem foldAscii_of_isWhiteSpace (c : Nat) (h : isWhiteSpace c = true) : foldAscii c = c := by
  have hu : isUpper c = false := by
    cases hc : isUpper c with
    | false => rfl
    | true =>
      rw [not_isWhiteSpace_of_isUpper c hc] at h
      exact absurd h (by decide)
  simp [foldAscii, hu]

theorem not_isWhiteSpace_foldAscii_of_isUpper (c : Nat) (h : isUpper c = true) :
    isWhiteSpace (foldAscii c) = false := by
  simp only [foldAscii, h, if_true]
  simp only [isUpper, Bool.and_eq_true, decide_eq_true_eq] at h
  simp only [isWhiteSpace, Bool.or_eq_false_iff, beq_eq_false_iff_ne, ne_eq, Bool.and_eq_false_iff,
    decide_eq_false_iff_not]
  omega

/-- The key of a proper-noun match, which holds white space, is not the key of an
all-caps token. -/
theorem proper_key_ne_acronym_key (lower : JSString → JSString) (v tok : JSString)
    (hlower : ∀ s : JSString,
      (∀ c ∈ s, (isUpper c || (decide (97 ≤ c) && decide (c ≤ 122)) || isWhiteSpace c) = true) →
        lower s = s.map foldAscii)
    (hv : ∀ c ∈ v, (isUpper c || (decide (97 ≤ c) && decide (c ≤ 122)) || isWhiteSpace c) = true)
    (hws : ∃ c ∈ trim v, isWhiteSpace c = true)
    (htok : ∀ c ∈ tok, isUpper c = true) :
    lower (trim v) ≠ lower tok := by
  intro heq
  rw [hlower (trim v) (fun c hc => hv c (mem_of_mem_trim v c hc)),
    hlower tok (fun c hc => by simp [htok c hc])] at heq
  obtain ⟨c, hc, hcw⟩ := hws
  have h1 : foldAscii c ∈ (trim v).map foldAscii := List.mem_map_of_mem _ hc
  rw [heq, foldAscii_of_isWhiteSpace c hcw] at h1
  obtain ⟨d, hd, hdc⟩ := List.mem_map.1 h1
  have := not_isWhiteSpace_foldAscii_of_isUpper d (htok d hd)
  rw [hdc, hcw] at this
  exact absurd this (by decide)

/-- C20, amended: every all-caps token of length 3 to 8 (inclusive) occurring in the
combined title + summary + text (between code units that are not word code
units) is added by extractEntities as a candidate of type Acronym with pattern
weight 1.5: it is a match of the acronym pattern, it is passed to addCandidate
with type Acronym, weight 1.5 and source acronym, and the map of candidates then
holds an entry of type Acronym under its lower-cased name, with that source, a
frequency of at least 1 and a weight of at least 1.5. The proper-noun matches
are what the pattern of the source yields: ASCII letters and white space, with
white space between two words; `toLowerCase` is the ASCII one on such strings. -/
theorem acronym_candidates (lower : JSString → JSString) (task : Task) (summary : JSString)
    (m : RegexMatches) (pre tok post : JSString)
    (hcomb : combinedText task summary = pre ++ (tok ++ post))
    (htok : ∀ c ∈ tok, isUpper c = true) (hlen3 : 3 ≤ tok.length) (hlen8 : tok.length ≤ 8)
    (hpre : ∀ c, pre.getLast? = some c → isWordChar c = false)
    (hpost : ∀ c, post.head? = some c → isWordChar c = false)
    (hlower : ∀ s : JSString,
      (∀ c ∈ s, (isUpper c || (decide (97 ≤ c) && decide (c ≤ 122)) || isWhiteSpace c) = true) →
        lower s = s.map foldAscii)
    (hproper : ∀ v ∈ m.proper,
      (∀ c ∈ v, (isUpper c || (decide (97 ≤ c) && decide (c ≤ 122)) || isWhiteSpace c) = true) ∧
        ∃ c ∈ trim v, isWhiteSpace c = true) :
    tok ∈ acronymMatches (combinedText task summary) ∧
    ({ name := tok, type := js "Acronym", weight := 3 / 2, source := js "acronym" } :
      CandidateMatch) ∈ candidateCalls task summary m ∧
    ∃ c ∈ extractCandidates lower task summary m,
      c.key = lower tok ∧ js "acronym" ∈ c.sources ∧ 1 ≤ c.frequency ∧ 3 / 2 ≤ c.weight ∧
      c.type = js "Acronym" := by
  have hprop : ∀ v ∈ m.proper, ¬ (3 ≤ (trim v).length ∧ lower (trim v) = lower tok) :=
    fun v hv h => proper_key_ne_acronym_key lower v tok hlower (hproper v hv).1 (hproper v hv).2
      htok h.2
  have hmem : tok ∈ acronymMatches (combinedText task summary) := by
    rw [hcomb]
    exact mem_acronymMatches pre tok post htok (by omega) hpre hpost
  have hcallA : ({ name := tok, type := js "Acronym", weight := 3 / 2, source := js "acronym" } :
      CandidateMatch) ∈ acronymCalls (acronymMatches (combinedText task summary)) := by
    simp only [acronymCalls, List.mem_map, List.mem_filter]
    refine ⟨tok, ⟨hmem, ?_⟩, rfl⟩
    have h1 : ¬ tok.length < 3 := by omega
    have h2 : ¬ tok.length > 8 := by omega
    simp [h1, h2]
  have hcall : ({ name := tok, type := js "Acronym", weight := 3 / 2, source := js "acronym" } :
      CandidateMatch) ∈ candidateCalls task summary m := by
    simp only [candidateCalls, List.mem_append]
    exact Or.inl (Or.inl (Or.inl (Or.inr hcallA)))
  have htrim : trim tok = tok := trim_of_all_upper tok htok
  obtain ⟨_, hC, hE⟩ := addCandidates_spec lower (candidateCalls task summary m)
  obtain ⟨c, hc, hck⟩ := hE _ hcall (by simp only [htrim]; exact hlen3)
  simp only [htrim] at hck
  obtain ⟨_, _, h3, h4, h5, m0, h6, h7, _⟩ := hC c hc
  have hkept : keptUnder lower c.key
      { name := tok, type := js "Acronym", weight := 3 / 2, source := js "acronym" } = true := by
    simp [keptUnder, htrim, hlen3, hck]
  have hfil : ({ name := tok, type := js "Acronym", weight := 3 / 2, source := js "acronym" } :
      CandidateMatch) ∈ (candidateCalls task summary m).filter (keptUnder lower c.key) :=
    List.mem_filter.2 ⟨hcall, hkept⟩
  refine ⟨hmem, hcall, c, hc, hck, h5 _ hcall hkept, ?_, ?_, ?_⟩
  · rw [h3]
    have : 0 < ((candidateCalls task summary m).filter (keptUnder lower c.key)).length :=
      List.length_pos_of_mem hfil
    exact_mod_cast this
  · rw [h4]
    have hnn : ∀ x ∈ ((candidateCalls task summary m).filter (keptUnder lower c.key)).map
        CandidateMatch.weight, 0 ≤ x := by
      intro x hx
      obtain ⟨call, hcl, rfl⟩ := List.mem_map.1 hx
      exact candidateCalls_weight_nonneg task summary m call (List.mem_filter.1 hcl).1
    exact List.single_le_sum hnn _ (List.mem_map_of_mem CandidateMatch.weight hfil)
  · have hP : (m.proper.map (fun value =>
        ({ name := value, type := guessEntityType value, weight := 2,
           source := js "proper-noun" } : CandidateMatch))).find? (keptUnder lower c.key) = none := by
      rw [List.find?_eq_none]
      intro call hcl
      obtain ⟨v, hv, rfl⟩ := List.mem_map.1 hcl
      have := hprop v hv
      simp only [keptUnder, Bool.and_eq_true, decide_eq_true_eq, beq_iff_eq, hck]
      exact this
    have hA : ∃ a, (acronymCalls (acronymMatches (combinedText task summary))).find?
        (keptUnder lower c.key) = some a := by
      rw [← Option.isSome_iff_exists, List.find?_isSome]
      exact ⟨_, hcallA, hkept⟩
    obtain ⟨a, ha⟩ := hA
    have hfind : (candidateCalls task summary m).find? (keptUnder lower c.key) = some a := by
      simp only [candidateCalls, List.find?_append, hP, ha, Option.none_or]
      rfl
    rw [hfind] at h6
    have hma : a = m0 := by simpa using h6
    rw [h7, ← hma]
    exact (acronymCalls_type _ a (List.mem_of_find?_eq_some ha)).1

/-! ## Embedding engine: sums of squares -/

theorem foldl_add_eq_sum {R : Type} [LinearOrderedField R] {α : Type} (f : α → R) :
    ∀ (l : List α) (a : R), l.foldl (fun s x => s + f x) a = a + (l.map f).sum := by
  intro l
  induction l with
  | nil => intro a; simp
  | cons x xs ih =>
    intro a
    simp only [List.foldl_cons, ih, List.map_cons, List.sum_cons]
    ring

theorem sumSq_eq_sum {R : Type} [LinearOrderedField R] (vec : List R) :
    sumSq vec = (vec.map (fun x => x * x)).sum := by
  unfold sumSq
  rw [foldl_add_eq_sum (fun x : R => x * x) vec 0, zero_add]

theorem sumSq_nil {R : Type} [LinearOrderedField R] : sumSq ([] : List R) = 0 := rfl

theorem sumSq_cons {R : Type} [LinearOrderedField R] (x : R) (xs : List R) :
    sumSq (x :: xs) = x * x + sumSq xs := by
  simp only [sumSq_eq_sum, List.map_cons, List.sum_cons]

theorem sumSq_nonneg {R : Type} [LinearOrderedField R] (vec : List R) : 0 ≤ sumSq vec := by
  induction vec with
  | nil => rw [sumSq_nil]
  | cons x xs ih =>
    rw [sumSq_cons]
    exact add_nonneg (mul_self_nonneg x) ih

theorem sumSq_replicate_zero {R : Type} [LinearOrderedField R] (n : Nat) :
    sumSq (List.replicate n (0 : R)) = 0 := by
  induction n with
  | zero => rfl
  | succ n ih => rw [List.replicate_succ, sumSq_cons, ih]; simp

theorem cosineSimilarity_eq_sum {R : Type} [LinearOrderedField R] (a b : List R) :
    cosineSimilarity a b = (List.zipWith (fun x y => x * y) a b).sum := by
  unfold cosineSimilarity
  have h := foldl_add_eq_sum (fun p : R => p) (List.zipWith (fun x y => x * y) a b) 0
  simp only [List.map_id'] at h
  rw [h, zero_add]

theorem cosineSimilarity_self {R : Type} [LinearOrderedField R] (a : List R) :
    cosineSimilarity a a = sumSq a := by
  rw [cosineSimilarity_eq_sum, sumSq_eq_sum]
  congr 1
  induction a with
  | nil => rfl
  | cons x xs ih => simp only [List.zipWith_cons_cons, List.map_cons, ih]

/-- Twice the dot product of two vectors is at most the sum of their sums of
squares, in absolute value. -/
theorem two_mul_cosineSimilarity_le {R : Type} [LinearOrderedField R] :
    ∀ a b : List R, 2 * cosineSimilarity a b ≤ sumSq a + sumSq b ∧
      -(sumSq a + sumSq b) ≤ 2 * cosineSimilarity a b := by
  intro a
  induction a with
  | nil =>
    intro b
    have hb := sumSq_nonneg b
    simp only [cosineSimilarity_eq_sum, List.zipWith_nil_left, List.sum_nil, mul_zero, sumSq_nil,
      zero_add]
    exact ⟨hb, by linarith⟩
  | cons x xs ih =>
    intro b
    cases b with
    | nil =>
      have ha := sumSq_nonneg (x :: xs)
      simp only [cosineSimilarity_eq_sum, List.zipWith_nil_right, List.sum_nil, mul_zero,
        sumSq_nil, add_zero]
      exact ⟨ha, by linarith⟩
    | cons y ys =>
      obtain ⟨h1, h2⟩ := ih ys
      simp only [cosineSimilarity_eq_sum, List.zipWith_cons_cons, List.sum_cons, sumSq_cons] at h1 h2 ⊢
      have h3 : 0 ≤ (x - y) * (x - y) := mul_self_nonneg _
      have h4 : 0 ≤ (x + y) * (x + y) := mul_self_nonneg _
      constructor
      · nlinarith
      · nlinarith

theorem sumSq_map_div {R : Type} [LinearOrderedField R] (n : R) (vec : List R) :
    sumSq (vec.map (fun x => x / n)) = sumSq vec / (n * n) := by
  induction vec with
  | nil => simp [sumSq_nil]
  | cons x xs ih =>
    rw [List.map_cons, sumSq_cons, sumSq_cons, ih]
    by_cases hn : n = 0
    · simp [hn]
    · field_simp

/-! ## Embedding engine: the accumulation loop -/

theorem length_addAt {R : Type} [LinearOrderedField R] :
    ∀ (vec : List R) (idx : Nat) (sign : R), (addAt vec idx sign).length = vec.length
  | [], _, _ => rfl
  | _ :: _, 0, _ => rfl
  | x :: xs, idx + 1, sign => by
    simp only [addAt, List.length_cons, length_addAt xs idx sign]

theorem getElem?_addAt {R : Type} [LinearOrderedField R] :
    ∀ (vec : List R) (idx : Nat) (sign : R) (i : Nat),
      (addAt vec idx sign)[i]? = if i = idx then (vec[i]?).map (fun x => x + sign) else vec[i]?
  | [], _, _, _ => by simp [addAt]
  | x :: xs, 0, sign, 0 => by simp [addAt]
  | x :: xs, 0, sign, i + 1 => by simp [addAt]
  | x :: xs, idx + 1, sign, 0 => by simp [addAt]
  | x :: xs, idx + 1, sign, i + 1 => by
    simp only [addAt, List.getElem?_cons_succ, getElem?_addAt xs idx sign i, Nat.add_right_cancel_iff]

theorem sumSq_addAt {R : Type} [LinearOrderedField R] :
    ∀ (vec : List R) (idx : Nat) (sign x : R), vec[idx]? = some x →
      sumSq (addAt vec idx sign) = sumSq vec + (2 * x * sign + sign * sign)
  | [], _, _, _, h => by simp at h
  | y :: ys, 0, sign, x, h => by
    have hy : y = x := by simpa using h
    subst hy
    simp only [addAt, sumSq_cons]
    ring
  | y :: ys, idx + 1, sign, x, h => by
    have h' : ys[idx]? = some x := by simpa using h
    simp only [addAt, sumSq_cons, sumSq_addAt ys idx sign x h']
    ring

/-- One round of the loop keeps the sign pattern (components at even indices are
not negative, those at odd indices not positive) and adds at least 1 to the sum
of squares: the sign added at an index is the sign the pattern has there. -/
theorem addAt_token {R : Type} [LinearOrderedField R] (vec : List R) (h : Nat)
    (hlen : vec.length = EMBEDDING_DIM)
    (hpat : ∀ (i : Nat) (x : R), vec[i]? = some x → (i % 2 = 0 → 0 ≤ x) ∧ (i % 2 = 1 → x ≤ 0)) :
    (addAt vec (h % EMBEDDING_DIM) (if h &&& 1 = 0 then 1 else -1)).length = EMBEDDING_DIM ∧
    (∀ (i : Nat) (x : R),
      (addAt vec (h % EMBEDDING_DIM) (if h &&& 1 = 0 then (1 : R) else -1))[i]? = some x →
      (i % 2 = 0 → 0 ≤ x) ∧ (i % 2 = 1 → x ≤ 0)) ∧
    sumSq vec + 1 ≤ sumSq (addAt vec (h % EMBEDDING_DIM) (if h &&& 1 = 0 then (1 : R) else -1)) := by
  have hj : h % EMBEDDING_DIM < vec.length := by
    rw [hlen]
    exact Nat.mod_lt _ (by decide)
  have hpar : (h % EMBEDDING_DIM) % 2 = h % 2 :=
    Nat.mod_mod_of_dvd h (by decide : 2 ∣ EMBEDDING_DIM)
  have hand : h &&& 1 = h % 2 := Nat.and_one_is_mod h
  obtain ⟨x0, hx0⟩ : ∃ x0, vec[h % EMBEDDING_DIM]? = some x0 :=
    ⟨vec[h % EMBEDDING_DIM], List.getElem?_eq_getElem hj⟩
  have hp0 := hpat _ x0 hx0
  rw [hpar] at hp0
  refine ⟨by rw [length_addAt, hlen], ?_, ?_⟩
  · intro i x hx
    rw [getElem?_addAt] at hx
    by_cases hi : i = h % EMBEDDING_DIM
    · rw [if_pos hi, hi, hx0] at hx
      have hxe : x0 + (if h &&& 1 = 0 then (1 : R) else -1) = x := by simpa using hx
      rw [hi, hpar, hand] at *
      rcases Nat.mod_two_eq_zero_or_one h with h2 | h2
      · rw [h2] at hxe hp0 ⊢
        simp only [if_true] at hxe
        have := hp0.1 rfl
        exact ⟨fun _ => by linarith, fun hc => absurd hc (by decide)⟩
      · rw [h2] at hxe hp0 ⊢
        simp only [one_ne_zero, if_false] at hxe
        have := hp0.2 rfl
        exact ⟨fun hc => absurd hc (by decide), fun _ => by linarith⟩
    · rw [if_neg hi] at hx
      exact hpat i x hx
  · rw [sumSq_addAt vec _ _ x0 hx0, hand]
    rcases Nat.mod_two_eq_zero_or_one h with h2 | h2
    · rw [h2] at hp0 ⊢
      simp only [if_true]
      have := hp0.1 rfl
      linarith
    · rw [h2] at hp0 ⊢
      simp only [one_ne_zero, if_false]
      have := hp0.2 rfl
      linarith

theorem foldl_addAt_tokens {R : Type} [LinearOrderedField R] :
    ∀ (tokens : List JSString) (vec : List R), vec.length = EMBEDDING_DIM →
      (∀ (i : Nat) (x : R), vec[i]? = some x → (i % 2 = 0 → 0 ≤ x) ∧ (i % 2 = 1 → x ≤ 0)) →
      (tokens.foldl
        (fun vec token =>
          addAt vec (hashToken token % EMBEDDING_DIM)
            (if hashToken token &&& 1 = 0 then (1 : R) else -1)) vec).length = EMBEDDING_DIM ∧
      (∀ (i : Nat) (x : R),
        (tokens.foldl
          (fun vec token =>
            addAt vec (hashToken token % EMBEDDING_DIM)
              (if hashToken token &&& 1 = 0 then (1 : R) else -1)) vec)[i]? = some x →
        (i % 2 = 0 → 0 ≤ x) ∧ (i % 2 = 1 → x ≤ 0)) ∧
      sumSq vec + (tokens.length : R) ≤
        sumSq (tokens.foldl
          (fun vec token =>
            addAt vec (hashToken token % EMBEDDING_DIM)
              (if hashToken token &&& 1 = 0 then (1 : R) else -1)) vec) := by
  intro tokens
  induction tokens with
  | nil =>
    intro vec hlen hpat
    exact ⟨hlen, hpat, by simp⟩
  | cons t ts ih =>
    intro vec hlen hpat
    obtain ⟨h1, h2, h3⟩ := addAt_token vec (hashToken t) hlen hpat
    obtain ⟨h4, h5, h6⟩ := ih _ h1 h2
    refine ⟨h4, h5, ?_⟩
    simp only [List.foldl_cons, List.length_cons, Nat.cast_add, Nat.cast_one]
    linarith

/-- The vector accumulated from the tokens has 384 components, the sign pattern,
and a sum of squares that is at least the number of tokens. -/
theorem accumulate_spec {R : Type} [LinearOrderedField R] (tokens : List JSString) :
    (accumulate tokens : List R).length = EMBEDDING_DIM ∧
    (∀ (i : Nat) (x : R), (accumulate tokens : List R)[i]? = some x →
      (i % 2 = 0 → 0 ≤ x) ∧ (i % 2 = 1 → x ≤ 0)) ∧
    (tokens.length : R) ≤ sumSq (accumulate tokens : List R) := by
  have hz : ∀ (i : Nat) (x : R), (List.replicate EMBEDDING_DIM (0 : R))[i]? = some x →
      (i % 2 = 0 → 0 ≤ x) ∧ (i % 2 = 1 → x ≤ 0) := by
    intro i x hx
    have hx0 : x = 0 := by
      rw [List.getElem?_replicate] at hx
      split at hx
      · exact (Option.some.inj hx).symm
      · simp at hx
    rw [hx0]
    exact ⟨fun _ => le_refl _, fun _ => le_refl _⟩
  obtain ⟨h1, h2, h3⟩ := foldl_addAt_tokens (R := R) tokens (List.replicate EMBEDDING_DIM 0)
    (List.length_replicate _ _) hz
  rw [sumSq_replicate_zero, zero_add] at h3
  exact ⟨h1, h2, h3⟩

/-! ## Embedding engine: norm and cosine -/

theorem computeEmbedding_of_no_tokens {R : Type} [LinearOrderedField R] (sqrt : R → R)
    (lower : JSString → JSString) (text : JSString) (h : tokenize lower text = []) :
    computeEmbedding sqrt lower text = List.replicate EMBEDDING_DIM 0 := by
  simp [computeEmbedding, h]

theorem computeEmbedding_of_tokens {R : Type} [LinearOrderedField R] (sqrt : R → R)
    (lower : JSString → JSString) (text : JSString) (h : tokenize lower text ≠ []) :
    computeEmbedding sqrt lower text = l2Normalize sqrt (accumulate (tokenize lower text)) := by
  have hl : (tokenize lower text).length ≠ 0 := fun h0 => h (List.length_eq_zero.1 h0)
  simp [computeEmbedding, hl]

/-- With at least one token and a square root that is exact at the sum of squares,
the normalised vector has sum of squares 1. -/
theorem sumSq_l2Normalize_accumulate {R : Type} [LinearOrderedField R] (sqrt : R → R)
    (tokens : List JSString) (htok : tokens ≠ [])
    (hs : sqrt (sumSq (accumulate tokens : List R)) * sqrt (sumSq (accumulate tokens : List R)) =
      sumSq (accumulate tokens : List R)) :
    sumSq (l2Normalize sqrt (accumulate tokens : List R)) = 1 := by
  have hpos : (0 : R) < sumSq (accumulate tokens : List R) := by
    have h1 := (accumulate_spec (R := R) tokens).2.2
    have h2 : 0 < tokens.length := List.length_pos.2 htok
    have h3 : (0 : R) < (tokens.length : R) := by exact_mod_cast h2
    linarith
  have hne : sqrt (sumSq (accumulate tokens : List R)) ≠ 0 := by
    intro h0
    rw [h0, mul_zero] at hs
    exact absurd hs.symm (ne_of_gt hpos)
  unfold l2Normalize
  rw [if_neg hne, sumSq_map_div, hs]
  exact div_self (ne_of_gt hpos)

theorem sumSq_computeEmbedding_le_one {R : Type} [LinearOrderedField R] (sqrt : R → R)
    (lower : JSString → JSString) (text : JSString)
    (hs : sqrt (sumSq (accumulate (tokenize lower text) : List R)) *
        sqrt (sumSq (accumulate (tokenize lower text) : List R)) =
      sumSq (accumulate (tokenize lower text) : List R)) :
    sumSq (computeEmbedding sqrt lower text) ≤ 1 := by
  by_cases h : tokenize lower text = []
  · rw [computeEmbedding_of_no_tokens sqrt lower text h, sumSq_replicate_zero]
    exact zero_le_one
  · rw [computeEmbedding_of_tokens sqrt lower text h,
      sumSq_l2Normalize_accumulate sqrt _ h hs]

/-- C13, as the claim states it, fails: the text "!" is not empty, yet it has no
token, so computeEmbedding returns the zero vector, whose norm is 0. -/
theorem embedding_norm_counterexample :
    js "!" ≠ [] ∧
    tokenize (fun s => s.map foldAscii) (js "!") = [] ∧
    sumSq (computeEmbedding Real.sqrt (fun s => s.map foldAscii) (js "!")) = 0 ∧
    sumSq (computeEmbedding Real.sqrt (fun s => s.map foldAscii) (js "!")) ≠ 1 := by
  have h : tokenize (fun s => s.map foldAscii) (js "!") = [] := by decide
  have h0 : sumSq (computeEmbedding Real.sqrt (fun s => s.map foldAscii) (js "!")) = 0 := by
    rw [computeEmbedding_of_no_tokens Real.sqrt _ _ h, sumSq_replicate_zero]
  refine ⟨by decide, h, h0, ?_⟩
  rw [h0]
  exact zero_ne_one

/-- C13, amended: for every text with at least one token, the vector
computeEmbedding returns has 384 components whose squares sum to 1, that is,
Euclidean norm 1, the square root being exact at the sum of squares of the
accumulated vector; and the vector is a function of the text alone, the same
for two texts with the same tokens. -/
theorem embedding_unit_norm {R : Type} [LinearOrderedField R] (sqrt : R → R)
    (lower : JSString → JSString) (text : JSString) (htok : tokenize lower text ≠ [])
    (hs : sqrt (sumSq (accumulate (tokenize lower text) : List R)) *
        sqrt (sumSq (accumulate (tokenize lower text) : List R)) =
      sumSq (accumulate (tokenize lower text) : List R)) :
    sumSq (computeEmbedding sqrt lower text) = 1 ∧
    (computeEmbedding sqrt lower text).length = 384 ∧
    (∀ text', tokenize lower text' = tokenize lower text →
      computeEmbedding sqrt lower text' = computeEmbedding sqrt lower text) := by
  refine ⟨?_, ?_, ?_⟩
  · rw [computeEmbedding_of_tokens sqrt lower text htok]
    exact sumSq_l2Normalize_accumulate sqrt _ htok hs
  · rw [computeEmbedding_of_tokens sqrt lower text htok]
    unfold l2Normalize
    rw [List.length_map]
    exact (accumulate_spec (R := R) _).1
  · intro text' h
    simp only [computeEmbedding, h]

theorem embedding_unit_norm_witness :
    Real.sqrt (sumSq (computeEmbedding Real.sqrt (fun s => s.map foldAscii)
      (js "Reinforcement Learning basics"))) = 1 := by
  rw [(embedding_unit_norm Real.sqrt (fun s => s.map foldAscii)
    (js "Reinforcement Learning basics") (by decide)
    (Real.mul_self_sqrt (sumSq_nonneg _))).1]
  exact Real.sqrt_one

/-- C14: cosine bounds. For every two texts, the cosine similarity of their
embeddings lies between -1 and 1, the square root being exact at the two sums
of squares it is applied to. -/
theorem cosine_bounds {R : Type} [LinearOrderedField R] (sqrt : R → R)
    (lower : JSString → JSString) (s t : JSString)
    (hs : sqrt (sumSq (accumulate (tokenize lower s) : List R)) *
        sqrt (sumSq (accumulate (tokenize lower s) : List R)) =
      sumSq (accumulate (tokenize lower s) : List R))
    (ht : sqrt (sumSq (accumulate (tokenize lower t) : List R)) *
        sqrt (sumSq (accumulate (tokenize lower t) : List R)) =
      sumSq (accumulate (tokenize lower t) : List R)) :
    -1 ≤ cosineSimilarity (computeEmbedding sqrt lower s) (computeEmbedding sqrt lower t) ∧
    cosineSimilarity (computeEmbedding sqrt lower s) (computeEmbedding sqrt lower t) ≤ 1 := by
  have h1 := sumSq_computeEmbedding_le_one sqrt lower s hs
  have h2 := sumSq_computeEmbedding_le_one sqrt lower t ht
  obtain ⟨h3, h4⟩ := two_mul_cosineSimilarity_le (computeEmbedding sqrt lower s)
    (computeEmbedding sqrt lower t)
  constructor
  · linarith
  · linarith

theorem cosine_bounds_witness :
    -1 ≤ cosineSimilarity
        (computeEmbedding Real.sqrt (fun s => s.map foldAscii) (js "Reinforcement Learning basics"))
        (computeEmbedding Real.sqrt (fun s => s.map foldAscii) (js "Learning to cook")) ∧
    cosineSimilarity
        (computeEmbedding Real.sqrt (fun s => s.map foldAscii) (js "Reinforcement Learning basics"))
        (computeEmbedding Real.sqrt (fun s => s.map foldAscii) (js "Learning to cook")) ≤ 1 :=
  cosine_bounds Real.sqrt (fun s => s.map foldAscii) (js "Reinforcement Learning basics")
    (js "Learning to cook") (Real.mul_self_sqrt (sumSq_nonneg _))
    (Real.mul_self_sqrt (sumSq_nonneg _))

/-- C15, as the claim states it, fails: the empty text has no token, its embedding
is the zero vector, and the cosine similarity of that vector with itself is 0. -/
theorem self_similarity_counterexample :
    cosineSimilarity (computeEmbedding Real.sqrt (fun s => s.map foldAscii) (js ""))
        (computeEmbedding Real.sqrt (fun s => s.map foldAscii) (js "")) = 0 ∧
    cosineSimilarity (computeEmbedding Real.sqrt (fun s => s.map foldAscii) (js ""))
        (computeEmbedding Real.sqrt (fun s => s.map foldAscii) (js "")) ≠ 1 := by
  have h : tokenize (fun s => s.map foldAscii) (js "") = [] := by decide
  have h0 : cosineSimilarity (computeEmbedding Real.sqrt (fun s => s.map foldAscii) (js ""))
      (computeEmbedding Real.sqrt (fun s => s.map foldAscii) (js "")) = 0 := by
    rw [cosineSimilarity_self, computeEmbedding_of_no_tokens Real.sqrt _ _ h,
      sumSq_replicate_zero]
  refine ⟨h0, ?_⟩
  rw [h0]
  exact zero_ne_one

/-- C15, amended: for every text with at least one token, the cosine similarity of
its embedding with itself is 1, the square root being exact at the sum of
squares of the accumulated vector; for a text with no token it is 0. -/
theorem self_similarity {R : Type} [LinearOrderedField R] (sqrt : R → R)
    (lower : JSString → JSString) (text : JSString) (htok : tokenize lower text ≠ [])
    (hs : sqrt (sumSq (accumulate (tokenize lower text) : List R)) *
        sqrt (sumSq (accumulate (tokenize lower text) : List R)) =
      sumSq (accumulate (tokenize lower text) : List R)) :
    cosineSimilarity (computeEmbedding sqrt lower text) (computeEmbedding sqrt lower text) = 1 ∧
    (∀ text', tokenize lower text' = [] →
      cosineSimilarity (computeEmbedding sqrt lower text') (computeEmbedding sqrt lower text') =
        0) := by
  constructor
  · rw [cosineSimilarity_self, computeEmbedding_of_tokens sqrt lower text htok]
    exact sumSq_l2Normalize_accumulate sqrt _ htok hs
  · intro text' h
    rw [cosineSimilarity_self, computeEmbedding_of_no_tokens sqrt lower text' h,
      sumSq_replicate_zero]

theorem self_similarity_witness :
    cosineSimilarity
        (computeEmbedding Real.sqrt (fun s => s.map foldAscii) (js "Reinforcement Learning basics"))
        (computeEmbedding Real.sqrt (fun s => s.map foldAscii)
          (js "Reinforcement Learning basics")) = 1 :=
  (self_similarity Real.sqrt (fun s => s.map foldAscii) (js "Reinforcement Learning basics")
    (by decide) (Real.mul_self_sqrt (sumSq_nonneg _))).1

theorem acronym_candidates_witness :
    ∃ c ∈ extractCandidates (fun s => s.map foldAscii)
        { taskId := js "k", pageId := js "p", url := js "https://a", title := [],
          text := js "NASA Big Rocket", meta := [], contentHash := js "h", timestamp := js "t" } []
        { proper := [js "Big Rocket"], hashtags := [], patternMatches := [],
          headlineEntities := [] },
      c.key = js "nasa" ∧ js "acronym" ∈ c.sources ∧ c.type = js "Acronym" := by
  obtain ⟨_, _, c, hc, h1, h2, _, _, h5⟩ :=
    acronym_candidates (fun s => s.map foldAscii)
      { taskId := js "k", pageId := js "p", url := js "https://a", title := [],
        text := js "NASA Big Rocket", meta := [], contentHash := js "h", timestamp := js "t" } []
      { proper := [js "Big Rocket"], hashtags := [], patternMatches := [],
        headlineEntities := [] }
      [] (js "NASA") (js " Big Rocket") (by decide) (by decide) (by decide) (by decide)
      (fun c h => by simp at h)
      (fun c h => by
        have hc : c = 32 := by
          have h' : (js " Big Rocket").head? = some 32 := by decide
          rw [h'] at h
          exact (Option.some.inj h).symm
        rw [hc]
        decide)
      (fun _ _ => rfl)
      (by decide)
  exact ⟨c, hc, h1, h2, h5⟩

/-! ## Deleting by source -/

/-- C22: `deleteRelationsBySource` removes exactly the relations whose `sourceKey` is
`sourceType + ':' + sourceId` and, when a (non-empty) `relType` is given, whose
`relType` equals it; every other relation stays in the store, unchanged and in
its place. -/
theorem delete_by_source_exact (store : List RelationRecord) (sourceType sourceId : JSString)
    (relType : Option JSString) :
    (∀ r : RelationRecord,
      r ∈ deleteRelationsBySource store sourceType sourceId relType ↔
        r ∈ store ∧
          ¬ (r.sourceKey = sourceType ++ js ":" ++ sourceId ∧
            ∀ t : JSString, relType = some t → truthy t = true → r.relType = t)) ∧
    List.Sublist (deleteRelationsBySource store sourceType sourceId relType) store := by
  have hmem : ∀ r : RelationRecord,
      r ∈ deleteRelationsBySource store sourceType sourceId relType ↔
        r ∈ store ∧
          ¬ (r.sourceKey = sourceType ++ js ":" ++ sourceId ∧
            ∀ t : JSString, relType = some t → truthy t = true → r.relType = t) := by
    intro r
    unfold deleteRelationsBySource nodeKey
    rw [List.mem_filter]
    apply and_congr_right
    intro _
    cases relType with
    | none => simp
    | some t =>
      by_cases ht : truthy t = true
      · simp [ht]
        tauto
      · simp [ht]
  exact ⟨hmem, List.filter_sublist _⟩

/-! ## The queue holds a task id once -/

theorem nodup_taskIds_enqueue (queue : Option (List Task)) (task : Task)
    (h : ((readPipelineQueue queue).map Task.taskId).Nodup) :
    ((readPipelineQueue (enqueuePipelineTask queue task)).map Task.taskId).Nodup := by
  unfold enqueuePipelineTask
  by_cases hex : ∃ x ∈ readPipelineQueue queue,
      (fun t : Task => t.taskId == task.taskId) x = true
  · obtain ⟨pre, x, post, hl, _, hx, hfi, hset⟩ :=
      findIndex_split (fun t : Task => t.taskId == task.taskId) task (readPipelineQueue queue) hex
    rw [hfi]
    simp only [readPipelineQueue, Option.getD_some]
    have hset2 : (queue.getD []).set pre.length task = pre ++ task :: post := hset
    rw [hset2]
    have hl2 : queue.getD [] = pre ++ x :: post := hl
    have hxt : x.taskId = task.taskId := by simpa using hx
    have h2 : ((pre ++ x :: post).map Task.taskId).Nodup := by
      rw [← hl2]; exact h
    simpa [hxt] using h2
  · have hnone : findIndex (fun t : Task => t.taskId == task.taskId) (readPipelineQueue queue) = none := by
      apply findIndex_eq_none
      intro y hy
      by_contra hc
      exact hex ⟨y, hy, by simpa using hc⟩
    rw [hnone]
    simp only [readPipelineQueue, Option.getD_some, List.map_append, List.map_cons, List.map_nil]
    apply List.Nodup.append h (List.nodup_singleton _)
    rw [List.disjoint_singleton]
    intro hmem
    obtain ⟨y, hy, hyt⟩ := List.mem_map.1 hmem
    exact hex ⟨y, hy, by simpa using hyt⟩

theorem nodup_taskIds_queueStep (queue : Option (List Task)) (e : QueueEvent)
    (h : ((readPipelineQueue queue).map Task.taskId).Nodup) :
    ((readPipelineQueue (queueStep queue e)).map Task.taskId).Nodup := by
  cases e with
  | enqueue task => exact nodup_taskIds_enqueue queue task h
  | complete taskId =>
    simp only [queueStep, taskComplete, writePipelineQueue, readPipelineQueue, Option.getD_some]
    exact (List.Nodup.sublist (List.Sublist.map _ (List.filter_sublist _)) h)
  | drain =>
    simp [queueStep, requestQueue, writePipelineQueue, readPipelineQueue]

theorem nodup_taskIds_foldl (events : List QueueEvent) :
    ∀ queue : Option (List Task), ((readPipelineQueue queue).map Task.taskId).Nodup →
      ((readPipelineQueue (events.foldl queueStep queue)).map Task.taskId).Nodup := by
  induction events with
  | nil => intro queue h; exact h
  | cons e es ih =>
    intro queue h
    exact ih _ (nodup_taskIds_queueStep queue e h)

/-- C30: if no two entries of the queue share a `taskId`, the same holds after
`enqueuePipelineTask`, after the removal on completion and after a drain; hence a
queue built from the empty (or never written) queue by these operations never
holds two tasks with the same `taskId`. -/
theorem queue_task_ids_unique (queue : Option (List Task))
    (h : ((readPipelineQueue queue).map Task.taskId).Nodup) :
    (∀ task : Task,
      ((readPipelineQueue (enqueuePipelineTask queue task)).map Task.taskId).Nodup) ∧
    (∀ taskId : JSString,
      ((readPipelineQueue (taskComplete queue taskId)).map Task.taskId).Nodup) ∧
    ((readPipelineQueue (requestQueue queue).2).map Task.taskId).Nodup ∧
    (∀ events : List QueueEvent,
      ((readPipelineQueue (events.foldl queueStep queue)).map Task.taskId).Nodup) ∧
    (∀ events : List QueueEvent,
      ((readPipelineQueue (events.foldl queueStep none)).map Task.taskId).Nodup ∧
      ((readPipelineQueue (events.foldl queueStep (some []))).map Task.taskId).Nodup) :=
  ⟨fun task => nodup_taskIds_queueStep queue (QueueEvent.enqueue task) h,
    fun taskId => nodup_taskIds_queueStep queue (QueueEvent.complete taskId) h,
    nodup_taskIds_queueStep queue QueueEvent.drain h,
    fun events => nodup_taskIds_foldl events queue h,
    fun events => ⟨nodup_taskIds_foldl events none List.nodup_nil,
      nodup_taskIds_foldl events (some []) List.nodup_nil⟩⟩

theorem queue_task_ids_unique_witness :
    ((readPipelineQueue
        (enqueuePipelineTask
          (some
            [{ taskId := js "k1", pageId := js "p1", url := js "https://a", title := js "A",
               text := js "old", meta := [], contentHash := js "h1", timestamp := js "t1" }])
          { taskId := js "k1", pageId := js "p1", url := js "https://a", title := js "A",
            text := js "new", meta := [], contentHash := js "h2", timestamp := js "t2" })).map
      Task.taskId).Nodup :=
  (queue_task_ids_unique _ (by decide)).1 _

/-! ## The hash loop is 32-bit FNV-1a -/

theorem toInt32_emod (y : Int) : toInt32 y % 4294967296 = y % 4294967296 := by
  unfold toInt32
  split <;> omega

theorem toInt32_bounds (y : Int) : -2147483648 ≤ toInt32 y ∧ toInt32 y < 2147483648 := by
  unfold toInt32
  split <;> omega

theorem jsShl_emod (a : Int) (k : Nat) :
    jsShl a k % 4294967296 = (a * 2 ^ k) % 4294967296 := by
  unfold jsShl
  rw [toInt32_emod, Int.mul_emod, toInt32_emod, ← Int.mul_emod]

theorem toUint32_lt (y : Int) : toUint32 y < 4294967296 := by
  unfold toUint32
  omega

theorem toUint32_ofNat (c : Nat) (hc : c < 4294967296) : toUint32 (Int.ofNat c) = c := by
  unfold toUint32
  simp only [Int.ofNat_eq_coe]
  omega

/-- One round of the loop, seen modulo 2^32, is the xor followed by the
multiplication by 16777619 = 1 + 2 + 16 + 128 + 256 + 2^24. -/
theorem toUint32_fnvStep (h : Int) (c : Nat) (hc : c < 4294967296) :
    toUint32 (fnvStep h c) = fnvRound (toUint32 h) c := by
  have hx : jsXor h (Int.ofNat c) % 4294967296 =
      ((Nat.xor (toUint32 h) c : Nat) : Int) % 4294967296 := by
    unfold jsXor
    rw [toInt32_emod, toUint32_ofNat c hc]
    rfl
  have h1 := jsShl_emod (jsXor h (Int.ofNat c)) 1
  have h4 := jsShl_emod (jsXor h (Int.ofNat c)) 4
  have h7 := jsShl_emod (jsXor h (Int.ofNat c)) 7
  have h8 := jsShl_emod (jsXor h (Int.ofNat c)) 8
  have h24 := jsShl_emod (jsXor h (Int.ofNat c)) 24
  norm_num at h1 h4 h7 h8 h24
  have key : fnvStep h c % 4294967296 =
      ((Nat.xor (toUint32 h) c * 16777619 : Nat) : Int) % 4294967296 := by
    unfold fnvStep
    push_cast
    generalize ((Nat.xor (toUint32 h) c : Nat) : Int) = X at *
    generalize jsXor h (Int.ofNat c) = x at *
    generalize jsShl x 1 = a1 at *
    generalize jsShl x 4 = a4 at *
    generalize jsShl x 7 = a7 at *
    generalize jsShl x 8 = a8 at *
    generalize jsShl x 24 = a24 at *
    omega
  unfold fnvRound
  generalize Nat.xor (toUint32 h) c * 16777619 = Y at *
  unfold toUint32
  rw [key]
  omega

theorem fnvStep_bounds (h : Int) (c : Nat) :
    -12884901888 ≤ fnvStep h c ∧ fnvStep h c < 12884901888 := by
  unfold fnvStep jsShl jsXor
  have b0 := toInt32_bounds (Int.ofNat (Nat.xor (toUint32 h) (toUint32 (Int.ofNat c))))
  generalize toInt32 (Int.ofNat (Nat.xor (toUint32 h) (toUint32 (Int.ofNat c)))) = x at *
  have b1 := toInt32_bounds (toInt32 x * 2 ^ 1)
  have b4 := toInt32_bounds (toInt32 x * 2 ^ 4)
  have b7 := toInt32_bounds (toInt32 x * 2 ^ 7)
  have b8 := toInt32_bounds (toInt32 x * 2 ^ 8)
  have b24 := toInt32_bounds (toInt32 x * 2 ^ 24)
  omega

theorem toUint32_foldl_fnvStep (str : JSString) (hunits : ∀ c ∈ str, c < 65536) :
    ∀ h : Int, toUint32 (str.foldl fnvStep h) = str.foldl fnvRound (toUint32 h) := by
  induction str with
  | nil => intro h; rfl
  | cons c cs ih =>
    intro h
    simp only [List.foldl_cons]
    rw [ih (fun d hd => hunits d (List.mem_cons_of_mem c hd)),
      toUint32_fnvStep h c (by
        have := hunits c (List.mem_cons_self c cs)
        omega)]

/-- C26: the token hash is 32-bit FNV-1a. On a string of UTF-16 code units,
`hashToken` (and `hashKey`, `hashLite` before the base-36 rendering) is the fold
from 2166136261 that maps `h` to `((h xor c) * 16777619) mod 2^32` for every code
unit `c`; one shift-and-add round, taken modulo 2^32, is that multiplication
whatever untruncated number the round starts from, the untruncated number stays
below 2^34 in magnitude, and the result lies in `[0, 2^32)`. -/
theorem token_hash_is_fnv1a (str : JSString) (hunits : ∀ c ∈ str, c < 65536) :
    hashToken str = fnv1aSpec str ∧
    hashKey str = toString36 (fnv1aSpec str) ∧
    hashToken str < 4294967296 ∧
    (∀ (h : Int) (c : Nat), c < 65536 →
      toUint32 (fnvStep h c) = (Nat.xor (toUint32 h) c * 16777619) % 4294967296 ∧
      -12884901888 ≤ fnvStep h c ∧ fnvStep h c < 12884901888) := by
  have h0 : fnv1a str = fnv1aSpec str := by
    unfold fnv1a fnv1aSpec
    rw [toUint32_foldl_fnvStep str hunits]
    rfl
  refine ⟨h0, ?_, toUint32_lt _, ?_⟩
  · unfold hashKey
    rw [h0]
  · intro h c hc
    exact ⟨toUint32_fnvStep h c (by omega), fnvStep_bounds h c⟩

theorem token_hash_is_fnv1a_witness :
    hashToken (js "ab") = fnv1aSpec (js "ab") ∧ hashToken (js "ab") < 4294967296 :=
  ⟨(token_hash_is_fnv1a (js "ab") (by decide)).1, (token_hash_is_fnv1a (js "ab") (by decide)).2.2.1⟩

/-! ## Embedding engine: signs -/

/-- The divisor of `l2Normalize` is never zero. -/
theorem l2Normalize_divisor_ne_zero {R : Type} [LinearOrderedField R] (sqrt : R → R) (vec : List R) :
    (if sqrt (sumSq vec) = 0 then 1 else sqrt (sumSq vec)) ≠ 0 := by
  split
  · exact one_ne_zero
  · next h => exact h

/-- C27: no cancellation. For every text, `computeEmbedding` returns exactly 384
components, and returns the zero vector if and only if `tokenize(text)` is empty;
before normalisation every even-indexed component is at least 0 and every
odd-indexed component is at most 0. -/
theorem embedding_no_cancellation {R : Type} [LinearOrderedField R] (sqrt : R → R)
    (lower : JSString → JSString) (text : JSString) :
    (computeEmbedding sqrt lower text).length = 384 ∧
    (computeEmbedding sqrt lower text = List.replicate 384 0 ↔ tokenize lower text = []) ∧
    (∀ (i : Nat) (x : R), (accumulate (tokenize lower text) : List R)[i]? = some x →
      (i % 2 = 0 → 0 ≤ x) ∧ (i % 2 = 1 → x ≤ 0)) := by
  obtain ⟨hlen, hsign, hsum⟩ := accumulate_spec (R := R) (tokenize lower text)
  refine ⟨?_, ?_, hsign⟩
  · by_cases h : tokenize lower text = []
    · rw [computeEmbedding_of_no_tokens sqrt lower text h, List.length_replicate]
      rfl
    · rw [computeEmbedding_of_tokens sqrt lower text h]
      unfold l2Normalize
      rw [List.length_map, hlen]
      rfl
  · constructor
    · intro hz
      by_contra h
      rw [computeEmbedding_of_tokens sqrt lower text h] at hz
      have h1 : sumSq (l2Normalize sqrt (accumulate (tokenize lower text) : List R)) = 0 := by
        rw [hz, sumSq_replicate_zero]
      unfold l2Normalize at h1
      rw [sumSq_map_div] at h1
      have hn := l2Normalize_divisor_ne_zero sqrt (accumulate (tokenize lower text) : List R)
      have h2 : sumSq (accumulate (tokenize lower text) : List R) = 0 := by
        rcases div_eq_zero_iff.1 h1 with h3 | h3
        · exact h3
        · exact absurd (mul_self_eq_zero.1 h3) hn
      have h4 : 0 < (tokenize lower text).length := List.length_pos.2 h
      have h5 : (0 : R) < ((tokenize lower text).length : R) := by exact_mod_cast h4
      linarith
    · intro h
      exact computeEmbedding_of_no_tokens sqrt lower text h

/-- The sign pattern survives normalisation when the square root is not negative. -/
theorem computeEmbedding_signs {R : Type} [LinearOrderedField R] (sqrt : R → R)
    (lower : JSString → JSString) (text : JSString)
    (h0 : 0 ≤ sqrt (sumSq (accumulate (tokenize lower text) : List R))) :
    ∀ (i : Nat) (x : R), (computeEmbedding sqrt lower text)[i]? = some x →
      (i % 2 = 0 → 0 ≤ x) ∧ (i % 2 = 1 → x ≤ 0) := by
  intro i x hx
  by_cases h : tokenize lower text = []
  · rw [computeEmbedding_of_no_tokens sqrt lower text h, List.getElem?_replicate] at hx
    have hx0 : x = 0 := by
      split at hx
      · exact (Option.some.inj hx).symm
      · simp at hx
    rw [hx0]
    exact ⟨fun _ => le_refl _, fun _ => le_refl _⟩
  · rw [computeEmbedding_of_tokens sqrt lower text h] at hx
    unfold l2Normalize at hx
    rw [List.getElem?_map] at hx
    cases hy : (accumulate (tokenize lower text) : List R)[i]? with
    | none => rw [hy] at hx; simp at hx
    | some y =>
      rw [hy] at hx
      have hxy : y / (if sqrt (sumSq (accumulate (tokenize lower text) : List R)) = 0 then 1
          else sqrt (sumSq (accumulate (tokenize lower text) : List R))) = x := by
        simpa using hx
      have hn : (0 : R) ≤ (if sqrt (sumSq (accumulate (tokenize lower text) : List R)) = 0 then 1
          else sqrt (sumSq (accumulate (tokenize lower text) : List R))) := by
        split
        · exact zero_le_one
        · exact h0
      obtain ⟨he, ho⟩ := (accumulate_spec (R := R) (tokenize lower text)).2.1 i y hy
      rw [← hxy]
      exact ⟨fun hi => div_nonneg (he hi) hn, fun hi => div_nonpos_of_nonpos_of_nonneg (ho hi) hn⟩

/-- A dot product of two vectors with the same sign at every index is not negative. -/
theorem cosineSimilarity_nonneg_of_pointwise {R : Type} [LinearOrderedField R] :
    ∀ a b : List R,
      (∀ (i : Nat) (x y : R), a[i]? = some x → b[i]? = some y → 0 ≤ x * y) →
        0 ≤ cosineSimilarity a b := by
  intro a
  induction a with
  | nil => intro b _; simp [cosineSimilarity_eq_sum]
  | cons x xs ih =>
    intro b h
    cases b with
    | nil => simp [cosineSimilarity_eq_sum]
    | cons y ys =>
      have h1 := ih ys (fun i u v hu hv => h (i + 1) u v (by simpa using hu) (by simpa using hv))
      have h2 : 0 ≤ x * y := h 0 x y (by simp) (by simp)
      rw [cosineSimilarity_eq_sum] at h1 ⊢
      simp only [List.zipWith_cons_cons, List.sum_cons]
      exact add_nonneg h2 h1

/-- C28: the similarity of two engine vectors is never negative. For every two
texts, empty included, the cosine similarity of their embeddings is at least 0,
the square root returning no negative number at the two sums of squares. -/
theorem engine_similarity_nonneg {R : Type} [LinearOrderedField R] (sqrt : R → R)
    (lower : JSString → JSString) (s t : JSString)
    (hs : 0 ≤ sqrt (sumSq (accumulate (tokenize lower s) : List R)))
    (ht : 0 ≤ sqrt (sumSq (accumulate (tokenize lower t) : List R))) :
    0 ≤ cosineSimilarity (computeEmbedding sqrt lower s) (computeEmbedding sqrt lower t) := by
  apply cosineSimilarity_nonneg_of_pointwise
  intro i x y hx hy
  obtain ⟨h1, h2⟩ := computeEmbedding_signs sqrt lower s hs i x hx
  obtain ⟨h3, h4⟩ := computeEmbedding_signs sqrt lower t ht i y hy
  rcases Nat.mod_two_eq_zero_or_one i with hi | hi
  · exact mul_nonneg (h1 hi) (h3 hi)
  · exact mul_nonneg_of_nonpos_of_nonpos (h2 hi) (h4 hi)

theorem engine_similarity_nonneg_witness :
    0 ≤ cosineSimilarity
      (computeEmbedding Real.sqrt (fun s => s.map foldAscii) (js "Reinforcement Learning basics"))
      (computeEmbedding Real.sqrt (fun s => s.map foldAscii) (js "")) :=
  engine_similarity_nonneg Real.sqrt (fun s => s.map foldAscii)
    (js "Reinforcement Learning basics") (js "") (Real.sqrt_nonneg _) (Real.sqrt_nonneg _)

/-! ## Co-mention relations are kept -/

theorem page_prefix_ne_entity_prefix (a b : JSString) : js "page:" ++ a ≠ js "entity" ++ b := by
  simp [js, utf16]

/-- The similarity step keeps every CO_MENTION record whose id starts with `entity`. -/
theorem updatePageSimilarities_keeps_coMention (st : GraphStore) (pageId : JSString)
    (embedding : Embedding) (now : JSString) (z : RelationRecord) (hz : z ∈ st.relations)
    (hrel : z.relType = js "CO_MENTION") (hid : ∃ t, z.id = js "entity" ++ t) :
    z ∈ (updatePageSimilarities st pageId embedding now).relations := by
  simp only [updatePageSimilarities, bulkUpsertRelations_eq]
  apply mem_foldl_storePut_of_fresh
  · simp only [deleteRelationsBySource, List.mem_filter]
    refine ⟨hz, ?_⟩
    have hne : js "CO_MENTION" ≠ js "PAGE_SIMILAR" := by decide
    have ht : truthy (js "PAGE_SIMILAR") = true := by decide
    simp [hrel, hne, ht]
  · intro x hx heq
    obtain ⟨rel, hrel2, rfl⟩ := List.mem_map.1 hx
    obtain ⟨item, _, rfl⟩ := List.mem_map.1 hrel2
    obtain ⟨t, ht⟩ := hid
    rw [ht] at heq
    rcases (normalizeRelation_similar pageId item now).2 with ⟨_, _, h⟩ | ⟨_, _, _, h⟩
    · rw [h] at heq
      exact page_prefix_ne_entity_prefix _ _ heq
    · rw [h] at heq
      exact page_prefix_ne_entity_prefix _ _ heq

theorem entity_key_ne_page_key (a b : JSString) : nodeKey (js "entity") a ≠ nodeKey (js "page") b := by
  simp [nodeKey, js, utf16]

/-- The relations step keeps a stored CO_MENTION record between entities, or
rewrites it under its id with the CO_MENTION record of a pair of this run. -/
theorem persistRelations_keeps_coMention (lower : JSString → JSString) (st : GraphStore)
    (task : Task) (summaryResult : SummaryResult) (embedding : Option Embedding)
    (entities : List ResolvedEntity) (now : JSString) (fresh : Nat → JSString)
    (random : JSString) (r : RelationRecord) (hr : r ∈ st.relations)
    (hkey : r.sourceKey = nodeKey (js "entity") r.sourceId)
    (hid : ∃ t, r.id = js "entity" ++ t) :
    ((∀ pair ∈ entityPairs entities,
        (normalizeRelation (coMentionRelation task pair) now).id ≠ r.id) →
      r ∈ (persistRelations lower st task summaryResult embedding entities now fresh random).relations) ∧
    ∃ y ∈ (persistRelations lower st task summaryResult embedding entities now fresh random).relations,
      y.id = r.id ∧
        (y = r ∨ ∃ pair ∈ entityPairs entities,
          y = normalizeRelation (coMentionRelation task pair) now) := by
  simp only [persistRelations, bulkUpsertRelations_eq]
  have h1 : r ∈ deleteRelationsBySource st.relations (js "page") task.pageId none := by
    simp only [deleteRelationsBySource, List.mem_filter]
    refine ⟨hr, ?_⟩
    have := entity_key_ne_page_key r.sourceId task.pageId
    simp [hkey, this]
  have h2 : r ∈ ((entities.map (mentionsRelation task)).map
      (fun rel => normalizeRelation rel now)).foldl (storePut RelationRecord.id)
      (deleteRelationsBySource st.relations (js "page") task.pageId none) := by
    apply mem_foldl_storePut_of_fresh _ _ _ _ h1
    intro x hx heq
    obtain ⟨rel, hrel2, rfl⟩ := List.mem_map.1 hx
    obtain ⟨e, _, rfl⟩ := List.mem_map.1 hrel2
    obtain ⟨t, ht⟩ := hid
    rw [ht, normalizeRelation_mentions] at heq
    exact page_prefix_ne_entity_prefix _ _ heq
  obtain ⟨h3, y, hy, hyk, hyr⟩ := mem_or_replaced_foldl_storePut RelationRecord.id
    (((entityPairs entities).map (coMentionRelation task)).map
      (fun rel => normalizeRelation rel now)) _ r h2
  constructor
  · intro hfresh
    apply h3
    intro x hx
    obtain ⟨rel, hrel2, rfl⟩ := List.mem_map.1 hx
    obtain ⟨pair, hp, rfl⟩ := List.mem_map.1 hrel2
    exact hfresh pair hp
  · refine ⟨y, hy, hyk, ?_⟩
    rcases hyr with h | h
    · exact Or.inl h
    · obtain ⟨rel, hrel2, rfl⟩ := List.mem_map.1 h
      obtain ⟨pair, hp, rfl⟩ := List.mem_map.1 hrel2
      exact Or.inr ⟨pair, hp, rfl⟩

/-- The run removes no id of a relation that is not sourced from the page: such a
relation stays, or a put of the run rewrites it under its id. -/
theorem persistKnowledge_keeps_ids (lower : JSString → JSString) (st : GraphStore)
    (task : Task) (summaryResult : SummaryResult) (embedding : Option Embedding)
    (entities : List ResolvedEntity) (now : JSString) (fresh : Nat → JSString)
    (random : JSString) (x : RelationRecord) (hx : x ∈ st.relations)
    (hkey : x.sourceKey ≠ nodeKey (js "page") task.pageId) :
    ∃ y ∈ (persistKnowledge lower st task summaryResult embedding entities now fresh random).relations,
      y.id = x.id := by
  have h1 : x ∈ deleteRelationsBySource st.relations (js "page") task.pageId none := by
    simp only [deleteRelationsBySource, List.mem_filter]
    exact ⟨hx, by simp [hkey]⟩
  obtain ⟨_, y1, hy1, hy1k, hy1r⟩ := mem_or_replaced_foldl_storePut RelationRecord.id
    ((entities.map (mentionsRelation task)).map (fun rel => normalizeRelation rel now)) _ x h1
  obtain ⟨_, y2, hy2, hy2k, hy2r⟩ := mem_or_replaced_foldl_storePut RelationRecord.id
    (((entityPairs entities).map (coMentionRelation task)).map
      (fun rel => normalizeRelation rel now)) _ y1 hy1
  have hy2' : y2 ∈ (persistRelations lower st task summaryResult embedding entities now fresh
      random).relations := by
    simp only [persistRelations, bulkUpsertRelations_eq]
    exact hy2
  cases embedding with
  | none => exact ⟨y2, hy2', hy2k.trans hy1k⟩
  | some vec =>
    have hkeep : ¬ (y2.sourceKey = nodeKey (js "page") task.pageId ∧
        y2.relType = js "PAGE_SIMILAR") := by
      rintro ⟨hs, hr⟩
      rcases hy2r with h | h
      · rcases hy1r with h' | h'
        · rw [h, h'] at hs
          exact hkey hs
        · obtain ⟨rel, hrel, hn⟩ := List.mem_map.1 h'
          obtain ⟨e, _, he⟩ := List.mem_map.1 hrel
          rw [h, ← hn, ← he, normalizeRelation_mentions] at hr
          have hne : js "MENTIONS" ≠ js "PAGE_SIMILAR" := by decide
          exact hne hr
      · obtain ⟨rel, hrel, hn⟩ := List.mem_map.1 h
        obtain ⟨pair, _, hp⟩ := List.mem_map.1 hrel
        rw [← hn, ← hp, (normalizeRelation_coMention task pair now).1] at hr
        have hne : js "CO_MENTION" ≠ js "PAGE_SIMILAR" := by decide
        exact hne hr
    have hy2d : y2 ∈ deleteRelationsBySource
        (persistRelations lower st task summaryResult (some vec) entities now fresh
          random).relations (js "page") task.pageId (some (js "PAGE_SIMILAR")) := by
      simp only [deleteRelationsBySource, List.mem_filter]
      refine ⟨hy2', ?_⟩
      have ht : truthy (js "PAGE_SIMILAR") = true := by decide
      simp only [ht, Bool.not_true, Bool.false_or, Bool.not_eq_true', Bool.and_eq_false_iff,
        beq_eq_false_iff_ne, ne_eq]
      by_cases hs : y2.sourceKey = nodeKey (js "page") task.pageId
      · exact Or.inr (fun hr => hkeep ⟨hs, hr⟩)
      · exact Or.inl hs
    obtain ⟨_, y3, hy3, hy3k, _⟩ := mem_or_replaced_foldl_storePut RelationRecord.id
      (((topSimilar (similarityScores (getAllPages
        (persistRelations lower st task summaryResult (some vec) entities now fresh
          random).pages) task.pageId vec)).map (similarRelation task.pageId)).map
        (fun rel => normalizeRelation rel now)) _ y2 hy2d
    refine ⟨y3, ?_, hy3k.trans (hy2k.trans hy1k)⟩
    simp only [persistKnowledge, updatePageSimilarities, bulkUpsertRelations_eq]
    exact hy3

/-- C29: co-mention edges are never retracted. A CO_MENTION relation between two
entities that the store holds before `persistKnowledge` (stored under the key of
its source entity and under the id built from its endpoints) is still held after
it: as the same record when no pair of this run has its id, and otherwise
rewritten under its id by the CO_MENTION relation of such a pair. In particular
reprocessing a page with another entity set leaves the co-mention edges of its
former entities in the store. The run deletes only relations whose source key is
the key of the page: the id of every other stored relation is still in the store. -/
theorem co_mention_never_retracted (lower : JSString → JSString) (st : GraphStore)
    (task : Task) (summaryResult : SummaryResult) (embedding : Option Embedding)
    (entities : List ResolvedEntity) (now : JSString) (fresh : Nat → JSString)
    (random : JSString) (r : RelationRecord) (hr : r ∈ st.relations)
    (hrel : r.relType = js "CO_MENTION") (hsrc : r.sourceType = js "entity")
    (hkey : r.sourceKey = nodeKey r.sourceType r.sourceId)
    (hid : r.id = buildRelId r.sourceType r.sourceId r.relType r.targetType r.targetId) :
    ((∀ pair ∈ entityPairs entities,
        (normalizeRelation (coMentionRelation task pair) now).id ≠ r.id) →
      r ∈ (persistKnowledge lower st task summaryResult embedding entities now fresh random).relations) ∧
    (∃ y ∈ (persistKnowledge lower st task summaryResult embedding entities now fresh random).relations,
      y.id = r.id ∧ y.relType = js "CO_MENTION" ∧ y.sourceType = js "entity" ∧
        (y = r ∨ ∃ pair ∈ entityPairs entities,
          y = normalizeRelation (coMentionRelation task pair) now)) ∧
    (∀ x ∈ st.relations, x.sourceKey ≠ nodeKey (js "page") task.pageId →
      ∃ y ∈ (persistKnowledge lower st task summaryResult embedding entities now fresh
        random).relations, y.id = x.id) := by
  have hall : ∀ x ∈ st.relations, x.sourceKey ≠ nodeKey (js "page") task.pageId →
      ∃ y ∈ (persistKnowledge lower st task summaryResult embedding entities now fresh
        random).relations, y.id = x.id :=
    fun x hx hk => persistKnowledge_keeps_ids lower st task summaryResult embedding entities now
      fresh random x hx hk
  have hid2 : ∃ t, r.id = js "entity" ++ t := by
    rw [hsrc] at hid
    refine ⟨js ":" ++ (r.sourceId ++ (js "|" ++ (r.relType ++ (js "|" ++
      (r.targetType ++ (js ":" ++ r.targetId)))))), ?_⟩
    rw [hid]
    simp only [buildRelId, List.append_assoc]
  rw [hsrc] at hkey
  obtain ⟨hA, y, hy, hyk, hyr⟩ := persistRelations_keeps_coMention lower st task summaryResult
    embedding entities now fresh random r hr hkey hid2
  have hyrel : y.relType = js "CO_MENTION" ∧ y.sourceType = js "entity" := by
    rcases hyr with h | ⟨pair, _, h⟩
    · rw [h]; exact ⟨hrel, hsrc⟩
    · rw [h]
      exact ⟨(normalizeRelation_coMention task pair now).1,
        (normalizeRelation_coMention task pair now).2.1⟩
  have hyid : ∃ t, y.id = js "entity" ++ t := by rw [hyk]; exact hid2
  cases embedding with
  | none =>
    exact ⟨hA, ⟨y, hy, hyk, hyrel.1, hyrel.2, hyr⟩, hall⟩
  | some vec =>
    refine ⟨?_, ?_, hall⟩
    · intro hfresh
      simp only [persistKnowledge]
      exact updatePageSimilarities_keeps_coMention _ _ _ _ r (hA hfresh) hrel hid2
    · refine ⟨y, ?_, hyk, hyrel.1, hyrel.2, hyr⟩
      simp only [persistKnowledge]
      exact updatePageSimilarities_keeps_coMention _ _ _ _ y hy hyrel.1 hyid

theorem co_mention_never_retracted_witness :
    ({ id := js "entity:a|CO_MENTION|entity:b", sourceType := js "entity", sourceId := js "a",
       sourceKey := js "entity:a", targetType := js "entity", targetId := js "b",
       targetKey := js "entity:b", relType := js "CO_MENTION", weight := 1,
       created_at := js "t0", updated_at := js "t0",
       metadata := [(js "pageId", MetaValue.str (js "p"))] } : RelationRecord) ∈
      (persistKnowledge (fun s => s.map foldAscii)
        { pages := [], entities := [],
          relations :=
            [{ id := js "entity:a|CO_MENTION|entity:b", sourceType := js "entity",
               sourceId := js "a", sourceKey := js "entity:a", targetType := js "entity",
               targetId := js "b", targetKey := js "entity:b", relType := js "CO_MENTION",
               weight := 1, created_at := js "t0", updated_at := js "t0",
               metadata := [(js "pageId", MetaValue.str (js "p"))] }] }
        { taskId := js "k1", pageId := js "p", url := js "https://a", title := js "A",
          text := js "new text", meta := [], contentHash := js "h2", timestamp := js "t1" }
        { summary := js "s", source := js "local-fallback" } none [] (js "t1")
        (fun _ => js "n") (js "x")).relations :=
  (co_mention_never_retracted _ _ _ _ _ [] _ _ _ _ (List.mem_singleton.2 rfl) (by decide)
    (by decide) (by decide) (by decide)).1 (fun _ hp => absurd hp (List.not_mem_nil _))

/-! ## Internal schemes -/

theorem startsWith_append (p rest : JSString) : startsWith (p ++ rest) p = true := by
  simp [startsWith]

theorem startsWithNoCase_of_prefix (pre rest lit : JSString) (h : pre.map foldAscii = lit) :
    startsWithNoCase (pre ++ rest) lit = true := by
  have hl : lit.length = pre.length := by rw [← h, List.length_map]
  simp [startsWithNoCase, hl, h]

/-- C23: internal browser schemes are never captured. For every URL that starts with
`chrome://`, `edge://`, `brave://`, `opera://` or `vivaldi://` in any letter case,
or with `chrome-extension://` or `about:`, and for a missing or empty URL,
`isCapturableUrl` is false; so the navigation handler leaves the worker's state
(queue and sent messages included) as it was, `captureTabContent` returns null, and
`analyzePage` on that capture creates no task. -/
theorem internal_schemes_not_captured (url : Option JSString)
    (h : url = none ∨ url = some [] ∨
      (∃ rest, url = some (js "about:" ++ rest)) ∨
      (∃ rest, url = some (js "chrome-extension://" ++ rest)) ∨
      ∃ scheme ∈ [js "chrome", js "edge", js "brave", js "opera", js "vivaldi"],
        ∃ pre rest, url = some (pre ++ rest) ∧ pre.map foldAscii = scheme ++ js "://") :
    isCapturableUrl url = false ∧
    (∀ (digest : JSString → Option JSString) (w : Background) (update : TabUpdate)
        (autoAnalyze : Option Bool) (current : Option (Option JSString))
        (script : Option Capture) (now : JSString) (fresh : Nat → JSString),
      update.url = url →
        onTabUpdated digest w update autoAnalyze current script now fresh = w) ∧
    (∀ script : Option Capture, captureTabContent (some url) script = none) ∧
    (∀ (digest : JSString → Option JSString) (w : Background) (tab : Tab)
        (script : Option Capture) (now : JSString) (fresh : Nat → JSString),
      analyzePage digest w tab (captureTabContent (some url) script) now fresh = w) := by
  have h0 : isCapturableUrl url = false := by
    rcases h with h | h | ⟨rest, h⟩ | ⟨rest, h⟩ | ⟨scheme, hs, pre, rest, h, hp⟩
    · rw [h]; rfl
    · rw [h]; rfl
    · rw [h]
      simp only [isCapturableUrl, startsWith_append, if_true, ite_self]
    · rw [h]
      simp only [isCapturableUrl, startsWith_append, if_true, ite_self]
    · rw [h]
      have hf : forbiddenProtocol (pre ++ rest) = true := by
        unfold forbiddenProtocol
        rw [List.any_eq_true]
        exact ⟨scheme, hs, startsWithNoCase_of_prefix pre rest _ hp⟩
      simp only [isCapturableUrl, hf, if_true, ite_self]
  have h1 : ∀ script : Option Capture, captureTabContent (some url) script = none := by
    intro script
    simp [captureTabContent, h0]
  refine ⟨h0, ?_, h1, ?_⟩
  · intro digest w update autoAnalyze current script now fresh hu
    simp [onTabUpdated, hu, h0]
  · intro digest w tab script now fresh
    rw [h1]
    rfl

theorem internal_schemes_not_captured_witness :
    isCapturableUrl (some (js "Chrome://settings")) = false ∧
    onTabUpdated (fun _ => none)
        { db := some [], pages := none, queue := some [], sent := [] }
        { status := some (js "complete"), url := some (js "Chrome://settings"),
          title := some (js "Settings") }
        (some true) (some (some (js "Chrome://settings")))
        (some { title := some (js "Settings"), meta := none, text := some (js "Appearance") })
        (js "t1") (fun _ => js "n") =
      { db := some [], pages := none, queue := some [], sent := [] } :=
  ⟨(internal_schemes_not_captured (some (js "Chrome://settings"))
      (Or.inr (Or.inr (Or.inr (Or.inr ⟨js "chrome", by decide, js "Chrome://", js "settings",
        by decide, by decide⟩))))).1,
    (internal_schemes_not_captured (some (js "Chrome://settings"))
      (Or.inr (Or.inr (Or.inr (Or.inr ⟨js "chrome", by decide, js "Chrome://", js "settings",
        by decide, by decide⟩))))).2.1 _ _ _ _ _ _ _ _ rfl⟩

/-! ## The local summary -/

theorem scoreFrom_spec (lower : JSString → JSString) (freq : List (JSString × ℚ)) :
    ∀ (sentences : List JSString) (i : Nat),
      (scoreFrom lower freq i sentences).map ScoredSentence.s = sentences.map trim ∧
      (scoreFrom lower freq i sentences).map ScoredSentence.i = List.range' i sentences.length ∧
      (∀ x ∈ scoreFrom lower freq i sentences, i ≤ x.i) ∧
      List.Pairwise (fun a b : ScoredSentence => a.i < b.i) (scoreFrom lower freq i sentences) := by
  intro sentences
  induction sentences with
  | nil => intro i; simp [scoreFrom]
  | cons s rest ih =>
    intro i
    obtain ⟨h1, h2, h3, h4⟩ := ih (i + 1)
    refine ⟨?_, ?_, ?_, ?_⟩
    · simp only [scoreFrom, List.map_cons, h1]
    · simp only [scoreFrom, List.map_cons, h2, List.length_cons, List.range'_succ]
    · intro x hx
      simp only [scoreFrom, List.mem_cons] at hx
      rcases hx with hx | hx
      · rw [hx]
      · exact Nat.le_of_succ_le (h3 x hx)
    · simp only [scoreFrom, List.pairwise_cons]
      exact ⟨fun x hx => h3 x hx, h4⟩

theorem sorted_insertionSort_sentence_score (l : List ScoredSentence) :
    List.Pairwise (fun a b : ScoredSentence => b.score ≤ a.score)
      (l.insertionSort (fun a b => b.score ≤ a.score)) := by
  haveI : IsTotal ScoredSentence (fun a b => b.score ≤ a.score) :=
    ⟨fun a b => le_total b.score a.score⟩
  haveI : IsTrans ScoredSentence (fun a b => b.score ≤ a.score) :=
    ⟨fun _ _ _ hab hbc => le_trans hbc hab⟩
  exact List.sorted_insertionSort (fun a b : ScoredSentence => b.score ≤ a.score) l

theorem sorted_insertionSort_sentence_index (l : List ScoredSentence) :
    List.Pairwise (fun a b : ScoredSentence => a.i ≤ b.i)
      (l.insertionSort (fun a b => a.i ≤ b.i)) := by
  haveI : IsTotal ScoredSentence (fun a b => a.i ≤ b.i) := ⟨fun a b => le_total a.i b.i⟩
  haveI : IsTrans ScoredSentence (fun a b => a.i ≤ b.i) := ⟨fun _ _ _ hab hbc => le_trans hab hbc⟩
  exact List.sorted_insertionSort (fun a b : ScoredSentence => a.i ≤ b.i) l

theorem mem_topSentences (scored : List ScoredSentence) (n : Nat) (x : ScoredSentence) :
    x ∈ topSentences scored n ↔
      x ∈ (scored.insertionSort (fun a b => b.score ≤ a.score)).take n :=
  (List.perm_insertionSort _ _).mem_iff

/-- The entries selected from entries with increasing indices are a sublist of them:
the selection keeps the original order. -/
theorem topSentences_sublist (scored : List ScoredSentence) (n : Nat)
    (hlt : List.Pairwise (fun a b : ScoredSentence => a.i < b.i) scored) :
    List.Sublist (topSentences scored n) scored := by
  haveI : IsAntisymm ScoredSentence (fun a b => a.i ≤ b.i ∧ (a.i = b.i → a = b)) :=
    ⟨fun a b hab hba => hab.2 (le_antisymm hab.1 hba.1)⟩
  have hsub : List.Subperm (topSentences scored n) scored :=
    (List.perm_insertionSort _ _).subperm.trans
      ((List.take_sublist n _).subperm.trans (List.perm_insertionSort _ _).subperm)
  have hne : List.Pairwise (fun a b : ScoredSentence => a.i ≠ b.i) scored :=
    hlt.imp (fun h => Nat.ne_of_lt h)
  have hinj : ∀ a ∈ scored, ∀ b ∈ scored, a.i = b.i → a = b := by
    intro a ha b hb hab
    by_contra hc
    exact List.Pairwise.forall (fun _ _ h => Ne.symm h) hne ha hb hc hab
  have hs2 : List.Sorted (fun a b : ScoredSentence => a.i ≤ b.i ∧ (a.i = b.i → a = b)) scored :=
    hlt.imp (fun h => ⟨Nat.le_of_lt h, fun he => absurd he (Nat.ne_of_lt h)⟩)
  have hs1 : List.Sorted (fun a b : ScoredSentence => a.i ≤ b.i ∧ (a.i = b.i → a = b))
      (topSentences scored n) := by
    have h0 := sorted_insertionSort_sentence_index
      ((scored.insertionSort (fun a b => b.score ≤ a.score)).take n)
    exact List.Pairwise.imp_of_mem
      (fun {a b} ha hb h => ⟨h, hinj a (hsub.subset ha) b (hsub.subset hb)⟩) h0
  exact List.sublist_of_subperm_of_sorted hsub hs1 hs2

theorem find?_map_of_key (f : JSString × ℚ → JSString × ℚ) (hf : ∀ e, (f e).1 = e.1)
    (k : JSString) :
    ∀ l : List (JSString × ℚ),
      (l.map f).find? (fun e => e.1 == k) = (l.find? (fun e => e.1 == k)).map f := by
  intro l
  induction l with
  | nil => rfl
  | cons a l ih =>
    simp only [List.map_cons, List.find?_cons, hf a]
    cases h : (a.1 == k) with
    | true => rfl
    | false => exact ih

/-- The table after `freq[w] = (freq[w] || 0) + 1`: the count of `w` is one higher,
the other counts are as before. -/
theorem freqGet_freqIncr (freq : List (JSString × ℚ)) (w k : JSString) :
    freqGet (freqIncr freq w) k =
      if k = w then some ((freqGet freq w).getD 0 + 1) else freqGet freq k := by
  unfold freqIncr
  cases h : freqGet freq w with
  | none =>
    have hnone : freq.find? (fun e => e.1 == w) = none := by
      simpa [freqGet] using h
    by_cases hk : k = w
    · subst hk
      simp [freqGet, List.find?_append, hnone]
    · have hne : ¬ w = k := fun e => hk e.symm
      simp [freqGet, List.find?_append, hk, hne]
  | some n =>
    have hn : (if n = 0 then (0 : ℚ) else n) = n := by
      split
      · next h0 => exact h0.symm
      · rfl
    simp only [hn, Option.getD_some]
    unfold freqGet
    rw [find?_map_of_key _ (fun e => by split <;> rfl) k]
    by_cases hk : k = w
    · subst hk
      simp only [if_true]
      unfold freqGet at h
      cases hf : freq.find? (fun e => e.1 == k) with
      | none => rw [hf] at h; simp at h
      | some e =>
        rw [hf] at h
        have he : e.1 = k := by simpa using List.find?_some hf
        have hen : e.2 = n := by simpa using h
        simp [he, hen]
    · simp only [hk, if_false]
      cases hf : freq.find? (fun e => e.1 == k) with
      | none => rfl
      | some e =>
        have he : e.1 = k := by simpa using List.find?_some hf
        have hew : ¬ e.1 = w := fun h1 => hk (he.symm.trans h1)
        simp [hew]

theorem skip_eq_not_keep (w : JSString) :
    (!truthy w || decide (w.length < 3) || STOP_WORDS.contains w) =
      !(decide (3 ≤ w.length) && !STOP_WORDS.contains w) := by
  have h1 : decide (w.length < 3) = !decide (3 ≤ w.length) := by
    by_cases h : w.length < 3
    · have h2 : ¬ 3 ≤ w.length := by omega
      simp [h, h2]
    · have h2 : 3 ≤ w.length := by omega
      simp [h, h2]
  have h2 : (!truthy w || decide (w.length < 3)) = decide (w.length < 3) := by
    cases w with
    | nil => rfl
    | cons a l => simp [truthy]
  rw [h2, h1, Bool.not_and, Bool.not_not]

/-- The first loop of `summarizeLocally` counts the kept words. -/
theorem freqGet_foldl (ws : List JSString) :
    ∀ (freq : List (JSString × ℚ)) (k : JSString),
      freqGet
          (ws.foldl
            (fun freq w =>
              if !truthy w || decide (w.length < 3) || STOP_WORDS.contains w then freq
              else freqIncr freq w)
            freq) k =
        if (ws.filter (fun v => decide (3 ≤ v.length) && !STOP_WORDS.contains v)).count k = 0 then
          freqGet freq k
        else
          some ((freqGet freq k).getD 0 +
            ((ws.filter (fun v => decide (3 ≤ v.length) && !STOP_WORDS.contains v)).count k : ℚ)) := by
  induction ws with
  | nil => intro freq k; simp
  | cons v vs ih =>
    intro freq k
    simp only [List.foldl_cons]
    rw [ih, skip_eq_not_keep]
    by_cases hkeep : (decide (3 ≤ v.length) && !STOP_WORDS.contains v) = true
    · simp only [Bool.not_true, Bool.false_eq_true, if_false, List.filter_cons, hkeep, if_true,
        freqGet_freqIncr]
      by_cases hk : k = v
      · subst hk
        simp only [if_true, List.count_cons_self, Option.getD_some]
        have hne : ¬ (List.count k (vs.filter
            (fun v => decide (3 ≤ v.length) && !STOP_WORDS.contains v)) + 1 = 0) := by omega
        rw [if_neg hne]
        split
        · next h0 => rw [h0]; simp
        · push_cast
          rw [add_assoc, add_comm (1 : ℚ)]
      · have hvk : ¬ v = k := fun e => hk e.symm
        simp only [hk, if_false, List.count_cons, beq_iff_eq, hvk, add_zero]
    · rw [Bool.not_eq_true] at hkeep
      simp only [hkeep, Bool.not_false, if_true, List.filter_cons, Bool.false_eq_true, if_false]

theorem freqGet_wordFreq (lower : JSString → JSString) (sentences : List JSString)
    (k : JSString) :
    freqGet (wordFreq lower sentences) k =
      if termFrequency lower sentences k = 0 then none
      else some (termFrequency lower sentences k : ℚ) := by
  unfold wordFreq termFrequency
  rw [freqGet_foldl]
  simp [freqGet]

/-- The score the code gives a sentence is the sum of the term frequencies of its
words. -/
theorem sentenceScore_eq_termScore (lower : JSString → JSString) (sentences : List JSString)
    (s : JSString) :
    sentenceScore lower (wordFreq lower sentences) s = termScore lower sentences s := by
  unfold sentenceScore termScore
  have hstep : (fun (score : ℚ) (w : JSString) =>
      match freqGet (wordFreq lower sentences) w with
      | some n => if n = 0 then score else score + n
      | none => score) =
      fun score w => score + (termFrequency lower sentences w : ℚ) := by
    funext score w
    rw [freqGet_wordFreq]
    by_cases h0 : termFrequency lower sentences w = 0
    · simp [h0]
    · have h1 : ((termFrequency lower sentences w : ℕ) : ℚ) ≠ 0 := by exact_mod_cast h0
      simp [h0, h1]
  rw [hstep, foldl_add_eq_sum (fun w => (termFrequency lower sentences w : ℚ)), zero_add]

theorem getElem?_scoreFrom (lower : JSString → JSString) (freq : List (JSString × ℚ)) :
    ∀ (sentences : List JSString) (k i : Nat),
      (scoreFrom lower freq k sentences)[i]? =
        (sentences[i]?).map
          (fun s => { i := k + i, s := trim s, score := sentenceScore lower freq s }) := by
  intro sentences
  induction sentences with
  | nil => intro k i; simp [scoreFrom]
  | cons s rest ih =>
    intro k i
    cases i with
    | zero => simp [scoreFrom]
    | succ i =>
      simp only [scoreFrom, List.getElem?_cons_succ, ih]
      have : k + 1 + i = k + (i + 1) := by omega
      rw [this]

/-- C24: the local summary keeps the narrative order. For every text in which
`summarizeLocally` finds `k >= 1` sentences, the result is `min(maxSentences, k)` of
those sentences, trimmed, joined by single spaces in their original order of
appearance (the entries behind them are a sublist of the scored sentences), and
every sentence selected has a term-frequency score at least as high as every
sentence not selected. The score of a sentence is the sum, over its lower-cased
words, of the number of times the word occurs in all the sentences, words shorter
than three code units and stop words counting for nothing. -/
theorem local_summary_narrative_order (lower : JSString → JSString) (text : JSString)
    (maxSentences : Nat) (hk : splitSentences text ≠ []) :
    summarizeLocally lower text maxSentences =
      join (js " ")
        ((topSentences (scoreSentences lower (splitSentences text)) maxSentences).map
          ScoredSentence.s) ∧
    (scoreSentences lower (splitSentences text)).map ScoredSentence.s =
      (splitSentences text).map trim ∧
    (scoreSentences lower (splitSentences text)).map ScoredSentence.i =
      List.range (splitSentences text).length ∧
    (∀ (i : Nat) (s : JSString), (splitSentences text)[i]? = some s →
      (scoreSentences lower (splitSentences text))[i]? =
        some { i := i, s := trim s, score := termScore lower (splitSentences text) s }) ∧
    List.Sublist (topSentences (scoreSentences lower (splitSentences text)) maxSentences)
      (scoreSentences lower (splitSentences text)) ∧
    List.Sublist
      ((topSentences (scoreSentences lower (splitSentences text)) maxSentences).map
        ScoredSentence.s)
      ((splitSentences text).map trim) ∧
    (topSentences (scoreSentences lower (splitSentences text)) maxSentences).length =
      min maxSentences (splitSentences text).length ∧
    (∀ x ∈ topSentences (scoreSentences lower (splitSentences text)) maxSentences,
      ∀ y ∈ scoreSentences lower (splitSentences text),
        y ∉ topSentences (scoreSentences lower (splitSentences text)) maxSentences →
          y.score ≤ x.score) := by
  obtain ⟨h1, h2, _, h4⟩ := scoreFrom_spec lower (wordFreq lower (splitSentences text))
    (splitSentences text) 0
  have hsub := topSentences_sublist (scoreSentences lower (splitSentences text)) maxSentences h4
  have hlen : (scoreSentences lower (splitSentences text)).length =
      (splitSentences text).length := by
    have := congrArg List.length h1
    simpa using this
  refine ⟨?_, h1, ?_, ?_, hsub, ?_, ?_, ?_⟩
  · have hl : (splitSentences text).length ≠ 0 := fun h0 => hk (List.length_eq_zero.1 h0)
    simp [summarizeLocally, hl]
  · rw [List.range_eq_range']
    exact h2
  · intro i s hs
    unfold scoreSentences
    rw [getElem?_scoreFrom, hs, Option.map_some', sentenceScore_eq_termScore, zero_add]
  · rw [← h1]
    exact List.Sublist.map _ hsub
  · simp only [topSentences, List.length_insertionSort, List.length_take, hlen]
  · intro x hx y hy hny
    rw [mem_topSentences] at hx hny
    have hy2 : y ∈ (scoreSentences lower (splitSentences text)).insertionSort
        (fun a b => b.score ≤ a.score) := (List.perm_insertionSort _ _).mem_iff.2 hy
    rw [← List.take_append_drop maxSentences
      ((scoreSentences lower (splitSentences text)).insertionSort
        (fun a b => b.score ≤ a.score)), List.mem_append] at hy2
    have hyd := hy2.resolve_left hny
    have hs := sorted_insertionSort_sentence_score (scoreSentences lower (splitSentences text))
    rw [← List.take_append_drop maxSentences
      ((scoreSentences lower (splitSentences text)).insertionSort
        (fun a b => b.score ≤ a.score)), List.pairwise_append] at hs
    exact hs.2.2 x hx y hyd

theorem local_summary_narrative_order_witness :
    (topSentences
        (scoreSentences (fun s => s.map foldAscii) (splitSentences (js "Cats purr. Dogs bark.")))
        3).length =
      min 3 (splitSentences (js "Cats purr. Dogs bark.")).length :=
  (local_summary_narrative_order (fun s => s.map foldAscii) (js "Cats purr. Dogs bark.") 3
    (by decide)).2.2.2.2.2.2.1

/-! ## The source of a summary -/

theorem trim_eq_nil_iff (s : JSString) : trim s = [] ↔ ∀ c ∈ s, isWhiteSpace c = true := by
  unfold trim
  rw [List.reverse_eq_nil_iff, List.dropWhile_eq_nil_iff]
  constructor
  · intro h
    have h1 : s.dropWhile isWhiteSpace = [] := by
      cases hd : s.dropWhile isWhiteSpace with
      | nil => rfl
      | cons a l =>
        have ha : isWhiteSpace a = true := h a (by rw [hd]; simp)
        have hna := List.head_dropWhile_not isWhiteSpace s (by rw [hd]; simp)
        simp only [hd, List.head_cons] at hna
        rw [ha] at hna
        exact absurd hna (by decide)
    exact List.dropWhile_eq_nil_iff.1 h1
  · intro h
    rw [List.dropWhile_eq_nil_iff.2 h]
    intro c hc
    simp at hc

theorem truthy_iff_ne_nil (s : JSString) : truthy s = true ↔ s ≠ [] := by
  cases s <;> simp [truthy]

/-- C21, as the claim states it, fails twice. With a non-blank text and an external
summarizer that returns a summary, the source is `chrome-ai`, none of the three
names of the claim; and a title of 6500 spaces pushes a non-blank text out of the
context, so that the source is `empty` although the text is not blank. -/
theorem summary_source_counterexample :
    (summarizeTask (fun s => s.map foldAscii)
        { taskId := js "k1", pageId := js "p", url := js "https://a", title := js "A",
          text := js "Hello.", meta := [], contentHash := js "h", timestamp := js "t1" }
        (SummarizerReply.response (some (js "S")))).source ∉
      [js "empty", js "external-ai", js "local-fallback"] ∧
    (summarizeTask (fun s => s.map foldAscii)
        { taskId := js "k1", pageId := js "p", url := js "https://a",
          title := List.replicate 6500 32, text := js "Hello.", meta := [],
          contentHash := js "h", timestamp := js "t1" }
        SummarizerReply.unavailable).source = js "empty" ∧
    trim (js "Hello.") ≠ [] := by
  refine ⟨by decide!, by decide!, by decide⟩

/-- C21, amended: `summarizeTask` returns a source that is one of `empty`,
`chrome-ai`, `local-fallback`. It is `empty`, with an empty summary, exactly when
the context (the first 6500 code units of title, meta and text joined by line
feeds) is empty or white space only, which is the case whenever title, meta and
text all are. Otherwise it is `chrome-ai`, with the summary returned, exactly when
the external summarizer returned a non-empty summary, and `local-fallback`, with
the local summary of the context, in every other case. -/
theorem summary_source (lower : JSString → JSString) (task : Task) (reply : SummarizerReply) :
    ((summarizeTask lower task reply).source = js "empty" ∨
      (summarizeTask lower task reply).source = js "chrome-ai" ∨
      (summarizeTask lower task reply).source = js "local-fallback") ∧
    ((summarizeTask lower task reply).source = js "empty" ↔
      ∀ c ∈ summaryContext task, isWhiteSpace c = true) ∧
    ((summarizeTask lower task reply).source = js "empty" →
      (summarizeTask lower task reply).summary = []) ∧
    ((∀ c ∈ task.title, isWhiteSpace c = true) → (∀ c ∈ task.meta, isWhiteSpace c = true) →
      (∀ c ∈ task.text, isWhiteSpace c = true) →
        (summarizeTask lower task reply).source = js "empty") ∧
    ((summarizeTask lower task reply).source = js "chrome-ai" ↔
      (¬ (∀ c ∈ summaryContext task, isWhiteSpace c = true)) ∧
        ∃ s, s ≠ [] ∧ reply = SummarizerReply.response (some s)) ∧
    (∀ s, (summarizeTask lower task reply).source = js "chrome-ai" →
      reply = SummarizerReply.response (some s) → (summarizeTask lower task reply).summary = s) ∧
    ((summarizeTask lower task reply).source = js "local-fallback" →
      (summarizeTask lower task reply).summary = summarizeLocally lower (summaryContext task) 3) := by
  have e1 : js "chrome-ai" ≠ js "empty" := by decide
  have e2 : js "local-fallback" ≠ js "empty" := by decide
  have e3 : js "local-fallback" ≠ js "chrome-ai" := by decide
  have hblank : (∀ c ∈ task.title, isWhiteSpace c = true) →
      (∀ c ∈ task.meta, isWhiteSpace c = true) → (∀ c ∈ task.text, isWhiteSpace c = true) →
      ∀ c ∈ summaryContext task, isWhiteSpace c = true := by
    intro h1 h2 h3 c hc
    have hc2 := List.mem_of_mem_take hc
    have o : ∀ x : JSString, orStr (some x) [] = x := by
      intro x
      cases x <;> simp [orStr, truthy]
    simp only [o, List.mem_append] at hc2
    rcases hc2 with (((hc2 | hc2) | hc2) | hc2) | hc2
    · exact h1 c hc2
    · have : c = 10 := by simpa [js, utf16] using hc2
      rw [this]; decide
    · exact h2 c hc2
    · have : c = 10 := by simpa [js, utf16] using hc2
      rw [this]; decide
    · exact h3 c hc2
  by_cases hb : ∀ c ∈ summaryContext task, isWhiteSpace c = true
  · have ht : truthy (trim (summaryContext task)) = false := by
      rw [(trim_eq_nil_iff _).2 hb]; rfl
    have hres : summarizeTask lower task reply = { summary := [], source := js "empty" } := by
      simp [summarizeTask, ht]
    rw [hres]
    refine ⟨Or.inl rfl, ⟨fun _ => hb, fun _ => rfl⟩, fun _ => rfl, fun _ _ _ => rfl, ?_, ?_, ?_⟩
    · exact ⟨fun h => absurd h.symm e1, fun h => absurd hb h.1⟩
    · intro s h
      exact absurd h.symm e1
    · intro h
      exact absurd h.symm e2
  · have ht : truthy (trim (summaryContext task)) = true := by
      rw [truthy_iff_ne_nil]
      exact fun h => hb ((trim_eq_nil_iff _).1 h)
    by_cases hr : ∃ s, s ≠ [] ∧ reply = SummarizerReply.response (some s)
    · obtain ⟨s, hs, hrep⟩ := hr
      have hts : truthy s = true := (truthy_iff_ne_nil s).2 hs
      have hres : summarizeTask lower task reply = { summary := s, source := js "chrome-ai" } := by
        simp [summarizeTask, ht, hrep, hts]
      rw [hres]
      refine ⟨Or.inr (Or.inl rfl), ⟨fun h => absurd h e1, fun h => absurd h hb⟩,
        fun h => absurd h e1, fun h1 h2 h3 => absurd (hblank h1 h2 h3) hb,
        ⟨fun _ => ⟨hb, s, hs, hrep⟩, fun _ => rfl⟩, ?_, fun h => absurd h.symm e3⟩
      intro s2 _ h2
      rw [hrep] at h2
      simp only [SummarizerReply.response.injEq, Option.some.injEq] at h2
      exact h2
    · have hres : summarizeTask lower task reply =
          { summary := summarizeLocally lower (summaryContext task) 3,
            source := js "local-fallback" } := by
        cases reply with
        | unavailable => simp [summarizeTask, ht]
        | failed => simp [summarizeTask, ht]
        | response o =>
          cases o with
          | none => simp [summarizeTask, ht]
          | some s =>
            have hs : truthy s = false := by
              cases hts : truthy s with
              | false => rfl
              | true => exact absurd ⟨s, (truthy_iff_ne_nil s).1 hts, rfl⟩ hr
            simp [summarizeTask, ht, hs]
      rw [hres]
      refine ⟨Or.inr (Or.inr rfl), ⟨fun h => absurd h e2, fun h => absurd h hb⟩,
        fun h => absurd h e2, fun h1 h2 h3 => absurd (hblank h1 h2 h3) hb,
        ⟨fun h => absurd h e3, fun h => absurd h.2 hr⟩, fun s h => absurd h e3, fun _ => rfl⟩

/-! ## The in-flight set -/

theorem pipelineBody_processingTasks (host : PipelineHost) (o : Orchestrator) (task : Task)
    (outcome : Outcome) :
    (pipelineBody host o task outcome).processingTasks = o.processingTasks := by
  cases outcome <;> rfl

/-- C25: the in-flight set. `processPipelineTask` called for a task whose `taskId`
is already in the set performs no step (store, messages and events are as before)
and leaves the set unchanged. Called for any other task it adds the `taskId`
before the first step, the set holds it through the steps, and the `taskId` is
absent from the set once processing ends, whether every step returned or a step
threw; the set is then what it was before the call. -/
theorem in_flight_set (host : PipelineHost) (o : Orchestrator) (task : Task)
    (outcome : Outcome) :
    (task.taskId ∈ o.processingTasks →
      processPipelineTask host o (some task) outcome = o) ∧
    (task.taskId ∉ o.processingTasks →
      processPipelineTask host o (some task) outcome =
          releaseTask (pipelineBody host (claimTask o task) task outcome) task ∧
        task.taskId ∈ (claimTask o task).processingTasks ∧
        (claimTask o task).store = o.store ∧
        task.taskId ∈ (pipelineBody host (claimTask o task) task outcome).processingTasks ∧
        task.taskId ∉ (processPipelineTask host o (some task) outcome).processingTasks ∧
        (processPipelineTask host o (some task) outcome).processingTasks = o.processingTasks) := by
  constructor
  · intro h
    have hc : o.processingTasks.contains task.taskId = true := by simpa using h
    simp only [processPipelineTask, hc, if_true]
  · intro h
    have hc : o.processingTasks.contains task.taskId = false := by simpa using h
    have h1 : processPipelineTask host o (some task) outcome =
        releaseTask (pipelineBody host (claimTask o task) task outcome) task := by
      simp only [processPipelineTask, hc, Bool.false_eq_true, if_false]
    have h2 : (claimTask o task).processingTasks = o.processingTasks ++ [task.taskId] := by
      simp only [claimTask, setAdd, hc, Bool.false_eq_true, if_false]
    have h3 : (List.filter (fun k => k != task.taskId) o.processingTasks) = o.processingTasks := by
      rw [List.filter_eq_self]
      intro k hk
      simp only [bne_iff_ne, ne_eq]
      exact fun hkt => h (hkt ▸ hk)
    have h4 : (processPipelineTask host o (some task) outcome).processingTasks =
        o.processingTasks := by
      rw [h1]
      simp only [releaseTask, pipelineBody_processingTasks, h2, List.filter_append, h3]
      simp
    refine ⟨h1, ?_, rfl, ?_, ?_, h4⟩
    · rw [h2]; simp
    · rw [pipelineBody_processingTasks, h2]; simp
    · rw [h4]; exact h

end MemoryPal
